import Mathlib

set_option maxHeartbeats 1000000
set_option maxRecDepth 4000

/-!
Shallow embedding of the LottoGenius Pro prediction engine
(src/algorithms.js and src/lottery-data.js).

JavaScript numbers are modelled by the type JSNum below: a rational
together with the three non-finite values NaN, Infinity and -Infinity
that the source can produce (0/0, Math.min of an empty spread, ...).
Randomness (Math.random) is an explicit list of rationals, consumed one
call at a time; unbounded while-loops take a fuel parameter and return
none when the fuel or the random list runs out, so every theorem about a
returned value is a statement about every possible execution.
JavaScript objects with integer-like keys enumerate their keys in
ascending numeric order; they are modelled as association lists kept
sorted by key.  Objects with non-numeric string keys enumerate in
insertion order and are modelled as association lists in insertion
order.  Array.prototype.sort with a numeric comparator is stable; it is
modelled by a stable insertion sort.
-/

/-- A JavaScript number as used by the engine: a finite rational, NaN,
Infinity or -Infinity. -/
inductive JSNum where
  | num (q : ℚ)
  | nan
  | inf
  | ninf
deriving DecidableEq, Repr

/-- JavaScript addition. -/
def jadd : JSNum → JSNum → JSNum
  | JSNum.num a, JSNum.num b => JSNum.num (a + b)
  | JSNum.nan, _ => JSNum.nan
  | _, JSNum.nan => JSNum.nan
  | JSNum.inf, JSNum.ninf => JSNum.nan
  | JSNum.ninf, JSNum.inf => JSNum.nan
  | JSNum.inf, _ => JSNum.inf
  | _, JSNum.inf => JSNum.inf
  | JSNum.ninf, _ => JSNum.ninf
  | _, JSNum.ninf => JSNum.ninf

/-- JavaScript subtraction. -/
def jsub : JSNum → JSNum → JSNum
  | JSNum.num a, JSNum.num b => JSNum.num (a - b)
  | JSNum.nan, _ => JSNum.nan
  | _, JSNum.nan => JSNum.nan
  | JSNum.inf, JSNum.inf => JSNum.nan
  | JSNum.ninf, JSNum.ninf => JSNum.nan
  | JSNum.inf, _ => JSNum.inf
  | _, JSNum.inf => JSNum.ninf
  | JSNum.ninf, _ => JSNum.ninf
  | _, JSNum.ninf => JSNum.inf

/-- JavaScript multiplication. -/
def jmul : JSNum → JSNum → JSNum
  | JSNum.num a, JSNum.num b => JSNum.num (a * b)
  | JSNum.nan, _ => JSNum.nan
  | _, JSNum.nan => JSNum.nan
  | JSNum.inf, JSNum.inf => JSNum.inf
  | JSNum.inf, JSNum.ninf => JSNum.ninf
  | JSNum.ninf, JSNum.inf => JSNum.ninf
  | JSNum.ninf, JSNum.ninf => JSNum.inf
  | JSNum.inf, JSNum.num b => if 0 < b then JSNum.inf else if b < 0 then JSNum.ninf else JSNum.nan
  | JSNum.num a, JSNum.inf => if 0 < a then JSNum.inf else if a < 0 then JSNum.ninf else JSNum.nan
  | JSNum.ninf, JSNum.num b => if 0 < b then JSNum.ninf else if b < 0 then JSNum.inf else JSNum.nan
  | JSNum.num a, JSNum.ninf => if 0 < a then JSNum.ninf else if a < 0 then JSNum.inf else JSNum.nan

/-- JavaScript division. -/
def jdiv : JSNum → JSNum → JSNum
  | JSNum.num a, JSNum.num b =>
      if b = 0 then (if 0 < a then JSNum.inf else if a < 0 then JSNum.ninf else JSNum.nan)
      else JSNum.num (a / b)
  | JSNum.nan, _ => JSNum.nan
  | _, JSNum.nan => JSNum.nan
  | JSNum.inf, JSNum.inf => JSNum.nan
  | JSNum.inf, JSNum.ninf => JSNum.nan
  | JSNum.ninf, JSNum.inf => JSNum.nan
  | JSNum.ninf, JSNum.ninf => JSNum.nan
  | JSNum.num _, JSNum.inf => JSNum.num 0
  | JSNum.num _, JSNum.ninf => JSNum.num 0
  | JSNum.inf, JSNum.num b => if b < 0 then JSNum.ninf else JSNum.inf
  | JSNum.ninf, JSNum.num b => if b < 0 then JSNum.inf else JSNum.ninf

/-- JavaScript comparison x less-or-equal y; false whenever NaN is involved. -/
def jleB : JSNum → JSNum → Bool
  | JSNum.nan, _ => false
  | _, JSNum.nan => false
  | JSNum.ninf, _ => true
  | _, JSNum.inf => true
  | JSNum.inf, _ => false
  | _, JSNum.ninf => false
  | JSNum.num a, JSNum.num b => decide (a ≤ b)

/-- JavaScript comparison x strictly-less-than y; false whenever NaN is involved. -/
def jltB : JSNum → JSNum → Bool
  | JSNum.nan, _ => false
  | _, JSNum.nan => false
  | JSNum.inf, _ => false
  | _, JSNum.ninf => false
  | JSNum.ninf, _ => true
  | _, JSNum.inf => true
  | JSNum.num a, JSNum.num b => decide (a < b)

/-- JavaScript Math.min of two numbers; NaN if either argument is NaN. -/
def jmin : JSNum → JSNum → JSNum
  | JSNum.nan, _ => JSNum.nan
  | _, JSNum.nan => JSNum.nan
  | a, b => if jleB a b then a else b

/-- JavaScript Math.abs. -/
def jabs : JSNum → JSNum
  | JSNum.num a => JSNum.num |a|
  | JSNum.nan => JSNum.nan
  | JSNum.inf => JSNum.inf
  | JSNum.ninf => JSNum.inf

/-- JavaScript Math.round: round half towards positive infinity. -/
def jround : JSNum → JSNum
  | JSNum.num a => JSNum.num ((⌊a + 1/2⌋ : ℤ) : ℚ)
  | JSNum.nan => JSNum.nan
  | JSNum.inf => JSNum.inf
  | JSNum.ninf => JSNum.ninf

/-- JavaScript array indexing arr[i] with a possibly out-of-range index
(out-of-range reads give undefined, modelled as none). -/
def jsIndex {α : Type} (l : List α) (i : ℤ) : Option α :=
  if h : 0 ≤ i ∧ i.toNat < l.length then some (l.get ⟨i.toNat, h.2⟩) else none

/-- Stable insertion of a later element into a list sorted descending by
the key f: the element goes after every earlier element with a
greater-or-equal key, exactly as the stable Array.prototype.sort with
comparator (a, b) => f(b) - f(a) would place it. -/
def insDesc {α : Type} {β : Type} [LinearOrder β] (f : α → β) (x : α) : List α → List α
  | [] => [x]
  | y :: ys => if f y < f x then x :: y :: ys else y :: insDesc f x ys

/-- Stable sort, descending by the key f: model of the stable
Array.prototype.sort with comparator (a, b) => f(b) - f(a). -/
def sortDesc {α : Type} {β : Type} [LinearOrder β] (f : α → β) (l : List α) : List α :=
  l.foldl (fun acc x => insDesc f x acc) []

/-- Ascending numeric sort of a candidate, the sort((a, b) => a - b) of
the source. -/
def sortAsc (l : List ℕ) : List ℕ :=
  l.insertionSort (· ≤ ·)

/-- Sum of the values of an association list, the
Object.values(x).reduce((a, b) => a + b, 0) of the source. -/
def sumVals (l : List (ℕ × JSNum)) : JSNum :=
  l.foldl (fun acc kv => jadd acc kv.2) (JSNum.num 0)

/-- Write key k with value v into an association list kept sorted by key
ascending, overwriting an existing entry: assignment to an integer-like
object key (object key enumeration is in ascending numeric order, so the
representation stays sorted no matter when a key was inserted). -/
def setKey : List (ℕ × JSNum) → ℕ → JSNum → List (ℕ × JSNum)
  | [], k, v => [(k, v)]
  | (k', v') :: rest, k, v =>
      if k < k' then (k, v) :: (k', v') :: rest
      else if k = k' then (k, v) :: rest
      else (k', v') :: setKey rest k v

/-- One pass of the selection scan of weightedSelection: walk the
available entries in key order, subtracting each weight from rand, and
take the first key where rand drops to 0 or below; that key is deleted
from the available map.  Returns none when the pass selects nothing
(which happens in the source exactly when rand never sinks to 0, e.g.
when a NaN weight poisons the running value). -/
def wsScan (rand : JSNum) : List (ℕ × JSNum) → Option (ℕ × List (ℕ × JSNum))
  | [] => none
  | (k, w) :: rest =>
      let rand' := jsub rand w
      if jleB rand' (JSNum.num 0) then some (k, rest)
      else match wsScan rand' rest with
           | some (k', rest') => some (k', (k, w) :: rest')
           | none => none

/-- The total === 0 fallback of weightedSelection: give weight 1 to every
number 1..balls that is not yet selected. -/
def wsFill (balls : ℕ) (selected : List ℕ) (avail : List (ℕ × JSNum)) : List (ℕ × JSNum) :=
  (List.range' 1 balls).foldl
    (fun a i => if i ∈ selected then a else setKey a i (JSNum.num 1)) avail

/-- The while-loop of weightedSelection.  Each iteration recomputes the
total remaining weight; on total === 0 it refills the map with unit
weights and re-enters the loop without consuming randomness; otherwise it
consumes one Math.random() value and scans.  fuel bounds the number of
iterations, rands is the random stream. -/
def wsLoop (balls count : ℕ) : ℕ → List (ℕ × JSNum) → List ℕ → List ℚ →
    Option (List ℕ × List ℚ)
  | 0, _, _, _ => none
  | fuel + 1, avail, selected, rands =>
      if count ≤ selected.length then some (selected, rands)
      else if sumVals avail = JSNum.num 0 then
        wsLoop balls count fuel (wsFill balls selected avail) selected rands
      else
        match rands with
        | [] => none
        | r :: rs =>
            match wsScan (jmul (JSNum.num r) (sumVals avail)) avail with
            | some (k, avail') => wsLoop balls count fuel avail' (selected ++ [k]) rs
            | none => wsLoop balls count fuel avail selected rs

/-- weightedSelection(weights, count) of the source: draw count distinct
keys without replacement, proportional to the remaining weights, and
return them sorted ascending. -/
def weightedSelection (balls : ℕ) (weights : List (ℕ × JSNum)) (count : ℕ)
    (rands : List ℚ) (fuel : ℕ) : Option (List ℕ × List ℚ) :=
  (wsLoop balls count fuel weights [] rands).map (fun p => (sortAsc p.1, p.2))

/-- One historical draw; only the numbers field is consulted by the
prediction engine. -/
structure Draw where
  numbers : List ℕ
deriving DecidableEq, Repr

/-- A game configuration: balls = N (numbers drawn from 1..N),
pick = K (distinct numbers per draw). -/
structure GameConfig where
  balls : ℕ
  pick : ℕ
deriving DecidableEq, Repr

/-- The section-3 invariant on a configuration: K is at least 1 and
strictly below N. -/
def validConfig (g : GameConfig) : Prop :=
  1 ≤ g.pick ∧ g.pick < g.balls

instance (g : GameConfig) : Decidable (validConfig g) :=
  inferInstanceAs (Decidable (1 ≤ g.pick ∧ g.pick < g.balls))

/-- The section-3 invariant on a draw: exactly K distinct numbers, each
in the range 1..N. -/
def validDraw (g : GameConfig) (d : Draw) : Prop :=
  d.numbers.length = g.pick ∧ d.numbers.Nodup ∧ ∀ x ∈ d.numbers, 1 ≤ x ∧ x ≤ g.balls

instance (g : GameConfig) (d : Draw) : Decidable (validDraw g d) :=
  inferInstanceAs (Decidable (_ ∧ _ ∧ _))

/-- A valid dataset: every draw satisfies the draw invariant. -/
def validData (g : GameConfig) (data : List Draw) : Prop :=
  ∀ d ∈ data, validDraw g d

instance (g : GameConfig) (data : List Draw) : Decidable (validData g data) :=
  inferInstanceAs (Decidable (∀ d ∈ data, validDraw g d))

/-- A valid random stream: every Math.random() result lies in [0, 1). -/
def validRands (rands : List ℚ) : Prop :=
  ∀ r ∈ rands, 0 ≤ r ∧ r < 1

instance (rands : List ℚ) : Decidable (validRands rands) :=
  inferInstanceAs (Decidable (∀ r ∈ rands, _ ∧ _))

/-- Occurrence count of number n across the dataset: the per-key value
built by the increments of getNumberFrequency. -/
def numFreq (data : List Draw) (n : ℕ) : ℕ :=
  (data.map (fun d => d.numbers.count n)).sum

/-- getNumberFrequency() of the source: the frequency object, keys
1..balls in ascending order, each initialized to 0 and incremented per
occurrence. -/
def getNumberFrequency (g : GameConfig) (data : List Draw) : List (ℕ × ℕ) :=
  (List.range' 1 g.balls).map (fun n => (n, numFreq data n))

/-- getExpectedFrequency() of the source:
(totalDraws * numbersPerDraw) / balls. -/
def getExpectedFrequency (g : GameConfig) (data : List Draw) : ℚ :=
  ((data.length * g.pick : ℕ) : ℚ) / (g.balls : ℚ)

/-- getHotNumbers(count) of the source: frequency entries sorted by
count descending (stable over ascending key order), first count taken. -/
def getHotNumbers (g : GameConfig) (data : List Draw) (count : ℕ) : List (ℕ × ℕ) :=
  (sortDesc Prod.snd (getNumberFrequency g data)).take count

/-- Stable insertion for an ascending sort by key f, matching the stable
Array.prototype.sort with comparator (a, b) => f(a) - f(b). -/
def insAscBy {α : Type} {β : Type} [LinearOrder β] (f : α → β) (x : α) : List α → List α
  | [] => [x]
  | y :: ys => if f x < f y then x :: y :: ys else y :: insAscBy f x ys

/-- Stable sort ascending by key f. -/
def sortAscBy {α : Type} {β : Type} [LinearOrder β] (f : α → β) (l : List α) : List α :=
  l.foldl (fun acc x => insAscBy f x acc) []

/-- getColdNumbers(count) of the source. -/
def getColdNumbers (g : GameConfig) (data : List Draw) (count : ℕ) : List (ℕ × ℕ) :=
  (sortAscBy Prod.snd (getNumberFrequency g data)).take count

/-- The lastSeen value of a number: the smallest dataset index at which
it appears, or the dataset length when it never appears. -/
def lastSeen (data : List Draw) (n : ℕ) : ℕ :=
  (data.findIdx? (fun d => d.numbers.contains n)).getD data.length

/-- getOverdueNumbers(count) of the source: (number, lastSeen) entries
sorted descending by lastSeen (stable over ascending number order),
first count taken. -/
def getOverdueNumbers (g : GameConfig) (data : List Draw) (count : ℕ) : List (ℕ × ℕ) :=
  (sortDesc Prod.snd ((List.range' 1 g.balls).map (fun n => (n, lastSeen data n)))).take count

/-- Increment the count stored under key k in an insertion-ordered
association list (string-keyed JavaScript object): an absent key is
appended with count 1. -/
def bumpKey {κ : Type} [DecidableEq κ] : List (κ × ℕ) → κ → List (κ × ℕ)
  | [], k => [(k, 1)]
  | (k', c) :: rest, k =>
      if k = k' then (k', c + 1) :: rest else (k', c) :: bumpKey rest k

/-- The ordered i < j index pairs of a draw's numbers, in the loop order
of the source. -/
def drawPairs : List ℕ → List (ℕ × ℕ)
  | [] => []
  | x :: xs => (xs.map (fun y => (x, y))) ++ drawPairs xs

/-- The pair-count object of getCommonPairs, keys in first-occurrence
order (pair keys are strings, so enumeration is insertion order). -/
def pairCounts (data : List Draw) : List ((ℕ × ℕ) × ℕ) :=
  data.foldl (fun acc d => (drawPairs d.numbers).foldl bumpKey acc) []

/-- getCommonPairs(count) of the source: pair counts sorted descending
by count (stable), first count taken. -/
def getCommonPairs (data : List Draw) (count : ℕ) : List ((ℕ × ℕ) × ℕ) :=
  (sortDesc Prod.snd (pairCounts data)).take count

/-- Number of odd entries of a list, the filter(n => n % 2 === 1).length
of the source. -/
def oddCount (l : List ℕ) : ℕ :=
  (l.filter (fun n => decide (n % 2 = 1))).length

/-- getOddEvenDistribution() of the source, keyed by the (odd, even)
pair encoded in the string key, in first-occurrence order. -/
def getOddEvenDistribution (data : List Draw) : List ((ℕ × ℕ) × ℕ) :=
  data.foldl (fun acc d =>
    bumpKey acc (oddCount d.numbers, d.numbers.length - oddCount d.numbers)) []

/-- JavaScript Math.max of two numbers; NaN if either argument is NaN. -/
def jmax : JSNum → JSNum → JSNum
  | JSNum.nan, _ => JSNum.nan
  | _, JSNum.nan => JSNum.nan
  | a, b => if jleB a b then b else a

/-- Result record of getSumDistribution. -/
structure SumDist where
  min : JSNum
  max : JSNum
  avg : JSNum
  ranges : List ((ℕ × ℕ) × ℕ)
deriving DecidableEq, Repr

/-- getSumDistribution() of the source.  Math.min(...sums) of an empty
spread is Infinity, Math.max is -Infinity, and the mean of an empty list
is the NaN 0/0; the 20-wide histogram keys are in first-occurrence
order. -/
def getSumDistribution (data : List Draw) : SumDist :=
  let sums : List ℕ := data.map (fun d => d.numbers.sum)
  { min := sums.foldr (fun x acc => jmin (JSNum.num (x : ℚ)) acc) JSNum.inf
    max := sums.foldr (fun x acc => jmax (JSNum.num (x : ℚ)) acc) JSNum.ninf
    avg := jdiv (JSNum.num ((sums.sum : ℕ) : ℚ)) (JSNum.num (sums.length : ℚ))
    ranges := sums.foldl (fun acc s => bumpKey acc (s / 20 * 20, s / 20 * 20 + 19)) [] }

/-- getDecadeDistribution() of the source: bins of 10, last bin truncated
at balls, each bin counting the dataset numbers whose decade index
(n - 1) / 10 falls in it. -/
def getDecadeDistribution (g : GameConfig) (data : List Draw) : List ((ℕ × ℕ) × ℕ) :=
  (List.range ((g.balls + 9) / 10)).map (fun i =>
    ((10 * i + 1, min (10 * (i + 1)) g.balls),
     (data.map (fun d => (d.numbers.filter (fun n => decide ((n - 1) / 10 = i))).length)).sum))

/-- Gaps between consecutive elements of an (ascending) list. -/
def gapsOf : List ℕ → List ℕ
  | [] => []
  | [_] => []
  | a :: b :: rest => (b - a) :: gapsOf (b :: rest)

/-- Increment the count stored under integer key k in an association
list kept sorted ascending by key (integer-keyed JavaScript object). -/
def bumpSorted : List (ℕ × ℕ) → ℕ → List (ℕ × ℕ)
  | [], k => [(k, 1)]
  | (k', c) :: rest, k =>
      if k < k' then (k, 1) :: (k', c) :: rest
      else if k = k' then (k', c + 1) :: rest
      else (k', c) :: bumpSorted rest k

/-- getDeltaAnalysis() of the source: the histogram of consecutive-number
gaps within each sorted draw, keys ascending (integer keys). -/
def getDeltaAnalysis (data : List Draw) : List (ℕ × ℕ) :=
  data.foldl (fun acc d => (gapsOf (sortAsc d.numbers)).foldl bumpSorted acc) []

/-- Count of numbers in the low half (n <= balls / 2, rational
midpoint). -/
def lowCount (g : GameConfig) (l : List ℕ) : ℕ :=
  (l.filter (fun n => decide ((n : ℚ) ≤ (g.balls : ℚ) / 2))).length

/-- Spread of a list: largest minus smallest element after sorting. -/
def spreadOf (l : List ℕ) : ℕ :=
  (sortAsc l).getLast?.getD 0 - (sortAsc l).head?.getD 0

/-- Result record of getPatternAnalysis. -/
structure PatternStats where
  allOdd : ℕ
  allEven : ℕ
  balanced : ℕ
  lowNumbers : ℕ
  highNumbers : ℕ
  hasConsecutive : ℕ
  spreadOut : ℕ
deriving DecidableEq, Repr

/-- getPatternAnalysis() of the source: seven pattern counters over the
dataset. -/
def getPatternAnalysis (g : GameConfig) (data : List Draw) : PatternStats :=
  { allOdd := data.countP (fun d => decide (oddCount d.numbers = g.pick))
    allEven := data.countP (fun d => decide (oddCount d.numbers = 0))
    balanced := data.countP (fun d => decide (|(oddCount d.numbers : ℚ) - (g.pick : ℚ) / 2| ≤ 1))
    lowNumbers := data.countP (fun d => decide ((g.pick : ℤ) - 1 ≤ (lowCount g d.numbers : ℤ)))
    highNumbers := data.countP (fun d => decide (lowCount g d.numbers ≤ 1))
    hasConsecutive := data.countP (fun d => (gapsOf (sortAsc d.numbers)).contains 1)
    spreadOut := data.countP (fun d => decide ((g.balls : ℚ) * (7 / 10) ≤ (spreadOf d.numbers : ℚ))) }

/-- The number Math.floor(r * balls) + 1 produced from one Math.random()
result r. -/
def genNumber (balls : ℕ) (r : ℚ) : ℕ :=
  (⌊r * (balls : ℚ)⌋ + 1).toNat

/-- The while-loop of generateRandomNumbers: a Set of numbers grown until
it holds pick members (adding an existing member leaves the set
unchanged). -/
def genRandLoop (balls pick : ℕ) : ℕ → List ℕ → List ℚ → Option (List ℕ × List ℚ)
  | 0, _, _ => none
  | fuel + 1, acc, rands =>
      if pick ≤ acc.length then some (acc, rands)
      else
        match rands with
        | [] => none
        | r :: rs =>
            let n := genNumber balls r
            genRandLoop balls pick fuel (if n ∈ acc then acc else acc ++ [n]) rs

/-- generateRandomNumbers() of the source. -/
def generateRandomNumbers (g : GameConfig) (rands : List ℚ) (fuel : ℕ) :
    Option (List ℕ × List ℚ) :=
  genRandLoop g.balls g.pick fuel [] rands

/-- The probability weights of frequencyBasedPrediction:
frequency[num] / totalFreq for every key 1..balls.  On an empty dataset
this is the JavaScript 0/0, i.e. NaN. -/
def frequencyWeights (g : GameConfig) (data : List Draw) : List (ℕ × JSNum) :=
  let totalFreq : ℕ := ((List.range' 1 g.balls).map (fun n => numFreq data n)).sum
  (List.range' 1 g.balls).map (fun n =>
    (n, jdiv (JSNum.num (numFreq data n : ℚ)) (JSNum.num (totalFreq : ℚ))))

/-- frequencyBasedPrediction() of the source. -/
def frequencyBasedPrediction (g : GameConfig) (data : List Draw) (rands : List ℚ)
    (fuel : ℕ) : Option (List ℕ × List ℚ) :=
  weightedSelection g.balls (frequencyWeights g data) g.pick rands fuel

/-- The overdue scores: min(lastSeen / (balls / pick), 3) for every
number. -/
def overdueScores (g : GameConfig) (data : List Draw) : List (ℕ × JSNum) :=
  let expectedInterval := jdiv (JSNum.num (g.balls : ℚ)) (JSNum.num (g.pick : ℚ))
  (List.range' 1 g.balls).map (fun n =>
    (n, jmin (jdiv (JSNum.num (lastSeen data n : ℚ)) expectedInterval) (JSNum.num 3)))

/-- overdueBasedPrediction() of the source. -/
def overdueBasedPrediction (g : GameConfig) (data : List Draw) (rands : List ℚ)
    (fuel : ℕ) : Option (List ℕ × List ℚ) :=
  weightedSelection g.balls (overdueScores g data) g.pick rands fuel

/-- Lookup in the pairScores object of patternBasedPrediction: both
orientations of every common pair are written in list order, the last
write winning; an absent key reads as 0 via the || 0. -/
def pairScoreLookup (ps : List ((ℕ × ℕ) × ℕ)) (a b : ℕ) : ℕ :=
  (((ps.filter (fun e => decide ((e.1.1 = a ∧ e.1.2 = b) ∨ (e.1.1 = b ∧ e.1.2 = a)))).getLast?).map
    Prod.snd).getD 0

/-- The greedy score of a candidate number given the already selected
numbers: frequency[num] plus 2 * pairScore for every selected number. -/
def patternScore (data : List Draw) (ps : List ((ℕ × ℕ) × ℕ)) (selected : List ℕ)
    (num : ℕ) : ℕ :=
  numFreq data num + (selected.map (fun sel => pairScoreLookup ps sel num * 2)).sum

/-- The inner search of the greedy loop: walk num = 1..balls, skip
selected numbers, keep the first number strictly improving the best
score, which starts at -1. -/
def patternBest (balls : ℕ) (scoreOf : ℕ → ℕ) (selected : List ℕ) : Option ℕ × ℤ :=
  (List.range' 1 balls).foldl
    (fun st num =>
      if num ∈ selected then st
      else if st.2 < (scoreOf num : ℤ) then (some num, (scoreOf num : ℤ)) else st)
    (none, -1)

/-- The greedy while-loop of patternBasedPrediction; a null bestNext is
not pushed and the loop re-enters with unchanged state. -/
def patternLoop (g : GameConfig) (data : List Draw) (ps : List ((ℕ × ℕ) × ℕ)) :
    ℕ → List ℕ → Option (List ℕ)
  | 0, _ => none
  | fuel + 1, selected =>
      if g.pick ≤ selected.length then some selected
      else
        match (patternBest g.balls (patternScore data ps selected) selected).1 with
        | some bestNext => patternLoop g data ps fuel (selected ++ [bestNext])
        | none => patternLoop g data ps fuel selected

/-- patternBasedPrediction() of the source: seed with the most frequent
number (first frequency entry after the stable descending sort), then
grow greedily. -/
def patternBasedPrediction (g : GameConfig) (data : List Draw) (rands : List ℚ)
    (fuel : ℕ) : Option (List ℕ × List ℚ) :=
  let ps := getCommonPairs data 30
  match (sortDesc Prod.snd (getNumberFrequency g data)).head? with
  | none => none
  | some seed =>
      (patternLoop g data ps fuel [seed.1]).map (fun sel => (sortAsc sel, rands))

/-- The 1000-attempt rejection-sampling loop of
statisticalEquilibriumPrediction; on exhaustion it falls back to
frequencyBasedPrediction. -/
def equilibLoop (g : GameConfig) (data : List Draw) (targetOdds : ℕ) (targetSum : JSNum) :
    ℕ → List ℚ → ℕ → Option (List ℕ × List ℚ)
  | 0, rands, fuel => frequencyBasedPrediction g data rands fuel
  | attempts + 1, rands, fuel =>
      match generateRandomNumbers g rands fuel with
      | none => none
      | some (candidate, rs) =>
          let odds := oddCount candidate
          let s : ℕ := candidate.sum
          if decide (|(odds : ℤ) - (targetOdds : ℤ)| ≤ 1) &&
             jleB (jabs (jsub (JSNum.num (s : ℚ)) targetSum)) (JSNum.num 30) then
            some (sortAsc candidate, rs)
          else equilibLoop g data targetOdds targetSum attempts rs fuel

/-- statisticalEquilibriumPrediction() of the source; reading the most
common odd/even profile from an empty distribution throws, modelled as
none. -/
def statisticalEquilibriumPrediction (g : GameConfig) (data : List Draw) (rands : List ℚ)
    (fuel : ℕ) : Option (List ℕ × List ℚ) :=
  match (sortDesc Prod.snd (getOddEvenDistribution data)).head? with
  | none => none
  | some entry =>
      equilibLoop g data entry.1.1 (getSumDistribution data).avg 1000 rands fuel

/-- generateCombinations(arr, size) of the source: all size-element
combinations, in the backtracking enumeration order of the source. -/
def generateCombinations : List ℕ → ℕ → List (List ℕ)
  | _, 0 => [[]]
  | [], _ + 1 => []
  | a :: rest, size + 1 =>
      (generateCombinations rest size).map (fun c => a :: c) ++
        generateCombinations rest (size + 1)

/-- The key numbers of wheelingSystemPrediction when none are supplied:
the pick + 3 hottest numbers. -/
def wheelingKeyNumbers (g : GameConfig) (data : List Draw) : List ℕ :=
  (getHotNumbers g data (g.pick + 3)).map Prod.fst

/-- The scored wheel combinations of wheelingSystemPrediction: every
pick-subset of the key numbers with its summed frequency. -/
def wheelingScores (g : GameConfig) (data : List Draw) : List (List ℕ × ℕ) :=
  (generateCombinations (wheelingKeyNumbers g data) g.pick).map
    (fun combo => (combo, (combo.map (fun num => numFreq data num)).sum))

/-- wheelingSystemPrediction() of the source with the default key
numbers; an empty combination list makes the source read scores[0] of an
empty array, modelled as none. -/
def wheelingSystemPrediction (g : GameConfig) (data : List Draw) (rands : List ℚ) :
    Option (List ℕ × List ℚ) :=
  ((sortDesc Prod.snd (wheelingScores g data)).head?).map
    (fun best => (sortAsc best.1, rands))

/-- The ten most frequent deltas, by descending count (stable over
ascending delta order). -/
def deltaSortedDeltas (data : List Draw) : List ℕ :=
  ((sortDesc Prod.snd (getDeltaAnalysis data)).take 10).map Prod.fst

/-- The fallback advance of the delta while-loop:
altNext = last + Math.floor(Math.random() * 10) + 1, pushed when it is
in range and new. -/
def deltaAltPush (g : GameConfig) (numbers : List ℕ) (r2 : ℚ) : List ℕ :=
  if (numbers.getLast?.getD 0 : ℤ) + ⌊r2 * 10⌋ + 1 ≤ (g.balls : ℤ) ∧
      (∀ x ∈ numbers, (x : ℤ) ≠ (numbers.getLast?.getD 0 : ℤ) + ⌊r2 * 10⌋ + 1) then
    numbers ++ [((numbers.getLast?.getD 0 : ℤ) + ⌊r2 * 10⌋ + 1).toNat]
  else numbers

/-- The first while-loop of deltaSystemPrediction.  One random picks a
delta (an out-of-range index reads undefined and last + undefined is
NaN, failing the range test); if the advance is rejected, the
numbers.length < pick guard of the else-if is identically true inside
the loop and a second random drives the fallback advance. -/
def deltaLoop (g : GameConfig) (sortedDeltas : List ℕ) :
    ℕ → List ℕ → List ℚ → Option (List ℕ × List ℚ)
  | 0, _, _ => none
  | fuel + 1, numbers, rands =>
      if g.pick ≤ numbers.length then some (numbers, rands)
      else
        match rands with
        | [] => none
        | r :: rs =>
            match jsIndex sortedDeltas ⌊r * (sortedDeltas.length : ℚ)⌋ with
            | some d =>
                if numbers.getLast?.getD 0 + d ≤ g.balls ∧
                    numbers.getLast?.getD 0 + d ∉ numbers then
                  deltaLoop g sortedDeltas fuel (numbers ++ [numbers.getLast?.getD 0 + d]) rs
                else
                  match rs with
                  | [] => none
                  | r2 :: rs2 => deltaLoop g sortedDeltas fuel (deltaAltPush g numbers r2) rs2
            | none =>
                match rs with
                | [] => none
                | r2 :: rs2 => deltaLoop g sortedDeltas fuel (deltaAltPush g numbers r2) rs2

/-- The final fill loop of deltaSystemPrediction (only reachable with a
full sequence, since the first loop exits solely on length = pick). -/
def deltaFill (g : GameConfig) : ℕ → List ℕ → List ℚ → Option (List ℕ × List ℚ)
  | 0, _, _ => none
  | fuel + 1, numbers, rands =>
      if g.pick ≤ numbers.length then some (numbers, rands)
      else
        match rands with
        | [] => none
        | r :: rs =>
            let rand := genNumber g.balls r
            if rand ∉ numbers then deltaFill g fuel (numbers ++ [rand]) rs
            else deltaFill g fuel numbers rs

/-- deltaSystemPrediction() of the source: random seed in 1..15, then
the delta walk, then the fill loop, then ascending sort. -/
def deltaSystemPrediction (g : GameConfig) (data : List Draw) (rands : List ℚ)
    (fuel : ℕ) : Option (List ℕ × List ℚ) :=
  match rands with
  | [] => none
  | r :: rs =>
      let start := (⌊r * 15⌋ + 1).toNat
      match deltaLoop g (deltaSortedDeltas data) fuel [start] rs with
      | none => none
      | some (numbers, rs2) =>
          (deltaFill g fuel numbers rs2).map (fun p => (sortAsc p.1, p.2))

/-- Transition count from fromN to toN: over every consecutive dataset
pair, draw i supplies the sources and draw i - 1 the targets. -/
def transCount (data : List Draw) (fromN toN : ℕ) : ℕ :=
  ((data.zip data.tail).map
    (fun p => p.2.numbers.count fromN * p.1.numbers.count toN)).sum

/-- Total observed transitions out of fromN (the row sum before
normalization). -/
def markovRowTotal (g : GameConfig) (data : List Draw) (fromN : ℕ) : ℕ :=
  ((List.range' 1 g.balls).map (fun toN => transCount data fromN toN)).sum

/-- The normalized transition entry: divided by the row total only when
that total is positive, otherwise left at its raw (zero) count. -/
def markovProb (g : GameConfig) (data : List Draw) (fromN toN : ℕ) : ℚ :=
  if 0 < markovRowTotal g data fromN then
    (transCount data fromN toN : ℚ) / (markovRowTotal g data fromN : ℚ)
  else (transCount data fromN toN : ℚ)

/-- The markov scores: for each number, the summed transition
probabilities from the most recent draw's numbers. -/
def markovScores (g : GameConfig) (data : List Draw) (lastDraw : List ℕ) :
    List (ℕ × JSNum) :=
  (List.range' 1 g.balls).map (fun i =>
    (i, JSNum.num ((lastDraw.map (fun prev => markovProb g data prev i)).sum)))

/-- markovChainPrediction() of the source; reading data[0].numbers of an
empty dataset throws, modelled as none. -/
def markovChainPrediction (g : GameConfig) (data : List Draw) (rands : List ℚ)
    (fuel : ℕ) : Option (List ℕ × List ℚ) :=
  match data.head? with
  | none => none
  | some d0 => weightedSelection g.balls (markovScores g data d0.numbers) g.pick rands fuel

/-- The cumulative distribution of monteCarloSimulation: the entry for
number i carries the running sum frequency[1]/totalFreq + ... +
frequency[i]/totalFreq accumulated by the source's loop. -/
def mcCdf (g : GameConfig) (data : List Draw) : List (ℕ × JSNum) :=
  (List.range' 1 g.balls).map (fun i =>
    (i, (List.range' 1 i).foldl
      (fun acc n => jadd acc (jdiv (JSNum.num (numFreq data n : ℚ))
        (JSNum.num ((((List.range' 1 g.balls).map (fun m => numFreq data m)).sum : ℕ) : ℚ))))
      (JSNum.num 0)))

/-- The sample loop of one Monte Carlo iteration: draw numbers from the
cdf until pick distinct ones are collected; when find() returns
undefined (all cumulative entries NaN or below rand) the source throws
on .number, modelled as none. -/
def mcSample (g : GameConfig) (cdf : List (ℕ × JSNum)) :
    ℕ → List ℕ → List ℚ → Option (List ℕ × List ℚ)
  | 0, _, _ => none
  | fuel + 1, sample, rands =>
      if g.pick ≤ sample.length then some (sample, rands)
      else
        match rands with
        | [] => none
        | r :: rs =>
            match cdf.find? (fun c => jleB (JSNum.num r) c.2) with
            | none => none
            | some c =>
                if c.1 ∈ sample then mcSample g cdf fuel sample rs
                else mcSample g cdf fuel (sample ++ [c.1]) rs

/-- The iteration loop of monteCarloSimulation, counting each sorted
sample combination (string keys, insertion order). -/
def mcIter (g : GameConfig) (cdf : List (ℕ × JSNum)) :
    ℕ → List (List ℕ × ℕ) → ℕ → List ℚ → Option (List (List ℕ × ℕ) × List ℚ)
  | 0, counts, _, rands => some (counts, rands)
  | iter + 1, counts, fuel, rands =>
      match mcSample g cdf fuel [] rands with
      | none => none
      | some (sample, rs) => mcIter g cdf iter (bumpKey counts (sortAsc sample)) fuel rs

/-- monteCarloSimulation(iterations) of the source: the most frequently
produced combination (reading the head of an empty count list throws,
modelled as none). -/
def monteCarloSimulation (g : GameConfig) (data : List Draw) (iterations : ℕ)
    (rands : List ℚ) (fuel : ℕ) : Option (List ℕ × List ℚ) :=
  match mcIter g (mcCdf g data) iterations [] fuel rands with
  | none => none
  | some (counts, rs) => ((sortDesc Prod.snd counts).head?).map (fun best => (best.1, rs))

/-- The cyclical scores of fourierAnalysisPrediction: numbers seen fewer
than twice score their raw frequency, the rest score
(draws since last seen / mean gap) * frequency. -/
def fourierScores (g : GameConfig) (data : List Draw) : List (ℕ × JSNum) :=
  (List.range' 1 g.balls).map (fun num =>
    (num,
      let positions := (data.enum.filter (fun p => p.2.numbers.contains num)).map Prod.fst
      if positions.length < 2 then JSNum.num (numFreq data num : ℚ)
      else
        let gaps := gapsOf positions
        let avgCycle := jdiv (JSNum.num (gaps.sum : ℚ)) (JSNum.num (gaps.length : ℚ))
        let drawsSinceLast := positions.head?.getD 0
        jmul (jdiv (JSNum.num (drawsSinceLast : ℚ)) avgCycle)
          (JSNum.num (numFreq data num : ℚ))))

/-- fourierAnalysisPrediction() of the source. -/
def fourierAnalysisPrediction (g : GameConfig) (data : List Draw) (rands : List ℚ)
    (fuel : ℕ) : Option (List ℕ × List ℚ) :=
  weightedSelection g.balls (fourierScores g data) g.pick rands fuel

/-- evaluateFitness(numbers) of the source: frequency sum * 0.5, plus
0.3 * frequency of every candidate pair found among the top 50 common
pairs (find takes the first match), plus the odd/even balance bonus,
plus the spread bonus. -/
def evaluateFitness (g : GameConfig) (data : List Draw) (numbers : List ℕ) : ℚ :=
  let pairs := getCommonPairs data 50
  let frequencyPart : ℚ := (numbers.map (fun num => (numFreq data num : ℚ) * (1 / 2))).sum
  let pairPart : ℚ := ((drawPairs numbers).map (fun pq =>
      match pairs.find? (fun p =>
        decide ((p.1.1 = pq.1 ∧ p.1.2 = pq.2) ∨ (p.1.1 = pq.2 ∧ p.1.2 = pq.1))) with
      | some p => (p.2 : ℚ) * (3 / 10)
      | none => 0)).sum
  let odds := oddCount numbers
  let evenCount := numbers.length - odds
  let balancePart : ℚ := (1 - |(odds : ℚ) - (evenCount : ℚ)| / (numbers.length : ℚ)) * 10
  let spreadPart : ℚ := ((spreadOf numbers : ℚ) / (g.balls : ℚ)) * 5
  frequencyPart + pairPart + balancePart + spreadPart

/-- Add an element to a Set modelled as a duplicate-free list in
insertion order. -/
def addElem (l : List ℕ) (x : ℕ) : List ℕ :=
  if x ∈ l then l else l ++ [x]

/-- The random fill loop of crossover: add random numbers until the
child holds pick members. -/
def crossFill (balls pick : ℕ) : ℕ → List ℕ → List ℚ → Option (List ℕ × List ℚ)
  | 0, _, _ => none
  | fuel + 1, child, rands =>
      if pick ≤ child.length then some (child, rands)
      else
        match rands with
        | [] => none
        | r :: rs => crossFill balls pick fuel (addElem child (genNumber balls r)) rs

/-- crossover(parent1, parent2) of the source: a crossover-point prefix
of parent1, then parent2 entries skipping duplicates, then random
top-up; every add is guarded by child.size < pick. -/
def crossover (g : GameConfig) (parent1 parent2 : List ℕ) (rands : List ℚ)
    (fuel : ℕ) : Option (List ℕ × List ℚ) :=
  let crossPoint := g.pick / 2
  let child1 := (parent1.take crossPoint).foldl
    (fun c x => if c.length < g.pick then addElem c x else c) []
  let child2 := parent2.foldl
    (fun c x => if c.length < g.pick then addElem c x else c) child1
  crossFill g.balls g.pick fuel child2 rands

/-- The do-while of mutate: draw random numbers until one is not yet
present in the individual. -/
def mutatePick (balls : ℕ) (current : List ℕ) : ℕ → List ℚ → Option (ℕ × List ℚ)
  | 0, _ => none
  | fuel + 1, rands =>
      match rands with
      | [] => none
      | r :: rs =>
          let newNum := genNumber balls r
          if newNum ∈ current then mutatePick balls current fuel rs
          else some (newNum, rs)

/-- The position loop of mutate: todo counts the positions still to
visit, so the current index is length - todo; each position consumes one
random for the rate test. -/
def mutateLoop (balls : ℕ) (rate : ℚ) (fuel : ℕ) :
    ℕ → List ℕ → List ℚ → Option (List ℕ × List ℚ)
  | 0, l, rands => some (l, rands)
  | todo + 1, l, rands =>
      match rands with
      | [] => none
      | r :: rs =>
          if r < rate then
            match mutatePick balls l fuel rs with
            | none => none
            | some (newNum, rs2) =>
                mutateLoop balls rate fuel todo (l.set (l.length - (todo + 1)) newNum) rs2
          else mutateLoop balls rate fuel todo l rs

/-- mutate(numbers, rate) of the source. -/
def mutate (g : GameConfig) (numbers : List ℕ) (rate : ℚ) (rands : List ℚ)
    (fuel : ℕ) : Option (List ℕ × List ℚ) :=
  mutateLoop g.balls rate fuel numbers.length numbers rands

/-- The offspring while-loop of one genetic generation: two randoms pick
the parents from the elite (an undefined elite entry would throw on
.numbers, modelled as none), then crossover and mutation. -/
def geneticOffspring (g : GameConfig) (elite : List (List ℕ × ℚ)) (popSize : ℕ) :
    ℕ → List (List ℕ) → List ℚ → Option (List (List ℕ) × List ℚ)
  | 0, _, _ => none
  | fuel + 1, newPop, rands =>
      if popSize ≤ newPop.length then some (newPop, rands)
      else
        match rands with
        | [] => none
        | r1 :: rs1 =>
            match jsIndex elite ⌊r1 * (elite.length : ℚ)⌋ with
            | none => none
            | some e1 =>
                match rs1 with
                | [] => none
                | r2 :: rs2 =>
                    match jsIndex elite ⌊r2 * (elite.length : ℚ)⌋ with
                    | none => none
                    | some e2 =>
                        match crossover g e1.1 e2.1 rs2 fuel with
                        | none => none
                        | some (child, rs3) =>
                            match mutate g child (1 / 10) rs3 fuel with
                            | none => none
                            | some (mutated, rs4) =>
                                geneticOffspring g elite popSize fuel (newPop ++ [mutated]) rs4

/-- One generation of geneticAlgorithmPrediction: score, sort descending
by fitness (stable), keep the top floor(popSize * 0.2) as elite, and
refill the population with offspring. -/
def geneticStep (g : GameConfig) (data : List Draw) (popSize : ℕ)
    (population : List (List ℕ)) (rands : List ℚ) (fuel : ℕ) :
    Option (List (List ℕ) × List ℚ) :=
  let scored := population.map (fun ind => (ind, evaluateFitness g data ind))
  let elite := (sortDesc Prod.snd scored).take (popSize / 5)
  geneticOffspring g elite popSize fuel (elite.map Prod.fst) rands

/-- The evolution loop over a fixed number of generations. -/
def geneticGenerations (g : GameConfig) (data : List Draw) (popSize : ℕ) :
    ℕ → List (List ℕ) → List ℚ → ℕ → Option (List (List ℕ) × List ℚ)
  | 0, pop, rands, _ => some (pop, rands)
  | gen + 1, pop, rands, fuel =>
      match geneticStep g data popSize pop rands fuel with
      | none => none
      | some (pop', rs) => geneticGenerations g data popSize gen pop' rs fuel

/-- The population seeding loop of geneticAlgorithmPrediction. -/
def geneticInit (g : GameConfig) :
    ℕ → List (List ℕ) → List ℚ → ℕ → Option (List (List ℕ) × List ℚ)
  | 0, pop, rands, _ => some (pop, rands)
  | i + 1, pop, rands, fuel =>
      match generateRandomNumbers g rands fuel with
      | none => none
      | some (ind, rs) => geneticInit g i (pop ++ [ind]) rs fuel

/-- geneticAlgorithmPrediction(generations, populationSize) of the
source: evolve, then return the fittest final individual sorted
ascending (reading the head of an empty final population throws,
modelled as none). -/
def geneticAlgorithmPrediction (g : GameConfig) (data : List Draw)
    (generations popSize : ℕ) (rands : List ℚ) (fuel : ℕ) :
    Option (List ℕ × List ℚ) :=
  match geneticInit g popSize [] rands fuel with
  | none => none
  | some (pop0, rs0) =>
      match geneticGenerations g data popSize generations pop0 rs0 fuel with
      | none => none
      | some (finalPop, rs) =>
          let final := sortDesc Prod.snd
            (finalPop.map (fun ind => (ind, evaluateFitness g data ind)))
          final.head?.map (fun best => (sortAsc best.1, rs))

/-- The engine's configurable strategy weights (this.weights of the
constructor). -/
structure Weights where
  frequency : ℚ
  overdue : ℚ
  pattern : ℚ
  statistical : ℚ
deriving DecidableEq, Repr

/-- The constructor's initial weights: 0.25 each. -/
def defaultWeights : Weights :=
  { frequency := 1 / 4, overdue := 1 / 4, pattern := 1 / 4, statistical := 1 / 4 }

/-- A partial weights object handed to setWeights: absent keys are
modelled as none. -/
structure WeightsUpdate where
  frequency : Option ℚ
  overdue : Option ℚ
  pattern : Option ℚ
  statistical : Option ℚ
deriving DecidableEq, Repr

/-- setWeights(weights) of the source: the object spread
{ ...this.weights, ...weights } keeps every key the update does not
supply. -/
def setWeights (w : Weights) (u : WeightsUpdate) : Weights :=
  { frequency := u.frequency.getD w.frequency
    overdue := u.overdue.getD w.overdue
    pattern := u.pattern.getD w.pattern
    statistical := u.statistical.getD w.statistical }

/-- The eight strategies combined by hybridPrediction, in the evaluation
order of the source's object literal. -/
inductive HAlg where
  | frequency
  | overdue
  | pattern
  | statistical
  | delta
  | markov
  | genetic
  | fourier
deriving DecidableEq, Repr

/-- The JavaScript x || d on numbers: d whenever x is falsy, i.e. 0. -/
def jsOrDefault (x d : ℚ) : ℚ :=
  if x = 0 then d else x

/-- The per-strategy weight used inside hybridPrediction:
algoWeights[algo] || 0.1, over the stored weights for the four
configurable strategies and the fixed constants for the rest. -/
def hybridAlgoWeight (w : Weights) : HAlg → ℚ
  | HAlg.frequency => jsOrDefault w.frequency (1 / 10)
  | HAlg.overdue => jsOrDefault w.overdue (1 / 10)
  | HAlg.pattern => jsOrDefault w.pattern (1 / 10)
  | HAlg.statistical => jsOrDefault w.statistical (1 / 10)
  | HAlg.delta => jsOrDefault (3 / 20) (1 / 10)
  | HAlg.markov => jsOrDefault (1 / 5) (1 / 10)
  | HAlg.genetic => jsOrDefault (1 / 4) (1 / 10)
  | HAlg.fourier => jsOrDefault (3 / 20) (1 / 10)

/-- Read the value stored under key k of a number-score object. -/
def getVal (sc : List (ℕ × JSNum)) (k : ℕ) : Option JSNum :=
  (sc.find? (fun e => e.1 == k)).map Prod.snd

/-- numberScores[num] += v of the source: a key absent from the object
reads undefined, and undefined + v is NaN. -/
def upsertAdd (sc : List (ℕ × JSNum)) (k : ℕ) (v : ℚ) : List (ℕ × JSNum) :=
  match getVal sc k with
  | some cur => setKey sc k (jadd cur (JSNum.num v))
  | none => setKey sc k JSNum.nan

/-- The positional-credit accumulation of hybridPrediction for one
strategy's candidate: the number at index idx receives
weight * (pick - idx) / pick. -/
def addHybridScore (sc : List (ℕ × JSNum)) (w : ℚ) (prediction : List ℕ)
    (pick : ℕ) : List (ℕ × JSNum) :=
  prediction.enum.foldl
    (fun acc p => upsertAdd acc p.2 (w * (((pick : ℚ) - (p.1 : ℚ)) / (pick : ℚ)))) sc

/-- hybridPrediction() of the source: run the eight strategies in order
(genetic with 30 generations and population 50), accumulate positional
credit into number scores initialized to 0 for keys 1..balls, and run
weighted selection over the result. -/
def hybridPrediction (g : GameConfig) (data : List Draw) (w : Weights)
    (rands : List ℚ) (fuel : ℕ) : Option (List ℕ × List ℚ) :=
  match frequencyBasedPrediction g data rands fuel with
  | none => none
  | some (c1, rs1) =>
    match overdueBasedPrediction g data rs1 fuel with
    | none => none
    | some (c2, rs2) =>
      match patternBasedPrediction g data rs2 fuel with
      | none => none
      | some (c3, rs3) =>
        match statisticalEquilibriumPrediction g data rs3 fuel with
        | none => none
        | some (c4, rs4) =>
          match deltaSystemPrediction g data rs4 fuel with
          | none => none
          | some (c5, rs5) =>
            match markovChainPrediction g data rs5 fuel with
            | none => none
            | some (c6, rs6) =>
              match geneticAlgorithmPrediction g data 30 50 rs6 fuel with
              | none => none
              | some (c7, rs7) =>
                match fourierAnalysisPrediction g data rs7 fuel with
                | none => none
                | some (c8, rs8) =>
                  let base := (List.range' 1 g.balls).map (fun i => (i, JSNum.num 0))
                  let s1 := addHybridScore base (hybridAlgoWeight w HAlg.frequency) c1 g.pick
                  let s2 := addHybridScore s1 (hybridAlgoWeight w HAlg.overdue) c2 g.pick
                  let s3 := addHybridScore s2 (hybridAlgoWeight w HAlg.pattern) c3 g.pick
                  let s4 := addHybridScore s3 (hybridAlgoWeight w HAlg.statistical) c4 g.pick
                  let s5 := addHybridScore s4 (hybridAlgoWeight w HAlg.delta) c5 g.pick
                  let s6 := addHybridScore s5 (hybridAlgoWeight w HAlg.markov) c6 g.pick
                  let s7 := addHybridScore s6 (hybridAlgoWeight w HAlg.genetic) c7 g.pick
                  let s8 := addHybridScore s7 (hybridAlgoWeight w HAlg.fourier) c8 g.pick
                  weightedSelection g.balls s8 g.pick rs8 fuel

/-- calculateConfidence(numbers) of the source: frequency alignment,
balance, spread, decade coverage and pair bonus summed, rounded, and
capped above at 100 (there is no cap below). -/
def calculateConfidence (g : GameConfig) (data : List Draw) (numbers : List ℕ) : JSNum :=
  let expected := getExpectedFrequency g data
  let avgFreq : ℚ := ((numbers.map (fun n => (numFreq data n : ℚ))).sum) / (numbers.length : ℚ)
  let freqPart := jmul (jmin (jdiv (JSNum.num avgFreq) (JSNum.num expected))
    (JSNum.num (3 / 2))) (JSNum.num 20)
  let odds := oddCount numbers
  let halfPick := JSNum.num ((g.pick : ℚ) / 2)
  let balancePart := jmul (jsub (JSNum.num 1)
    (jdiv (jabs (jsub (JSNum.num (odds : ℚ)) halfPick)) halfPick)) (JSNum.num 20)
  let spreadPart := jmul (jmin (jdiv (JSNum.num (spreadOf numbers : ℚ))
    (JSNum.num ((g.balls : ℚ) * (4 / 5)))) (JSNum.num 1)) (JSNum.num 20)
  let decades := (numbers.map (fun n => (n - 1) / 10)).dedup
  let decadePart := jmul (jdiv (JSNum.num (decades.length : ℚ))
    (JSNum.num (((g.balls + 9) / 10 : ℕ) : ℚ))) (JSNum.num 20)
  let pairs := getCommonPairs data 20
  let pairBonus : ℕ := 2 * ((drawPairs numbers).countP (fun pq => pairs.any (fun p =>
    decide ((p.1.1 = pq.1 ∧ p.1.2 = pq.2) ∨ (p.1.2 = pq.1 ∧ p.1.1 = pq.2)))))
  let pairPart := jmin (JSNum.num (pairBonus : ℚ)) (JSNum.num 20)
  jmin (jround (jadd (jadd (jadd (jadd (jadd (JSNum.num 0) freqPart) balancePart)
    spreadPart) decadePart) pairPart)) (JSNum.num 100)

/-- The strategy selector of generateMultipleSets. -/
inductive Alg where
  | frequency
  | overdue
  | pattern
  | statistical
  | wheeling
  | delta
  | markov
  | genetic
  | montecarlo
  | fourier
  | hybrid
deriving DecidableEq, Repr

/-- The switch of generateMultipleSets: run one strategy (genetic and
montecarlo with their default parameters, hybrid over the stored
weights). -/
def runStrategy (alg : Alg) (g : GameConfig) (data : List Draw) (w : Weights)
    (rands : List ℚ) (fuel : ℕ) : Option (List ℕ × List ℚ) :=
  match alg with
  | Alg.frequency => frequencyBasedPrediction g data rands fuel
  | Alg.overdue => overdueBasedPrediction g data rands fuel
  | Alg.pattern => patternBasedPrediction g data rands fuel
  | Alg.statistical => statisticalEquilibriumPrediction g data rands fuel
  | Alg.wheeling => wheelingSystemPrediction g data rands
  | Alg.delta => deltaSystemPrediction g data rands fuel
  | Alg.markov => markovChainPrediction g data rands fuel
  | Alg.genetic => geneticAlgorithmPrediction g data 50 100 rands fuel
  | Alg.montecarlo => monteCarloSimulation g data 10000 rands fuel
  | Alg.fourier => fourierAnalysisPrediction g data rands fuel
  | Alg.hybrid => hybridPrediction g data w rands fuel

/-- The constraint object of generateMultipleSets. -/
structure GenConstraints where
  balanceOddEven : Bool
  balanceHighLow : Bool
  avoidRepeats : Bool
deriving DecidableEq, Repr

/-- The union of the numbers of the three most recent draws. -/
def recentNumbers (data : List Draw) : List ℕ :=
  ((data.take 3).map Draw.numbers).flatten

/-- The balanceOddEven rejection test: odd count outside [2, pick - 2]. -/
def oddEvenViolation (g : GameConfig) (numbers : List ℕ) : Bool :=
  decide ((oddCount numbers : ℤ) < 2 ∨ (g.pick : ℤ) - 2 < (oddCount numbers : ℤ))

/-- The balanceHighLow rejection test: low-half count outside
[2, pick - 2]. -/
def highLowViolation (g : GameConfig) (numbers : List ℕ) : Bool :=
  decide ((lowCount g numbers : ℤ) < 2 ∨ (g.pick : ℤ) - 2 < (lowCount g numbers : ℤ))

/-- The avoidRepeats rejection test: overlap with the recent numbers
above pick / 2. -/
def repeatViolation (g : GameConfig) (data : List Draw) (numbers : List ℕ) : Bool :=
  decide ((g.pick : ℚ) / 2 <
    ((numbers.filter (fun n => (recentNumbers data).contains n)).length : ℚ))

/-- The per-set do-while of generateMultipleSets.  In the source every
constraint branch increments attempts and runs continue, and continue
inside a do-while jumps directly to the loop condition, so each branch
reaches the same condition check with attempts + 1; the body repeats
only while the candidate is a duplicate of an earlier set and the
attempt budget remains. -/
def genAttemptLoop (alg : Alg) (g : GameConfig) (data : List Draw) (w : Weights)
    (constraints : GenConstraints) (used : List (List ℕ)) :
    ℕ → ℕ → List ℚ → Option (List ℕ × List ℚ)
  | 0, _, _ => none
  | fuel + 1, attempts, rands =>
      match runStrategy alg g data w rands fuel with
      | none => none
      | some (numbers, rs) =>
          let attempts' :=
            if constraints.balanceOddEven && oddEvenViolation g numbers then attempts + 1
            else if constraints.balanceHighLow && highLowViolation g numbers then attempts + 1
            else if constraints.avoidRepeats && repeatViolation g data numbers then attempts + 1
            else attempts + 1
          if numbers ∈ used ∧ attempts' < 100 then
            genAttemptLoop alg g data w constraints used fuel attempts' rs
          else some (numbers, rs)

/-- The outer for-loop of generateMultipleSets: accumulate the produced
sets with their confidence, recording each combination as used. -/
def genSetsLoop (alg : Alg) (g : GameConfig) (data : List Draw) (w : Weights)
    (constraints : GenConstraints) :
    ℕ → List (List ℕ) → List (List ℕ × JSNum) → List ℚ → ℕ →
    Option (List (List ℕ × JSNum) × List ℚ)
  | 0, _, sets, rands, _ => some (sets, rands)
  | count + 1, used, sets, rands, fuel =>
      match genAttemptLoop alg g data w constraints used fuel 0 rands with
      | none => none
      | some (numbers, rs) =>
          genSetsLoop alg g data w constraints count (used ++ [numbers])
            (sets ++ [(numbers, calculateConfidence g data numbers)]) rs fuel

/-- Stable insertion for the final confidence sort of
generateMultipleSets: comparator (a, b) => b.confidence - a.confidence,
a NaN comparator value being treated as 0 (keep order). -/
def insConfDesc (x : List ℕ × JSNum) : List (List ℕ × JSNum) → List (List ℕ × JSNum)
  | [] => [x]
  | y :: ys => if jltB y.2 x.2 then x :: y :: ys else y :: insConfDesc x ys

/-- The final sort of generateMultipleSets, descending by confidence. -/
def sortConfDesc (l : List (List ℕ × JSNum)) : List (List ℕ × JSNum) :=
  l.foldl (fun acc x => insConfDesc x acc) []

/-- generateMultipleSets(count, algorithm, constraints) of the source. -/
def generateMultipleSets (g : GameConfig) (data : List Draw) (w : Weights)
    (count : ℕ) (alg : Alg) (constraints : GenConstraints) (rands : List ℚ)
    (fuel : ℕ) : Option (List (List ℕ × JSNum) × List ℚ) :=
  (genSetsLoop alg g data w constraints count [] [] rands fuel).map
    (fun p => (sortConfDesc p.1, p.2))

/-! Lemmas about the JavaScript arithmetic model. -/

theorem jsub_nan_right (x : JSNum) : jsub x JSNum.nan = JSNum.nan := by
  cases x <;> rfl

theorem jleB_nan_left (y : JSNum) : jleB JSNum.nan y = false := by
  cases y <;> rfl

/-- The keys of a number-score object. -/
def keysOf (l : List (ℕ × JSNum)) : List ℕ := l.map Prod.fst

theorem mem_keysOf {l : List (ℕ × JSNum)} {m : ℕ} :
    m ∈ keysOf l ↔ ∃ w, (m, w) ∈ l := by
  constructor
  · intro h
    rcases List.mem_map.mp h with ⟨kv, hkv, he⟩
    exact ⟨kv.2, by obtain ⟨a, b⟩ := kv; cases he; exact hkv⟩
  · rintro ⟨w, h⟩
    exact List.mem_map.mpr ⟨(m, w), h, rfl⟩

theorem setKey_mem {k : ℕ} {v : JSNum} {kv : ℕ × JSNum} :
    ∀ {l : List (ℕ × JSNum)}, kv ∈ setKey l k v → kv ∈ l ∨ kv = (k, v) := by
  intro l
  induction l with
  | nil => intro h; simpa [setKey] using h
  | cons hd tl ih =>
      intro h
      obtain ⟨k', v'⟩ := hd
      simp only [setKey] at h
      by_cases h1 : k < k'
      · rw [if_pos h1] at h
        rcases List.mem_cons.mp h with h | h
        · exact Or.inr (by simp [h])
        · exact Or.inl h
      · rw [if_neg h1] at h
        by_cases h2 : k = k'
        · rw [if_pos h2] at h
          rcases List.mem_cons.mp h with h | h
          · exact Or.inr (by simp [h])
          · exact Or.inl (List.mem_cons_of_mem _ h)
        · rw [if_neg h2] at h
          rcases List.mem_cons.mp h with h | h
          · exact Or.inl (by simp [h])
          · rcases ih h with h3 | h3
            · exact Or.inl (List.mem_cons_of_mem _ h3)
            · exact Or.inr h3

theorem setKey_keys_mem {l : List (ℕ × JSNum)} {k : ℕ} {v : JSNum} {m : ℕ}
    (h : m ∈ keysOf (setKey l k v)) : m ∈ keysOf l ∨ m = k := by
  rcases mem_keysOf.mp h with ⟨w, hw⟩
  rcases setKey_mem hw with h1 | h1
  · exact Or.inl (mem_keysOf.mpr ⟨w, h1⟩)
  · exact Or.inr (by cases h1; rfl)

theorem setKey_sorted {k : ℕ} {v : JSNum} :
    ∀ {l : List (ℕ × JSNum)}, List.Pairwise (· < ·) (keysOf l) →
    List.Pairwise (· < ·) (keysOf (setKey l k v)) := by
  intro l
  induction l with
  | nil => intro _; simp [setKey, keysOf]
  | cons hd tl ih =>
      intro h
      obtain ⟨k', v'⟩ := hd
      simp only [keysOf, List.map_cons, List.pairwise_cons] at h
      obtain ⟨hlt, htl⟩ := h
      simp only [setKey]
      by_cases h1 : k < k'
      · rw [if_pos h1]
        simp only [keysOf, List.map_cons, List.pairwise_cons]
        refine ⟨?_, hlt, htl⟩
        intro m hm
        rcases List.mem_cons.mp hm with hm | hm
        · exact hm ▸ h1
        · exact lt_trans h1 (hlt m hm)
      · rw [if_neg h1]
        by_cases h2 : k = k'
        · rw [if_pos h2]
          simp only [keysOf, List.map_cons, List.pairwise_cons]
          exact ⟨fun m hm => h2 ▸ hlt m hm, htl⟩
        · rw [if_neg h2]
          simp only [keysOf, List.map_cons, List.pairwise_cons]
          refine ⟨?_, ih htl⟩
          intro m hm
          rcases setKey_keys_mem (v := v) (by simpa [keysOf] using hm) with h3 | h3
          · exact hlt m h3
          · subst h3
            rcases lt_trichotomy m k' with h4 | h4 | h4
            · exact absurd h4 h1
            · exact absurd h4 h2
            · exact h4

theorem wsFill_aux_mem {selected : List ℕ} :
    ∀ (L : List ℕ) (acc : List (ℕ × JSNum)) (kv : ℕ × JSNum),
      kv ∈ L.foldl (fun a i => if i ∈ selected then a else setKey a i (JSNum.num 1)) acc →
      kv ∈ acc ∨ (kv.1 ∈ L ∧ kv.2 = JSNum.num 1 ∧ kv.1 ∉ selected) := by
  intro L
  induction L with
  | nil => intro acc kv h; exact Or.inl h
  | cons i L' ih =>
      intro acc kv h
      simp only [List.foldl_cons] at h
      rcases ih _ kv h with h1 | h1
      · by_cases h2 : i ∈ selected
        · rw [if_pos h2] at h1; exact Or.inl h1
        · rw [if_neg h2] at h1
          rcases setKey_mem h1 with h3 | h3
          · exact Or.inl h3
          · exact Or.inr ⟨by simp [h3], by simp [h3], by simpa [h3] using h2⟩
      · exact Or.inr ⟨List.mem_cons_of_mem _ h1.1, h1.2⟩

theorem wsFill_mem {balls : ℕ} {selected : List ℕ} {avail : List (ℕ × JSNum)}
    {kv : ℕ × JSNum} (h : kv ∈ wsFill balls selected avail) :
    kv ∈ avail ∨ (1 ≤ kv.1 ∧ kv.1 ≤ balls ∧ kv.2 = JSNum.num 1 ∧ kv.1 ∉ selected) := by
  rcases wsFill_aux_mem _ _ _ h with h1 | h1
  · exact Or.inl h1
  · rcases h1 with ⟨hmem, hv, hsel⟩
    rcases List.mem_range'_1.mp hmem with ⟨h2, h3⟩
    exact Or.inr ⟨h2, by omega, hv, hsel⟩

theorem wsFill_aux_sorted {selected : List ℕ} :
    ∀ (L : List ℕ) (acc : List (ℕ × JSNum)),
      List.Pairwise (· < ·) (keysOf acc) →
      List.Pairwise (· < ·) (keysOf
        (L.foldl (fun a i => if i ∈ selected then a else setKey a i (JSNum.num 1)) acc)) := by
  intro L
  induction L with
  | nil => intro acc h; exact h
  | cons i L' ih =>
      intro acc h
      simp only [List.foldl_cons]
      apply ih
      by_cases h2 : i ∈ selected
      · rw [if_pos h2]; exact h
      · rw [if_neg h2]; exact setKey_sorted h

theorem wsFill_sorted {balls : ℕ} {selected : List ℕ} {avail : List (ℕ × JSNum)}
    (h : List.Pairwise (· < ·) (keysOf avail)) :
    List.Pairwise (· < ·) (keysOf (wsFill balls selected avail)) :=
  wsFill_aux_sorted _ _ h

theorem wsScan_eq_some :
    ∀ {l : List (ℕ × JSNum)} {rand : JSNum} {k : ℕ} {l' : List (ℕ × JSNum)},
      wsScan rand l = some (k, l') →
      ∃ pre w post, l = pre ++ (k, w) :: post ∧ l' = pre ++ post ∧ w ≠ JSNum.nan := by
  intro l
  induction l with
  | nil => intro rand k l' h; simp [wsScan] at h
  | cons hd tl ih =>
      intro rand k l' h
      obtain ⟨k0, w0⟩ := hd
      simp only [wsScan] at h
      by_cases hc : jleB (jsub rand w0) (JSNum.num 0) = true
      · rw [if_pos hc] at h
        injection h with h1
        injection h1 with h2 h3
        subst h2; subst h3
        refine ⟨[], w0, tl, by simp, by simp, ?_⟩
        intro hw
        subst hw
        rw [jsub_nan_right] at hc
        rw [jleB_nan_left] at hc
        exact Bool.noConfusion hc
      · rw [if_neg (by simpa using hc)] at h
        cases hs : wsScan (jsub rand w0) tl with
        | none => rw [hs] at h; exact absurd h (by simp)
        | some p =>
            obtain ⟨k1, rest'⟩ := p
            rw [hs] at h
            injection h with h1
            injection h1 with h2 h3
            subst h2; subst h3
            rcases ih hs with ⟨pre, w, post, h4, h5, h6⟩
            exact ⟨(k0, w0) :: pre, w, post, by simp [h4], by simp [h5], h6⟩

theorem sortAsc_perm (l : List ℕ) : List.Perm (sortAsc l) l :=
  List.perm_insertionSort _ l

theorem sortAsc_sorted (l : List ℕ) : List.Sorted (· ≤ ·) (sortAsc l) :=
  List.sorted_insertionSort _ l

theorem sortAsc_mem {l : List ℕ} {x : ℕ} : x ∈ sortAsc l ↔ x ∈ l :=
  (sortAsc_perm l).mem_iff

theorem sortAsc_length (l : List ℕ) : (sortAsc l).length = l.length :=
  (sortAsc_perm l).length_eq

theorem sortAsc_nodup {l : List ℕ} (h : l.Nodup) : (sortAsc l).Nodup :=
  (sortAsc_perm l).nodup_iff.mpr h

theorem sortAsc_sortedLt {l : List ℕ} (h : l.Nodup) : List.Sorted (· < ·) (sortAsc l) :=
  (sortAsc_sorted l).lt_of_le (sortAsc_nodup h)

theorem wsScan_k_not_mem {pre post : List (ℕ × JSNum)} {k : ℕ} {w : JSNum}
    (hs : List.Pairwise (· < ·) (keysOf (pre ++ (k, w) :: post))) :
    k ∉ keysOf (pre ++ post) := by
  have he : keysOf (pre ++ (k, w) :: post) = keysOf pre ++ k :: keysOf post := by
    simp [keysOf]
  rw [he] at hs
  rcases List.pairwise_append.mp hs with ⟨hp1, hp2, hp3⟩
  intro hmem
  have he2 : keysOf (pre ++ post) = keysOf pre ++ keysOf post := by simp [keysOf]
  rw [he2] at hmem
  rcases List.mem_append.mp hmem with hmem | hmem
  · exact lt_irrefl k (hp3 k hmem k (List.mem_cons_self _ _))
  · exact lt_irrefl k ((List.pairwise_cons.mp hp2).1 k hmem)

theorem wsLoop_good {balls count : ℕ} :
    ∀ (fuel : ℕ) (avail : List (ℕ × JSNum)) (selected : List ℕ) (rands : List ℚ)
      (out : List ℕ) (rands' : List ℚ),
      (∀ kv ∈ avail, (1 ≤ kv.1 ∧ kv.1 ≤ balls) ∨ kv.2 = JSNum.nan) →
      List.Pairwise (· < ·) (keysOf avail) →
      selected.Nodup →
      (∀ x ∈ selected, 1 ≤ x ∧ x ≤ balls) →
      (∀ x ∈ selected, x ∉ keysOf avail) →
      selected.length ≤ count →
      wsLoop balls count fuel avail selected rands = some (out, rands') →
      out.Nodup ∧ out.length = count ∧ ∀ x ∈ out, 1 ≤ x ∧ x ≤ balls := by
  intro fuel
  induction fuel with
  | zero =>
      intro avail selected rands out rands' _ _ _ _ _ _ h
      simp [wsLoop] at h
  | succ fuel ih =>
      intro avail selected rands out rands' hw hs hnd hrange hdisj hlen h
      have hfill : ∀ (rands0 : List ℚ),
          wsLoop balls count fuel (wsFill balls selected avail) selected rands0 =
            some (out, rands') →
          out.Nodup ∧ out.length = count ∧ ∀ x ∈ out, 1 ≤ x ∧ x ≤ balls := by
        intro rands0 h0
        refine ih _ _ _ _ _ ?_ (wsFill_sorted hs) hnd hrange ?_ hlen h0
        · intro kv hkv
          rcases wsFill_mem hkv with h1 | h1
          · exact hw kv h1
          · exact Or.inl ⟨h1.1, h1.2.1⟩
        · intro x hx hmem
          rcases mem_keysOf.mp hmem with ⟨w, hw2⟩
          rcases wsFill_mem hw2 with h1 | h1
          · exact hdisj x hx (mem_keysOf.mpr ⟨w, h1⟩)
          · exact h1.2.2.2 hx
      have hexit : some (selected, rands) = some (out, rands') → count ≤ selected.length →
          out.Nodup ∧ out.length = count ∧ ∀ x ∈ out, 1 ≤ x ∧ x ≤ balls := by
        intro h0 hc1
        injection h0 with h1
        injection h1 with h2 h3
        subst h2
        exact ⟨hnd, le_antisymm hlen hc1, hrange⟩
      cases rands with
      | nil =>
          simp only [wsLoop] at h
          by_cases hc1 : count ≤ selected.length
          · rw [if_pos hc1] at h
            exact hexit h hc1
          · rw [if_neg hc1] at h
            by_cases hc2 : sumVals avail = JSNum.num 0
            · rw [if_pos hc2] at h
              exact hfill _ h
            · rw [if_neg hc2] at h
              exact Option.noConfusion h
      | cons r rs =>
          simp only [wsLoop] at h
          by_cases hc1 : count ≤ selected.length
          · rw [if_pos hc1] at h
            exact hexit h hc1
          · rw [if_neg hc1] at h
            by_cases hc2 : sumVals avail = JSNum.num 0
            · rw [if_pos hc2] at h
              exact hfill _ h
            · rw [if_neg hc2] at h
              cases hscan : wsScan (jmul (JSNum.num r) (sumVals avail)) avail with
              | none =>
                  rw [hscan] at h
                  exact ih _ _ _ _ _ hw hs hnd hrange hdisj hlen h
              | some p =>
                  obtain ⟨k, avail'⟩ := p
                  rw [hscan] at h
                  rcases wsScan_eq_some hscan with ⟨pre, w, post, h1, h2, h3⟩
                  subst h1
                  subst h2
                  have hkmem : (k, w) ∈ pre ++ (k, w) :: post := by simp
                  have hkrange : 1 ≤ k ∧ k ≤ balls := by
                    rcases hw _ hkmem with h4 | h4
                    · exact h4
                    · exact absurd h4 h3
                  have hknotsel : k ∉ selected := by
                    intro hx
                    exact hdisj k hx (mem_keysOf.mpr ⟨w, hkmem⟩)
                  have hsub : ∀ kv ∈ pre ++ post, kv ∈ pre ++ (k, w) :: post := by
                    intro kv hkv
                    rcases List.mem_append.mp hkv with h4 | h4
                    · exact List.mem_append.mpr (Or.inl h4)
                    · exact List.mem_append.mpr (Or.inr (List.mem_cons_of_mem _ h4))
                  have hs' : List.Pairwise (· < ·) (keysOf (pre ++ post)) := by
                    have hsl : List.Sublist (keysOf (pre ++ post))
                        (keysOf (pre ++ (k, w) :: post)) := by
                      simp only [keysOf, List.map_append, List.map_cons]
                      exact (List.sublist_cons_self k _).append_left _
                    exact hs.sublist hsl
                  refine ih _ _ _ _ _ (fun kv hkv => hw kv (hsub kv hkv)) hs' ?_ ?_ ?_ ?_ h
                  · exact List.Nodup.append hnd (List.nodup_singleton k)
                      (by intro x hx hk
                          rcases List.mem_singleton.mp hk with rfl
                          exact hknotsel hx)
                  · intro x hx
                    rcases List.mem_append.mp hx with h4 | h4
                    · exact hrange x h4
                    · rcases List.mem_singleton.mp h4 with rfl
                      exact hkrange
                  · intro x hx hmem
                    rcases List.mem_append.mp hx with h4 | h4
                    · rcases mem_keysOf.mp hmem with ⟨w2, hw2⟩
                      exact hdisj x h4 (mem_keysOf.mpr ⟨w2, hsub _ hw2⟩)
                    · rcases List.mem_singleton.mp h4 with rfl
                      exact wsScan_k_not_mem hs hmem
                  · rw [List.length_append, List.length_singleton]
                    omega

theorem wsLoop_mem {balls count : ℕ} {x : ℕ} :
    ∀ (fuel : ℕ) (avail : List (ℕ × JSNum)) (selected : List ℕ) (rands : List ℚ)
      (out : List ℕ) (rands' : List ℚ),
      x ∈ selected →
      wsLoop balls count fuel avail selected rands = some (out, rands') →
      x ∈ out := by
  intro fuel
  induction fuel with
  | zero => intro avail selected rands out rands' _ h; simp [wsLoop] at h
  | succ fuel ih =>
      intro avail selected rands out rands' hx h
      have hexit : some (selected, rands) = some (out, rands') → x ∈ out := by
        intro h0
        injection h0 with h1
        injection h1 with h2 h3
        subst h2
        exact hx
      cases rands with
      | nil =>
          simp only [wsLoop] at h
          by_cases hc1 : count ≤ selected.length
          · rw [if_pos hc1] at h
            exact hexit h
          · rw [if_neg hc1] at h
            by_cases hc2 : sumVals avail = JSNum.num 0
            · rw [if_pos hc2] at h
              exact ih _ _ _ _ _ hx h
            · rw [if_neg hc2] at h
              exact Option.noConfusion h
      | cons r rs =>
          simp only [wsLoop] at h
          by_cases hc1 : count ≤ selected.length
          · rw [if_pos hc1] at h
            exact hexit h
          · rw [if_neg hc1] at h
            by_cases hc2 : sumVals avail = JSNum.num 0
            · rw [if_pos hc2] at h
              exact ih _ _ _ _ _ hx h
            · rw [if_neg hc2] at h
              cases hscan : wsScan (jmul (JSNum.num r) (sumVals avail)) avail with
              | none =>
                  rw [hscan] at h
                  exact ih _ _ _ _ _ hx h
              | some p =>
                  obtain ⟨k, avail'⟩ := p
                  rw [hscan] at h
                  exact ih _ _ _ _ _ (List.mem_append.mpr (Or.inl hx)) h

theorem weightedSelection_good {balls count : ℕ} {weights : List (ℕ × JSNum)}
    {rands rands' : List ℚ} {fuel : ℕ} {out : List ℕ}
    (hw : ∀ kv ∈ weights, (1 ≤ kv.1 ∧ kv.1 ≤ balls) ∨ kv.2 = JSNum.nan)
    (hs : List.Pairwise (· < ·) (keysOf weights))
    (h : weightedSelection balls weights count rands fuel = some (out, rands')) :
    List.Sorted (· < ·) out ∧ out.length = count ∧ ∀ x ∈ out, 1 ≤ x ∧ x ≤ balls := by
  unfold weightedSelection at h
  cases hl : wsLoop balls count fuel weights [] rands with
  | none => rw [hl] at h; simp at h
  | some p =>
      rw [hl] at h
      obtain ⟨sel, rs⟩ := p
      simp only [Option.map_some'] at h
      injection h with h1
      injection h1 with h2 h3
      subst h2
      rcases wsLoop_good fuel weights [] rands sel rs hw hs (by simp) (by simp)
        (by simp) (by simp) hl with ⟨hnd, hlen, hrange⟩
      refine ⟨sortAsc_sortedLt hnd, ?_, ?_⟩
      · rw [sortAsc_length, hlen]
      · intro x hx
        exact hrange x (sortAsc_mem.mp hx)

/-- The shape every strategy is claimed to produce: a sorted sequence of
exactly pick distinct numbers, each between 1 and hi. -/
def goodCandidate (hi pick : ℕ) (c : List ℕ) : Prop :=
  List.Sorted (· < ·) c ∧ c.length = pick ∧ ∀ x ∈ c, 1 ≤ x ∧ x ≤ hi

instance (hi pick : ℕ) (c : List ℕ) : Decidable (goodCandidate hi pick c) :=
  inferInstanceAs (Decidable (_ ∧ _ ∧ _))

theorem head?_mem {α : Type} {l : List α} {a : α} (h : l.head? = some a) : a ∈ l := by
  cases l with
  | nil => exact Option.noConfusion h
  | cons x xs =>
      injection h with h1
      exact h1 ▸ List.mem_cons_self x xs

theorem rangeMapWeights_inv {balls : ℕ} (f : ℕ → JSNum) :
    ∀ kv ∈ (List.range' 1 balls).map (fun n => (n, f n)),
      (1 ≤ kv.1 ∧ kv.1 ≤ balls) ∨ kv.2 = JSNum.nan := by
  intro kv hkv
  rcases List.mem_map.mp hkv with ⟨n, hn, he⟩
  rcases List.mem_range'_1.mp hn with ⟨h1, h2⟩
  exact Or.inl (by rw [← he]; exact ⟨h1, by omega⟩)

theorem rangeMapWeights_sorted {balls : ℕ} (f : ℕ → JSNum) :
    List.Pairwise (· < ·) (keysOf ((List.range' 1 balls).map (fun n => (n, f n)))) := by
  have he : keysOf ((List.range' 1 balls).map (fun n => (n, f n))) = List.range' 1 balls := by
    rw [keysOf, List.map_map]
    have h2 : (Prod.fst ∘ fun n : ℕ => (n, f n)) = id := rfl
    rw [h2, List.map_id]
  rw [he]
  exact List.pairwise_lt_range' 1 balls

theorem frequencyBasedPrediction_good {g : GameConfig} {data : List Draw}
    {rands rands' : List ℚ} {fuel : ℕ} {c : List ℕ}
    (h : frequencyBasedPrediction g data rands fuel = some (c, rands')) :
    goodCandidate g.balls g.pick c := by
  unfold frequencyBasedPrediction frequencyWeights at h
  exact weightedSelection_good (rangeMapWeights_inv _) (rangeMapWeights_sorted _) h

theorem overdueBasedPrediction_good {g : GameConfig} {data : List Draw}
    {rands rands' : List ℚ} {fuel : ℕ} {c : List ℕ}
    (h : overdueBasedPrediction g data rands fuel = some (c, rands')) :
    goodCandidate g.balls g.pick c := by
  unfold overdueBasedPrediction overdueScores at h
  exact weightedSelection_good (rangeMapWeights_inv _) (rangeMapWeights_sorted _) h

theorem markovChainPrediction_good {g : GameConfig} {data : List Draw}
    {rands rands' : List ℚ} {fuel : ℕ} {c : List ℕ}
    (h : markovChainPrediction g data rands fuel = some (c, rands')) :
    goodCandidate g.balls g.pick c := by
  unfold markovChainPrediction at h
  cases hd : data.head? with
  | none => rw [hd] at h; exact Option.noConfusion h
  | some d0 =>
      rw [hd] at h
      unfold markovScores at h
      exact weightedSelection_good (rangeMapWeights_inv _) (rangeMapWeights_sorted _) h

theorem fourierAnalysisPrediction_good {g : GameConfig} {data : List Draw}
    {rands rands' : List ℚ} {fuel : ℕ} {c : List ℕ}
    (h : fourierAnalysisPrediction g data rands fuel = some (c, rands')) :
    goodCandidate g.balls g.pick c := by
  unfold fourierAnalysisPrediction fourierScores at h
  exact weightedSelection_good (rangeMapWeights_inv _) (rangeMapWeights_sorted _) h

theorem validRands_cons {r : ℚ} {rs : List ℚ} (h : validRands (r :: rs)) :
    (0 ≤ r ∧ r < 1) ∧ validRands rs :=
  ⟨h r (List.mem_cons_self r rs), fun x hx => h x (List.mem_cons_of_mem _ hx)⟩

theorem genNumber_range {balls : ℕ} {r : ℚ} (hb : 1 ≤ balls) (h0 : 0 ≤ r) (h1 : r < 1) :
    1 ≤ genNumber balls r ∧ genNumber balls r ≤ balls := by
  unfold genNumber
  have hf0 : (0 : ℤ) ≤ ⌊r * (balls : ℚ)⌋ :=
    Int.floor_nonneg.mpr (mul_nonneg h0 (by positivity))
  have hf1 : ⌊r * (balls : ℚ)⌋ < (balls : ℤ) := by
    apply Int.floor_lt.mpr
    push_cast
    calc r * (balls : ℚ) < 1 * (balls : ℚ) := by
          apply mul_lt_mul_of_pos_right h1
          positivity
      _ = (balls : ℚ) := one_mul _
  omega

theorem genRandLoop_good {balls pick : ℕ} (hb : 1 ≤ balls) :
    ∀ (fuel : ℕ) (acc : List ℕ) (rands : List ℚ) (out : List ℕ) (rands' : List ℚ),
      validRands rands →
      acc.Nodup → (∀ x ∈ acc, 1 ≤ x ∧ x ≤ balls) → acc.length ≤ pick →
      genRandLoop balls pick fuel acc rands = some (out, rands') →
      out.Nodup ∧ out.length = pick ∧ (∀ x ∈ out, 1 ≤ x ∧ x ≤ balls) ∧
        validRands rands' := by
  intro fuel
  induction fuel with
  | zero => intro acc rands out rands' _ _ _ _ h; simp [genRandLoop] at h
  | succ fuel ih =>
      intro acc rands out rands' hv hnd hrange hlen h
      have hexit : some (acc, rands) = some (out, rands') → pick ≤ acc.length →
          out.Nodup ∧ out.length = pick ∧ (∀ x ∈ out, 1 ≤ x ∧ x ≤ balls) ∧
            validRands rands' := by
        intro h0 hc
        injection h0 with h1
        injection h1 with h2 h3
        subst h2; subst h3
        exact ⟨hnd, le_antisymm hlen hc, hrange, hv⟩
      cases rands with
      | nil =>
          simp only [genRandLoop] at h
          by_cases hc : pick ≤ acc.length
          · rw [if_pos hc] at h
            exact hexit h hc
          · rw [if_neg hc] at h
            exact Option.noConfusion h
      | cons r rs =>
          simp only [genRandLoop] at h
          by_cases hc : pick ≤ acc.length
          · rw [if_pos hc] at h
            exact hexit h hc
          · rw [if_neg hc] at h
            rcases validRands_cons hv with ⟨⟨hr0, hr1⟩, hvrs⟩
            rcases genNumber_range hb hr0 hr1 with ⟨hn1, hn2⟩
            by_cases hm : genNumber balls r ∈ acc
            · rw [if_pos hm] at h
              exact ih _ _ _ _ hvrs hnd hrange hlen h
            · rw [if_neg hm] at h
              refine ih _ _ _ _ hvrs ?_ ?_ ?_ h
              · exact List.Nodup.append hnd (List.nodup_singleton _)
                  (by intro x hx hk
                      rcases List.mem_singleton.mp hk with rfl
                      exact hm hx)
              · intro x hx
                rcases List.mem_append.mp hx with h4 | h4
                · exact hrange x h4
                · rcases List.mem_singleton.mp h4 with rfl
                  exact ⟨hn1, hn2⟩
              · rw [List.length_append, List.length_singleton]
                omega

theorem generateRandomNumbers_good {g : GameConfig} {rands rands' : List ℚ}
    {fuel : ℕ} {out : List ℕ} (hb : 1 ≤ g.balls) (hv : validRands rands)
    (h : generateRandomNumbers g rands fuel = some (out, rands')) :
    out.Nodup ∧ out.length = g.pick ∧ (∀ x ∈ out, 1 ≤ x ∧ x ≤ g.balls) ∧
      validRands rands' :=
  genRandLoop_good hb fuel [] rands out rands' hv (by simp) (by simp) (by simp) h

theorem insDesc_perm {α : Type} {β : Type} [LinearOrder β] (f : α → β) (x : α)
    (l : List α) : List.Perm (insDesc f x l) (x :: l) := by
  induction l with
  | nil => exact List.Perm.refl _
  | cons y ys ih =>
      unfold insDesc
      by_cases hc : f y < f x
      · rw [if_pos hc]
      · rw [if_neg hc]
        exact List.Perm.trans (ih.cons y) (List.Perm.swap x y ys)

theorem sortDesc_perm {α : Type} {β : Type} [LinearOrder β] (f : α → β) (l : List α) :
    List.Perm (sortDesc f l) l := by
  suffices h : ∀ (L acc : List α),
      List.Perm (L.foldl (fun a x => insDesc f x a) acc) (acc ++ L) by
    simpa using h l []
  intro L
  induction L with
  | nil => intro acc; simp
  | cons x L' ih =>
      intro acc
      simp only [List.foldl_cons]
      refine List.Perm.trans (ih _) ?_
      refine List.Perm.trans ((insDesc_perm f x acc).append_right L') ?_
      exact List.perm_middle.symm

theorem mem_sortDesc {α : Type} {β : Type} [LinearOrder β] {f : α → β} {l : List α}
    {x : α} : x ∈ sortDesc f l ↔ x ∈ l :=
  (sortDesc_perm f l).mem_iff

theorem insDesc_pairwise {α : Type} {β : Type} [LinearOrder β] {f : α → β} {x : α}
    {l : List α} (h : List.Pairwise (fun a b => f b ≤ f a) l) :
    List.Pairwise (fun a b => f b ≤ f a) (insDesc f x l) := by
  induction l with
  | nil => simp [insDesc]
  | cons y ys ih =>
      rcases List.pairwise_cons.mp h with ⟨hy, hys⟩
      unfold insDesc
      by_cases hc : f y < f x
      · rw [if_pos hc]
        refine List.pairwise_cons.mpr ⟨?_, h⟩
        intro b hb
        rcases List.mem_cons.mp hb with rfl | hb
        · exact le_of_lt hc
        · exact le_trans (hy b hb) (le_of_lt hc)
      · rw [if_neg hc]
        refine List.pairwise_cons.mpr ⟨?_, ih hys⟩
        intro b hb
        rcases List.mem_cons.mp ((insDesc_perm f x ys).mem_iff.mp hb) with rfl | h4
        · exact le_of_not_lt hc
        · exact hy b h4

theorem sortDesc_pairwise {α : Type} {β : Type} [LinearOrder β] (f : α → β)
    (l : List α) : List.Pairwise (fun a b => f b ≤ f a) (sortDesc f l) := by
  suffices h : ∀ (L acc : List α), List.Pairwise (fun a b => f b ≤ f a) acc →
      List.Pairwise (fun a b => f b ≤ f a)
        (L.foldl (fun a x => insDesc f x a) acc) by
    exact h l [] (by simp)
  intro L
  induction L with
  | nil => intro acc h; exact h
  | cons x L' ih =>
      intro acc h
      simp only [List.foldl_cons]
      exact ih _ (insDesc_pairwise h)

theorem sortDesc_head_max {α : Type} {β : Type} [LinearOrder β] {f : α → β}
    {l : List α} {a : α} (h : (sortDesc f l).head? = some a) :
    ∀ x ∈ l, f x ≤ f a := by
  intro x hx
  have hx2 : x ∈ sortDesc f l := mem_sortDesc.mpr hx
  cases hh : sortDesc f l with
  | nil => rw [hh] at hx2; exact absurd hx2 (List.not_mem_nil x)
  | cons b t =>
      rw [hh] at h
      injection h with h1
      subst h1
      rw [hh] at hx2
      rcases List.mem_cons.mp hx2 with rfl | hx2
      · exact le_refl _
      · have hp := sortDesc_pairwise f l
        rw [hh] at hp
        exact (List.pairwise_cons.mp hp).1 x hx2

theorem patternBest_some {balls : ℕ} {scoreOf : ℕ → ℕ} {selected : List ℕ} {n : ℕ} :
    (patternBest balls scoreOf selected).1 = some n →
    n ∈ List.range' 1 balls ∧ n ∉ selected := by
  unfold patternBest
  suffices h : ∀ (L : List ℕ) (st : Option ℕ × ℤ),
      (L.foldl (fun st num =>
        if num ∈ selected then st
        else if st.2 < (scoreOf num : ℤ) then (some num, (scoreOf num : ℤ)) else st)
        st).1 = some n →
      st.1 = some n ∨ (n ∈ L ∧ n ∉ selected) by
    intro h2
    rcases h _ _ h2 with h3 | h3
    · exact absurd h3 (by simp)
    · exact h3
  intro L
  induction L with
  | nil => intro st h; exact Or.inl h
  | cons i L' ih =>
      intro st h
      simp only [List.foldl_cons] at h
      rcases ih _ h with h1 | h1
      · by_cases hm : i ∈ selected
        · rw [if_pos hm] at h1
          exact Or.inl h1
        · rw [if_neg hm] at h1
          by_cases hs : st.2 < (scoreOf i : ℤ)
          · rw [if_pos hs] at h1
            injection h1 with h2
            subst h2
            exact Or.inr ⟨List.mem_cons_self _ _, hm⟩
          · rw [if_neg hs] at h1
            exact Or.inl h1
      · exact Or.inr ⟨List.mem_cons_of_mem _ h1.1, h1.2⟩

theorem patternLoop_good {g : GameConfig} {data : List Draw}
    {ps : List ((ℕ × ℕ) × ℕ)} :
    ∀ (fuel : ℕ) (selected out : List ℕ),
      selected.Nodup → (∀ x ∈ selected, 1 ≤ x ∧ x ≤ g.balls) →
      selected.length ≤ g.pick →
      patternLoop g data ps fuel selected = some out →
      out.Nodup ∧ out.length = g.pick ∧ ∀ x ∈ out, 1 ≤ x ∧ x ≤ g.balls := by
  intro fuel
  induction fuel with
  | zero => intro selected out _ _ _ h; simp [patternLoop] at h
  | succ fuel ih =>
      intro selected out hnd hrange hlen h
      simp only [patternLoop] at h
      by_cases hc : g.pick ≤ selected.length
      · rw [if_pos hc] at h
        injection h with h1
        subst h1
        exact ⟨hnd, le_antisymm hlen hc, hrange⟩
      · rw [if_neg hc] at h
        cases hb : (patternBest g.balls (patternScore data ps selected) selected).1 with
        | none =>
            rw [hb] at h
            exact ih _ _ hnd hrange hlen h
        | some bestNext =>
            rw [hb] at h
            rcases patternBest_some hb with ⟨hmem, hnotmem⟩
            rcases List.mem_range'_1.mp hmem with ⟨h1, h2⟩
            refine ih _ _ ?_ ?_ ?_ h
            · exact List.Nodup.append hnd (List.nodup_singleton _)
                (by intro x hx hk
                    rcases List.mem_singleton.mp hk with rfl
                    exact hnotmem hx)
            · intro x hx
              rcases List.mem_append.mp hx with h4 | h4
              · exact hrange x h4
              · rcases List.mem_singleton.mp h4 with rfl
                exact ⟨h1, by omega⟩
            · rw [List.length_append, List.length_singleton]
              omega

theorem patternBasedPrediction_good {g : GameConfig} {data : List Draw}
    {rands rands' : List ℚ} {fuel : ℕ} {c : List ℕ} (hpick : 1 ≤ g.pick)
    (h : patternBasedPrediction g data rands fuel = some (c, rands')) :
    goodCandidate g.balls g.pick c := by
  unfold patternBasedPrediction at h
  cases hh : (sortDesc Prod.snd (getNumberFrequency g data)).head? with
  | none => rw [hh] at h; exact Option.noConfusion h
  | some seed =>
      rw [hh] at h
      replace h : Option.map (fun sel => (sortAsc sel, rands))
          (patternLoop g data (getCommonPairs data 30) fuel [seed.1]) =
          some (c, rands') := h
      cases hp : patternLoop g data (getCommonPairs data 30) fuel [seed.1] with
      | none => rw [hp] at h; exact Option.noConfusion h
      | some sel =>
          rw [hp] at h
          simp only [Option.map_some'] at h
          injection h with h1
          injection h1 with h2 h3
          subst h2
          have hseedmem : seed ∈ getNumberFrequency g data :=
            mem_sortDesc.mp (head?_mem hh)
          have hseedrange : 1 ≤ seed.1 ∧ seed.1 ≤ g.balls := by
            rcases List.mem_map.mp hseedmem with ⟨n, hn, he⟩
            rcases List.mem_range'_1.mp hn with ⟨hb1, hb2⟩
            rw [← he]
            exact ⟨hb1, by omega⟩
          rcases patternLoop_good fuel [seed.1] sel
            (List.nodup_singleton _)
            (by intro x hx; rcases List.mem_singleton.mp hx with rfl; exact hseedrange)
            (by simpa using hpick) hp with ⟨hnd, hlen, hrange⟩
          refine ⟨sortAsc_sortedLt hnd, ?_, ?_⟩
          · rw [sortAsc_length, hlen]
          · intro x hx
            exact hrange x (sortAsc_mem.mp hx)

theorem map_fst_rangeMap {β : Type} (balls : ℕ) (f : ℕ → β) :
    ((List.range' 1 balls).map (fun n => (n, f n))).map Prod.fst = List.range' 1 balls := by
  rw [List.map_map]
  have h2 : (Prod.fst ∘ fun n : ℕ => (n, f n)) = id := rfl
  rw [h2, List.map_id]

theorem generateCombinations_mem :
    ∀ {arr : List ℕ} {size : ℕ} {c : List ℕ},
      c ∈ generateCombinations arr size → c.length = size ∧ List.Sublist c arr := by
  intro arr
  induction arr with
  | nil =>
      intro size c h
      cases size with
      | zero =>
          simp only [generateCombinations, List.mem_singleton] at h
          subst h
          exact ⟨rfl, List.nil_sublist _⟩
      | succ size => simp [generateCombinations] at h
  | cons a rest ih =>
      intro size c h
      cases size with
      | zero =>
          simp only [generateCombinations, List.mem_singleton] at h
          subst h
          exact ⟨rfl, List.nil_sublist _⟩
      | succ size =>
          simp only [generateCombinations, List.mem_append] at h
          rcases h with h | h
          · rcases List.mem_map.mp h with ⟨c', hc', he⟩
            rcases ih hc' with ⟨hl, hs⟩
            subst he
            exact ⟨by simp [hl], List.Sublist.cons₂ a hs⟩
          · rcases ih h with ⟨hl, hs⟩
            exact ⟨hl, List.Sublist.cons a hs⟩

theorem wheelingKeyNumbers_nodup (g : GameConfig) (data : List Draw) :
    (wheelingKeyNumbers g data).Nodup := by
  unfold wheelingKeyNumbers getHotNumbers
  rw [List.map_take]
  apply List.Nodup.sublist (List.take_sublist _ _)
  apply ((sortDesc_perm Prod.snd (getNumberFrequency g data)).map Prod.fst).nodup_iff.mpr
  unfold getNumberFrequency
  rw [map_fst_rangeMap]
  exact List.nodup_range' 1 g.balls

theorem wheelingKeyNumbers_range (g : GameConfig) (data : List Draw) :
    ∀ x ∈ wheelingKeyNumbers g data, 1 ≤ x ∧ x ≤ g.balls := by
  intro x hx
  unfold wheelingKeyNumbers getHotNumbers at hx
  rw [List.map_take] at hx
  have hx2 := List.mem_of_mem_take hx
  have hx3 := ((sortDesc_perm Prod.snd (getNumberFrequency g data)).map Prod.fst).mem_iff.mp hx2
  unfold getNumberFrequency at hx3
  rw [map_fst_rangeMap] at hx3
  rcases List.mem_range'_1.mp hx3 with ⟨h1, h2⟩
  exact ⟨h1, by omega⟩

theorem wheelingSystemPrediction_good {g : GameConfig} {data : List Draw}
    {rands rands' : List ℚ} {c : List ℕ}
    (h : wheelingSystemPrediction g data rands = some (c, rands')) :
    goodCandidate g.balls g.pick c := by
  unfold wheelingSystemPrediction at h
  cases hh : (sortDesc Prod.snd (wheelingScores g data)).head? with
  | none => rw [hh] at h; exact Option.noConfusion h
  | some best =>
      rw [hh] at h
      simp only [Option.map_some'] at h
      injection h with h1
      injection h1 with h2 h3
      subst h2
      have hmem : best ∈ wheelingScores g data := mem_sortDesc.mp (head?_mem hh)
      unfold wheelingScores at hmem
      rcases List.mem_map.mp hmem with ⟨combo, hcombo, he⟩
      rcases generateCombinations_mem hcombo with ⟨hlen, hsub⟩
      have hb1 : best.1 = combo := by rw [← he]
      have hnd : combo.Nodup := hsub.nodup (wheelingKeyNumbers_nodup g data)
      refine ⟨?_, ?_, ?_⟩
      · rw [hb1]
        exact sortAsc_sortedLt hnd
      · rw [hb1, sortAsc_length, hlen]
      · intro x hx
        rw [hb1] at hx
        exact wheelingKeyNumbers_range g data x (hsub.mem (sortAsc_mem.mp hx))

theorem equilibLoop_good {g : GameConfig} {data : List Draw} {targetOdds : ℕ}
    {targetSum : JSNum} (hcfg : validConfig g) :
    ∀ (attempts : ℕ) (rands : List ℚ) (fuel : ℕ) (c : List ℕ) (rands' : List ℚ),
      validRands rands →
      equilibLoop g data targetOdds targetSum attempts rands fuel = some (c, rands') →
      goodCandidate g.balls g.pick c := by
  have hb : 1 ≤ g.balls := by
    rcases hcfg with ⟨h1, h2⟩
    omega
  intro attempts
  induction attempts with
  | zero =>
      intro rands fuel c rands' _ h
      exact frequencyBasedPrediction_good h
  | succ attempts ih =>
      intro rands fuel c rands' hv h
      simp only [equilibLoop] at h
      cases hg : generateRandomNumbers g rands fuel with
      | none => rw [hg] at h; exact Option.noConfusion h
      | some p =>
          obtain ⟨candidate, rs⟩ := p
          rw [hg] at h
          rcases generateRandomNumbers_good hb hv hg with ⟨hnd, hlen, hrange, hvrs⟩
          replace h : (if (decide (|(oddCount candidate : ℤ) - (targetOdds : ℤ)| ≤ 1) &&
              jleB (jabs (jsub (JSNum.num ((candidate.sum : ℕ) : ℚ)) targetSum))
                (JSNum.num 30)) = true then
              some (sortAsc candidate, rs)
            else equilibLoop g data targetOdds targetSum attempts rs fuel) =
            some (c, rands') := h
          by_cases hcond : (decide (|(oddCount candidate : ℤ) - (targetOdds : ℤ)| ≤ 1) &&
              jleB (jabs (jsub (JSNum.num ((candidate.sum : ℕ) : ℚ)) targetSum))
                (JSNum.num 30)) = true
          · rw [if_pos hcond] at h
            injection h with h1
            injection h1 with h2 h3
            subst h2
            refine ⟨sortAsc_sortedLt hnd, ?_, ?_⟩
            · rw [sortAsc_length, hlen]
            · intro x hx
              exact hrange x (sortAsc_mem.mp hx)
          · rw [if_neg hcond] at h
            exact ih rs fuel c rands' hvrs h

theorem statisticalEquilibriumPrediction_good {g : GameConfig} {data : List Draw}
    {rands rands' : List ℚ} {fuel : ℕ} {c : List ℕ} (hcfg : validConfig g)
    (hv : validRands rands)
    (h : statisticalEquilibriumPrediction g data rands fuel = some (c, rands')) :
    goodCandidate g.balls g.pick c := by
  unfold statisticalEquilibriumPrediction at h
  cases hh : (sortDesc Prod.snd (getOddEvenDistribution data)).head? with
  | none => rw [hh] at h; exact Option.noConfusion h
  | some entry =>
      rw [hh] at h
      exact equilibLoop_good hcfg 1000 rands fuel c rands' hv h

theorem getLastD_mem {l : List ℕ} (h : l ≠ []) : l.getLast?.getD 0 ∈ l := by
  rw [List.getLast?_eq_getLast l h]
  simp

theorem deltaAltPush_good {g : GameConfig} {numbers : List ℕ} {r2 : ℚ} (h0 : 0 ≤ r2)
    (hne : numbers ≠ []) (hnd : numbers.Nodup)
    (hrange : ∀ x ∈ numbers, 1 ≤ x ∧ x ≤ max g.balls 15) :
    (deltaAltPush g numbers r2).Nodup ∧
    deltaAltPush g numbers r2 ≠ [] ∧
    (∀ x ∈ deltaAltPush g numbers r2, 1 ≤ x ∧ x ≤ max g.balls 15) ∧
    (deltaAltPush g numbers r2).length ≤ numbers.length + 1 ∧
    numbers.length ≤ (deltaAltPush g numbers r2).length := by
  unfold deltaAltPush
  by_cases hc : (numbers.getLast?.getD 0 : ℤ) + ⌊r2 * 10⌋ + 1 ≤ (g.balls : ℤ) ∧
      (∀ x ∈ numbers, (x : ℤ) ≠ (numbers.getLast?.getD 0 : ℤ) + ⌊r2 * 10⌋ + 1)
  · rw [if_pos hc]
    have hf0 : (0 : ℤ) ≤ ⌊r2 * 10⌋ := Int.floor_nonneg.mpr (by positivity)
    have hA1 : (1 : ℤ) ≤ (numbers.getLast?.getD 0 : ℤ) + ⌊r2 * 10⌋ + 1 := by omega
    have hnotmem : ((numbers.getLast?.getD 0 : ℤ) + ⌊r2 * 10⌋ + 1).toNat ∉ numbers := by
      intro hmem
      have he : (((numbers.getLast?.getD 0 : ℤ) + ⌊r2 * 10⌋ + 1).toNat : ℤ) =
          (numbers.getLast?.getD 0 : ℤ) + ⌊r2 * 10⌋ + 1 := by omega
      exact hc.2 _ hmem he
    refine ⟨?_, by simp, ?_, by simp, by simp⟩
    · exact List.Nodup.append hnd (List.nodup_singleton _)
        (by intro x hx hk
            rcases List.mem_singleton.mp hk with rfl
            exact hnotmem hx)
    · intro x hx
      rcases List.mem_append.mp hx with h4 | h4
      · exact hrange x h4
      · rcases List.mem_singleton.mp h4 with rfl
        constructor
        · omega
        · have : ((numbers.getLast?.getD 0 : ℤ) + ⌊r2 * 10⌋ + 1).toNat ≤ g.balls := by omega
          omega
  · rw [if_neg hc]
    exact ⟨hnd, hne, hrange, by omega, le_refl _⟩

theorem deltaLoop_good {g : GameConfig} {sortedDeltas : List ℕ} :
    ∀ (fuel : ℕ) (numbers : List ℕ) (rands : List ℚ) (out : List ℕ) (rands' : List ℚ),
      validRands rands →
      numbers ≠ [] → numbers.Nodup →
      (∀ x ∈ numbers, 1 ≤ x ∧ x ≤ max g.balls 15) →
      numbers.length ≤ g.pick →
      deltaLoop g sortedDeltas fuel numbers rands = some (out, rands') →
      out.Nodup ∧ out.length = g.pick ∧ (∀ x ∈ out, 1 ≤ x ∧ x ≤ max g.balls 15) ∧
        validRands rands' := by
  intro fuel
  induction fuel with
  | zero => intro numbers rands out rands' _ _ _ _ _ h; simp [deltaLoop] at h
  | succ fuel ih =>
      intro numbers rands out rands' hv hne hnd hrange hlen h
      have hexit : some (numbers, rands) = some (out, rands') → g.pick ≤ numbers.length →
          out.Nodup ∧ out.length = g.pick ∧ (∀ x ∈ out, 1 ≤ x ∧ x ≤ max g.balls 15) ∧
            validRands rands' := by
        intro h0 hc
        injection h0 with h1
        injection h1 with h2 h3
        subst h2; subst h3
        exact ⟨hnd, le_antisymm hlen hc, hrange, hv⟩
      cases rands with
      | nil =>
          simp only [deltaLoop] at h
          by_cases hc : g.pick ≤ numbers.length
          · rw [if_pos hc] at h
            exact hexit h hc
          · rw [if_neg hc] at h
            exact Option.noConfusion h
      | cons r rs =>
          simp only [deltaLoop] at h
          by_cases hc : g.pick ≤ numbers.length
          · rw [if_pos hc] at h
            exact hexit h hc
          · rw [if_neg hc] at h
            rcases validRands_cons hv with ⟨⟨hr0, hr1⟩, hvrs⟩
            have halt : ∀ (rs0 : List ℚ),
                validRands rs0 →
                (match rs0 with
                  | [] => none
                  | r2 :: rs2 => deltaLoop g sortedDeltas fuel (deltaAltPush g numbers r2) rs2) =
                  some (out, rands') →
                out.Nodup ∧ out.length = g.pick ∧
                  (∀ x ∈ out, 1 ≤ x ∧ x ≤ max g.balls 15) ∧ validRands rands' := by
              intro rs0 hv0 h0
              cases rs0 with
              | nil => exact Option.noConfusion h0
              | cons r2 rs2 =>
                  rcases validRands_cons hv0 with ⟨⟨hr20, hr21⟩, hvrs2⟩
                  rcases deltaAltPush_good hr20 hne hnd hrange with ⟨h1, h2, h3, h4, h5⟩
                  exact ih _ _ _ _ hvrs2 h2 h1 h3 (by omega) h0
            cases hidx : jsIndex sortedDeltas ⌊r * (sortedDeltas.length : ℚ)⌋ with
            | none =>
                rw [hidx] at h
                exact halt rs hvrs h
            | some d =>
                rw [hidx] at h
                simp only [] at h
                by_cases hcnext : numbers.getLast?.getD 0 + d ≤ g.balls ∧
                    numbers.getLast?.getD 0 + d ∉ numbers
                · rw [if_pos hcnext] at h
                  have hlast : 1 ≤ numbers.getLast?.getD 0 :=
                    (hrange _ (getLastD_mem hne)).1
                  refine ih _ _ _ _ hvrs (by simp) ?_ ?_ ?_ h
                  · exact List.Nodup.append hnd (List.nodup_singleton _)
                      (by intro x hx hk
                          rcases List.mem_singleton.mp hk with rfl
                          exact hcnext.2 hx)
                  · intro x hx
                    rcases List.mem_append.mp hx with h4 | h4
                    · exact hrange x h4
                    · rcases List.mem_singleton.mp h4 with rfl
                      exact ⟨by omega, le_trans hcnext.1 (le_max_left _ _)⟩
                  · rw [List.length_append, List.length_singleton]
                    omega
                · rw [if_neg hcnext] at h
                  exact halt rs hvrs h

theorem deltaFill_good {g : GameConfig} (hb : 1 ≤ g.balls) :
    ∀ (fuel : ℕ) (numbers : List ℕ) (rands : List ℚ) (out : List ℕ) (rands' : List ℚ),
      validRands rands →
      numbers.Nodup → (∀ x ∈ numbers, 1 ≤ x ∧ x ≤ max g.balls 15) →
      numbers.length ≤ g.pick →
      deltaFill g fuel numbers rands = some (out, rands') →
      out.Nodup ∧ out.length = g.pick ∧ (∀ x ∈ out, 1 ≤ x ∧ x ≤ max g.balls 15) := by
  intro fuel
  induction fuel with
  | zero => intro numbers rands out rands' _ _ _ _ h; simp [deltaFill] at h
  | succ fuel ih =>
      intro numbers rands out rands' hv hnd hrange hlen h
      have hexit : some (numbers, rands) = some (out, rands') → g.pick ≤ numbers.length →
          out.Nodup ∧ out.length = g.pick ∧ ∀ x ∈ out, 1 ≤ x ∧ x ≤ max g.balls 15 := by
        intro h0 hc
        injection h0 with h1
        injection h1 with h2 h3
        subst h2
        exact ⟨hnd, le_antisymm hlen hc, hrange⟩
      cases rands with
      | nil =>
          simp only [deltaFill] at h
          by_cases hc : g.pick ≤ numbers.length
          · rw [if_pos hc] at h
            exact hexit h hc
          · rw [if_neg hc] at h
            exact Option.noConfusion h
      | cons r rs =>
          simp only [deltaFill] at h
          by_cases hc : g.pick ≤ numbers.length
          · rw [if_pos hc] at h
            exact hexit h hc
          · rw [if_neg hc] at h
            rcases validRands_cons hv with ⟨⟨hr0, hr1⟩, hvrs⟩
            rcases genNumber_range hb hr0 hr1 with ⟨hn1, hn2⟩
            by_cases hm : genNumber g.balls r ∉ numbers
            · rw [if_pos hm] at h
              refine ih _ _ _ _ hvrs ?_ ?_ ?_ h
              · exact List.Nodup.append hnd (List.nodup_singleton _)
                  (by intro x hx hk
                      rcases List.mem_singleton.mp hk with rfl
                      exact hm hx)
              · intro x hx
                rcases List.mem_append.mp hx with h4 | h4
                · exact hrange x h4
                · rcases List.mem_singleton.mp h4 with rfl
                  exact ⟨hn1, le_trans hn2 (le_max_left _ _)⟩
              · rw [List.length_append, List.length_singleton]
                omega
            · rw [if_neg hm] at h
              exact ih _ _ _ _ hvrs hnd hrange hlen h

theorem deltaSystemPrediction_good {g : GameConfig} {data : List Draw}
    {rands rands' : List ℚ} {fuel : ℕ} {c : List ℕ} (hcfg : validConfig g)
    (hv : validRands rands)
    (h : deltaSystemPrediction g data rands fuel = some (c, rands')) :
    goodCandidate (max g.balls 15) g.pick c := by
  have hb : 1 ≤ g.balls := by rcases hcfg with ⟨h1, h2⟩; omega
  cases rands with
  | nil => exact Option.noConfusion h
  | cons r rs =>
      simp only [deltaSystemPrediction] at h
      rcases validRands_cons hv with ⟨⟨hr0, hr1⟩, hvrs⟩
      have hstart : 1 ≤ (⌊r * 15⌋ + 1).toNat ∧ (⌊r * 15⌋ + 1).toNat ≤ 15 := by
        have hf0 : (0 : ℤ) ≤ ⌊r * 15⌋ := Int.floor_nonneg.mpr (by positivity)
        have hf1 : ⌊r * 15⌋ < (15 : ℤ) := by
          apply Int.floor_lt.mpr
          push_cast
          calc r * 15 < 1 * 15 := by
                apply mul_lt_mul_of_pos_right hr1
                norm_num
            _ = 15 := one_mul _
        omega
      cases hdl : deltaLoop g (deltaSortedDeltas data) fuel [(⌊r * 15⌋ + 1).toNat] rs with
      | none => rw [hdl] at h; exact Option.noConfusion h
      | some p =>
          obtain ⟨numbers, rs2⟩ := p
          rw [hdl] at h
          simp only [] at h
          rcases deltaLoop_good fuel _ rs numbers rs2 hvrs (by simp)
            (List.nodup_singleton _)
            (by intro x hx
                rcases List.mem_singleton.mp hx with rfl
                exact ⟨hstart.1, le_trans hstart.2 (le_max_right _ _)⟩)
            (by simpa using hcfg.1) hdl with ⟨hnd, hlen, hrange, hvrs2⟩
          cases hdf : deltaFill g fuel numbers rs2 with
          | none => rw [hdf] at h; exact Option.noConfusion h
          | some q =>
              obtain ⟨numbers2, rs3⟩ := q
              rw [hdf] at h
              simp only [Option.map_some'] at h
              injection h with h1
              injection h1 with h2 h3
              subst h2
              rcases deltaFill_good hb fuel numbers rs2 numbers2 rs3 hvrs2 hnd hrange
                (by omega) hdf with ⟨hnd2, hlen2, hrange2⟩
              refine ⟨sortAsc_sortedLt hnd2, ?_, ?_⟩
              · rw [sortAsc_length, hlen2]
              · intro x hx
                exact hrange2 x (sortAsc_mem.mp hx)

theorem mcCdf_fst_mem {g : GameConfig} {data : List Draw} {kv : ℕ × JSNum}
    (h : kv ∈ mcCdf g data) : 1 ≤ kv.1 ∧ kv.1 ≤ g.balls := by
  unfold mcCdf at h
  rcases List.mem_map.mp h with ⟨n, hn, he⟩
  rcases List.mem_range'_1.mp hn with ⟨h1, h2⟩
  rw [← he]
  exact ⟨h1, by omega⟩

theorem mcSample_good {g : GameConfig} {cdf : List (ℕ × JSNum)}
    (hk : ∀ kv ∈ cdf, 1 ≤ kv.1 ∧ kv.1 ≤ g.balls) :
    ∀ (fuel : ℕ) (sample : List ℕ) (rands : List ℚ) (out : List ℕ) (rands' : List ℚ),
      validRands rands → sample.Nodup →
      (∀ x ∈ sample, 1 ≤ x ∧ x ≤ g.balls) → sample.length ≤ g.pick →
      mcSample g cdf fuel sample rands = some (out, rands') →
      out.Nodup ∧ out.length = g.pick ∧ (∀ x ∈ out, 1 ≤ x ∧ x ≤ g.balls) ∧
        validRands rands' := by
  intro fuel
  induction fuel with
  | zero => intro sample rands out rands' _ _ _ _ h; simp [mcSample] at h
  | succ fuel ih =>
      intro sample rands out rands' hv hnd hrange hlen h
      have hexit : some (sample, rands) = some (out, rands') → g.pick ≤ sample.length →
          out.Nodup ∧ out.length = g.pick ∧ (∀ x ∈ out, 1 ≤ x ∧ x ≤ g.balls) ∧
            validRands rands' := by
        intro h0 hc
        injection h0 with h1
        injection h1 with h2 h3
        subst h2; subst h3
        exact ⟨hnd, le_antisymm hlen hc, hrange, hv⟩
      cases rands with
      | nil =>
          simp only [mcSample] at h
          by_cases hc : g.pick ≤ sample.length
          · rw [if_pos hc] at h
            exact hexit h hc
          · rw [if_neg hc] at h
            exact Option.noConfusion h
      | cons r rs =>
          simp only [mcSample] at h
          by_cases hc : g.pick ≤ sample.length
          · rw [if_pos hc] at h
            exact hexit h hc
          · rw [if_neg hc] at h
            rcases validRands_cons hv with ⟨⟨hr0, hr1⟩, hvrs⟩
            cases hf : cdf.find? (fun c => jleB (JSNum.num r) c.2) with
            | none =>
                rw [hf] at h
                exact Option.noConfusion h
            | some cEntry =>
                rw [hf] at h
                simp only [] at h
                have hcr := hk cEntry (List.mem_of_find?_eq_some hf)
                by_cases hm : cEntry.1 ∈ sample
                · rw [if_pos hm] at h
                  exact ih _ _ _ _ hvrs hnd hrange hlen h
                · rw [if_neg hm] at h
                  refine ih _ _ _ _ hvrs ?_ ?_ ?_ h
                  · exact List.Nodup.append hnd (List.nodup_singleton _)
                      (by intro x hx hk2
                          rcases List.mem_singleton.mp hk2 with rfl
                          exact hm hx)
                  · intro x hx
                    rcases List.mem_append.mp hx with h4 | h4
                    · exact hrange x h4
                    · rcases List.mem_singleton.mp h4 with rfl
                      exact hcr
                  · rw [List.length_append, List.length_singleton]
                    omega

theorem bumpKey_fst {κ : Type} [DecidableEq κ] :
    ∀ {l : List (κ × ℕ)} {k : κ} {kv : κ × ℕ},
      kv ∈ bumpKey l k → (∃ kv' ∈ l, kv'.1 = kv.1) ∨ kv.1 = k := by
  intro l
  induction l with
  | nil =>
      intro k kv h
      simp only [bumpKey, List.mem_singleton] at h
      subst h
      exact Or.inr rfl
  | cons hd tl ih =>
      intro k kv h
      obtain ⟨k', c⟩ := hd
      simp only [bumpKey] at h
      by_cases hc : k = k'
      · rw [if_pos hc] at h
        rcases List.mem_cons.mp h with h1 | h1
        · exact Or.inl ⟨(k', c), List.mem_cons_self _ _, by rw [h1]⟩
        · exact Or.inl ⟨kv, List.mem_cons_of_mem _ h1, rfl⟩
      · rw [if_neg hc] at h
        rcases List.mem_cons.mp h with h1 | h1
        · exact Or.inl ⟨kv, by rw [h1]; exact List.mem_cons_self _ _, rfl⟩
        · rcases ih h1 with h2 | h2
          · rcases h2 with ⟨kv', hkv', he⟩
            exact Or.inl ⟨kv', List.mem_cons_of_mem _ hkv', he⟩
          · exact Or.inr h2

theorem mcIter_good {g : GameConfig} {cdf : List (ℕ × JSNum)}
    (hk : ∀ kv ∈ cdf, 1 ≤ kv.1 ∧ kv.1 ≤ g.balls) :
    ∀ (iter : ℕ) (counts : List (List ℕ × ℕ)) (fuel : ℕ) (rands : List ℚ)
      (out : List (List ℕ × ℕ)) (rands' : List ℚ),
      validRands rands →
      (∀ kv ∈ counts, goodCandidate g.balls g.pick kv.1) →
      mcIter g cdf iter counts fuel rands = some (out, rands') →
      ∀ kv ∈ out, goodCandidate g.balls g.pick kv.1 := by
  intro iter
  induction iter with
  | zero =>
      intro counts fuel rands out rands' _ hcnt h
      simp only [mcIter] at h
      injection h with h1
      injection h1 with h2 h3
      subst h2
      exact hcnt
  | succ iter ih =>
      intro counts fuel rands out rands' hv hcnt h
      simp only [mcIter] at h
      cases hs : mcSample g cdf fuel [] rands with
      | none => rw [hs] at h; exact Option.noConfusion h
      | some p =>
          obtain ⟨sample, rs⟩ := p
          rw [hs] at h
          rcases mcSample_good hk fuel [] rands sample rs hv (by simp) (by simp)
            (by simp) hs with ⟨hnd, hlen, hrange, hvrs⟩
          refine ih _ _ _ _ _ hvrs ?_ h
          intro kv hkv
          rcases bumpKey_fst hkv with h1 | h1
          · rcases h1 with ⟨kv', hkv', he⟩
            rw [← he]
            exact hcnt kv' hkv'
          · rw [h1]
            refine ⟨sortAsc_sortedLt hnd, ?_, ?_⟩
            · rw [sortAsc_length, hlen]
            · intro x hx
              exact hrange x (sortAsc_mem.mp hx)

theorem monteCarloSimulation_good {g : GameConfig} {data : List Draw}
    {iterations : ℕ} {rands rands' : List ℚ} {fuel : ℕ} {c : List ℕ}
    (hv : validRands rands)
    (h : monteCarloSimulation g data iterations rands fuel = some (c, rands')) :
    goodCandidate g.balls g.pick c := by
  unfold monteCarloSimulation at h
  cases hi : mcIter g (mcCdf g data) iterations [] fuel rands with
  | none => rw [hi] at h; exact Option.noConfusion h
  | some p =>
      obtain ⟨counts, rs⟩ := p
      rw [hi] at h
      simp only [Option.map_some'] at h
      cases hh : (sortDesc Prod.snd counts).head? with
      | none => rw [hh] at h; exact Option.noConfusion h
      | some best =>
          rw [hh] at h
          injection h with h1
          injection h1 with h2 h3
          subst h2
          have hbm : best ∈ counts := mem_sortDesc.mp (head?_mem hh)
          exact mcIter_good (fun kv hkv => mcCdf_fst_mem hkv) iterations [] fuel rands
            counts rs hv (by simp) hi best hbm

/-- A well-formed individual of the genetic population: pick distinct
numbers in range. -/
def goodInd (g : GameConfig) (l : List ℕ) : Prop :=
  l.Nodup ∧ l.length = g.pick ∧ ∀ x ∈ l, 1 ≤ x ∧ x ≤ g.balls

theorem addElem_nodup {l : List ℕ} {x : ℕ} (h : l.Nodup) : (addElem l x).Nodup := by
  unfold addElem
  by_cases hm : x ∈ l
  · rw [if_pos hm]; exact h
  · rw [if_neg hm]
    exact List.Nodup.append h (List.nodup_singleton _)
      (by intro y hy hk
          rcases List.mem_singleton.mp hk with rfl
          exact hm hy)

theorem addElem_mem {l : List ℕ} {x y : ℕ} (h : y ∈ addElem l x) : y ∈ l ∨ y = x := by
  unfold addElem at h
  by_cases hm : x ∈ l
  · rw [if_pos hm] at h; exact Or.inl h
  · rw [if_neg hm] at h
    rcases List.mem_append.mp h with h1 | h1
    · exact Or.inl h1
    · exact Or.inr (List.mem_singleton.mp h1)

theorem addElem_length {l : List ℕ} {x : ℕ} :
    l.length ≤ (addElem l x).length ∧ (addElem l x).length ≤ l.length + 1 := by
  unfold addElem
  by_cases hm : x ∈ l
  · rw [if_pos hm]; omega
  · rw [if_neg hm]; simp

theorem guardFold_good {pick : ℕ} {P : ℕ → Prop} :
    ∀ (src c : List ℕ), c.Nodup → (∀ x ∈ c, P x) → (∀ x ∈ src, P x) →
      c.length ≤ pick →
      (src.foldl (fun c x => if c.length < pick then addElem c x else c) c).Nodup ∧
      (∀ x ∈ src.foldl (fun c x => if c.length < pick then addElem c x else c) c, P x) ∧
      (src.foldl (fun c x => if c.length < pick then addElem c x else c) c).length ≤ pick := by
  intro src
  induction src with
  | nil => intro c h1 h2 _ h4; exact ⟨h1, h2, h4⟩
  | cons s src' ih =>
      intro c h1 h2 h3 h4
      simp only [List.foldl_cons]
      by_cases hc : c.length < pick
      · rw [if_pos hc]
        refine ih _ (addElem_nodup h1) ?_ (fun x hx => h3 x (List.mem_cons_of_mem _ hx)) ?_
        · intro x hx
          rcases addElem_mem hx with h5 | h5
          · exact h2 x h5
          · exact h5 ▸ h3 s (List.mem_cons_self _ _)
        · have := @addElem_length c s
          omega
      · rw [if_neg hc]
        exact ih _ h1 h2 (fun x hx => h3 x (List.mem_cons_of_mem _ hx)) h4

theorem crossFill_good {balls pick : ℕ} (hb : 1 ≤ balls) :
    ∀ (fuel : ℕ) (child : List ℕ) (rands : List ℚ) (out : List ℕ) (rands' : List ℚ),
      validRands rands → child.Nodup → (∀ x ∈ child, 1 ≤ x ∧ x ≤ balls) →
      child.length ≤ pick →
      crossFill balls pick fuel child rands = some (out, rands') →
      out.Nodup ∧ out.length = pick ∧ (∀ x ∈ out, 1 ≤ x ∧ x ≤ balls) ∧
        validRands rands' := by
  intro fuel
  induction fuel with
  | zero => intro child rands out rands' _ _ _ _ h; simp [crossFill] at h
  | succ fuel ih =>
      intro child rands out rands' hv hnd hrange hlen h
      have hexit : some (child, rands) = some (out, rands') → pick ≤ child.length →
          out.Nodup ∧ out.length = pick ∧ (∀ x ∈ out, 1 ≤ x ∧ x ≤ balls) ∧
            validRands rands' := by
        intro h0 hc
        injection h0 with h1
        injection h1 with h2 h3
        subst h2; subst h3
        exact ⟨hnd, le_antisymm hlen hc, hrange, hv⟩
      cases rands with
      | nil =>
          simp only [crossFill] at h
          by_cases hc : pick ≤ child.length
          · rw [if_pos hc] at h
            exact hexit h hc
          · rw [if_neg hc] at h
            exact Option.noConfusion h
      | cons r rs =>
          simp only [crossFill] at h
          by_cases hc : pick ≤ child.length
          · rw [if_pos hc] at h
            exact hexit h hc
          · rw [if_neg hc] at h
            rcases validRands_cons hv with ⟨⟨hr0, hr1⟩, hvrs⟩
            rcases genNumber_range hb hr0 hr1 with ⟨hn1, hn2⟩
            refine ih _ _ _ _ hvrs (addElem_nodup hnd) ?_ ?_ h
            · intro x hx
              rcases addElem_mem hx with h5 | h5
              · exact hrange x h5
              · exact h5 ▸ ⟨hn1, hn2⟩
            · have := @addElem_length child (genNumber balls r)
              omega

theorem crossover_good {g : GameConfig} {p1 p2 : List ℕ} {rands rands' : List ℚ}
    {fuel : ℕ} {child : List ℕ} (hb : 1 ≤ g.balls) (hv : validRands rands)
    (hp1 : ∀ x ∈ p1, 1 ≤ x ∧ x ≤ g.balls) (hp2 : ∀ x ∈ p2, 1 ≤ x ∧ x ≤ g.balls)
    (h : crossover g p1 p2 rands fuel = some (child, rands')) :
    goodInd g child ∧ validRands rands' := by
  simp only [crossover] at h
  have hc1 := @guardFold_good g.pick (fun x => 1 ≤ x ∧ x ≤ g.balls)
    (p1.take (g.pick / 2)) [] (by simp) (by simp)
    (fun x hx => hp1 x (List.mem_of_mem_take hx)) (by simp)
  have hc2 := @guardFold_good g.pick (fun x => 1 ≤ x ∧ x ≤ g.balls)
    p2 _ hc1.1 hc1.2.1 hp2 hc1.2.2
  rcases crossFill_good hb fuel _ rands child rands' hv hc2.1 hc2.2.1 hc2.2.2 h with
    ⟨h1, h2, h3, h4⟩
  exact ⟨⟨h1, h2, h3⟩, h4⟩

theorem mutatePick_good {balls : ℕ} {current : List ℕ} (hb : 1 ≤ balls) :
    ∀ (fuel : ℕ) (rands : List ℚ) (n : ℕ) (rands' : List ℚ),
      validRands rands →
      mutatePick balls current fuel rands = some (n, rands') →
      (1 ≤ n ∧ n ≤ balls) ∧ n ∉ current ∧ validRands rands' := by
  intro fuel
  induction fuel with
  | zero => intro rands n rands' _ h; simp [mutatePick] at h
  | succ fuel ih =>
      intro rands n rands' hv h
      cases rands with
      | nil => simp [mutatePick] at h
      | cons r rs =>
          simp only [mutatePick] at h
          rcases validRands_cons hv with ⟨⟨hr0, hr1⟩, hvrs⟩
          by_cases hm : genNumber balls r ∈ current
          · rw [if_pos hm] at h
            exact ih _ _ _ hvrs h
          · rw [if_neg hm] at h
            injection h with h1
            injection h1 with h2 h3
            subst h2; subst h3
            exact ⟨genNumber_range hb hr0 hr1, hm, hvrs⟩

theorem nodup_set :
    ∀ {l : List ℕ} {i : ℕ} {x : ℕ}, l.Nodup → x ∉ l → (l.set i x).Nodup := by
  intro l
  induction l with
  | nil => intro i x _ _; simp
  | cons a t ih =>
      intro i x hnd hx
      rcases List.nodup_cons.mp hnd with ⟨hat, htnd⟩
      cases i with
      | zero =>
          simp only [List.set]
          exact List.nodup_cons.mpr ⟨fun hc => hx (List.mem_cons_of_mem _ hc), htnd⟩
      | succ i =>
          simp only [List.set]
          refine List.nodup_cons.mpr ⟨?_, ih htnd (fun hc => hx (List.mem_cons_of_mem _ hc))⟩
          intro hc
          rcases List.mem_or_eq_of_mem_set hc with h1 | h1
          · exact hat h1
          · exact hx (h1 ▸ List.mem_cons_self _ _)

theorem mutateLoop_good {balls : ℕ} {rate : ℚ} {fuel : ℕ} (hb : 1 ≤ balls) :
    ∀ (todo : ℕ) (l : List ℕ) (rands : List ℚ) (out : List ℕ) (rands' : List ℚ),
      validRands rands → l.Nodup → (∀ x ∈ l, 1 ≤ x ∧ x ≤ balls) →
      mutateLoop balls rate fuel todo l rands = some (out, rands') →
      out.Nodup ∧ out.length = l.length ∧ (∀ x ∈ out, 1 ≤ x ∧ x ≤ balls) ∧
        validRands rands' := by
  intro todo
  induction todo with
  | zero =>
      intro l rands out rands' hv hnd hrange h
      simp only [mutateLoop] at h
      injection h with h1
      injection h1 with h2 h3
      subst h2; subst h3
      exact ⟨hnd, rfl, hrange, hv⟩
  | succ todo ih =>
      intro l rands out rands' hv hnd hrange h
      cases rands with
      | nil => simp [mutateLoop] at h
      | cons r rs =>
          simp only [mutateLoop] at h
          rcases validRands_cons hv with ⟨⟨hr0, hr1⟩, hvrs⟩
          by_cases hc : r < rate
          · rw [if_pos hc] at h
            cases hmp : mutatePick balls l fuel rs with
            | none => rw [hmp] at h; exact Option.noConfusion h
            | some p =>
                obtain ⟨newNum, rs2⟩ := p
                rw [hmp] at h
                rcases mutatePick_good hb fuel rs newNum rs2 hvrs hmp with
                  ⟨hnr, hnm, hvrs2⟩
                have hln : (l.set (l.length - (todo + 1)) newNum).length = l.length := by
                  simp
                have hr2 : ∀ x ∈ l.set (l.length - (todo + 1)) newNum,
                    1 ≤ x ∧ x ≤ balls := by
                  intro x hx
                  rcases List.mem_or_eq_of_mem_set hx with h1 | h1
                  · exact hrange x h1
                  · exact h1 ▸ hnr
                rcases ih _ _ _ _ hvrs2 (nodup_set hnd hnm) hr2 h with ⟨k1, k2, k3, k4⟩
                exact ⟨k1, by rw [k2, hln], k3, k4⟩
          · rw [if_neg hc] at h
            exact ih _ _ _ _ hvrs hnd hrange h

theorem mutate_good {g : GameConfig} {numbers : List ℕ} {rate : ℚ}
    {rands rands' : List ℚ} {fuel : ℕ} {out : List ℕ} (hb : 1 ≤ g.balls)
    (hv : validRands rands) (hnd : numbers.Nodup)
    (hrange : ∀ x ∈ numbers, 1 ≤ x ∧ x ≤ g.balls)
    (h : mutate g numbers rate rands fuel = some (out, rands')) :
    out.Nodup ∧ out.length = numbers.length ∧ (∀ x ∈ out, 1 ≤ x ∧ x ≤ g.balls) ∧
      validRands rands' :=
  mutateLoop_good hb numbers.length numbers rands out rands' hv hnd hrange h

theorem jsIndex_mem {α : Type} {l : List α} {i : ℤ} {a : α}
    (h : jsIndex l i = some a) : a ∈ l := by
  unfold jsIndex at h
  split at h
  · injection h with h1
    exact h1 ▸ List.get_mem _ _ _
  · exact Option.noConfusion h

theorem geneticOffspring_good {g : GameConfig} {elite : List (List ℕ × ℚ)}
    {popSize : ℕ} (hb : 1 ≤ g.balls)
    (helite : ∀ e ∈ elite, goodInd g e.1) :
    ∀ (fuel : ℕ) (newPop : List (List ℕ)) (rands : List ℚ)
      (out : List (List ℕ)) (rands' : List ℚ),
      validRands rands →
      (∀ ind ∈ newPop, goodInd g ind) →
      geneticOffspring g elite popSize fuel newPop rands = some (out, rands') →
      (∀ ind ∈ out, goodInd g ind) ∧ validRands rands' := by
  intro fuel
  induction fuel with
  | zero => intro newPop rands out rands' _ _ h; simp [geneticOffspring] at h
  | succ fuel ih =>
      intro newPop rands out rands' hv hnp h
      have hexit : some (newPop, rands) = some (out, rands') →
          (∀ ind ∈ out, goodInd g ind) ∧ validRands rands' := by
        intro h0
        injection h0 with h1
        injection h1 with h2 h3
        subst h2; subst h3
        exact ⟨hnp, hv⟩
      cases rands with
      | nil =>
          simp only [geneticOffspring] at h
          by_cases hc : popSize ≤ newPop.length
          · rw [if_pos hc] at h
            exact hexit h
          · rw [if_neg hc] at h
            exact Option.noConfusion h
      | cons r1 rs1 =>
          simp only [geneticOffspring] at h
          by_cases hc : popSize ≤ newPop.length
          · rw [if_pos hc] at h
            exact hexit h
          · rw [if_neg hc] at h
            rcases validRands_cons hv with ⟨⟨hr10, hr11⟩, hvrs1⟩
            cases hj1 : jsIndex elite ⌊r1 * (elite.length : ℚ)⌋ with
            | none => rw [hj1] at h; exact Option.noConfusion h
            | some e1 =>
                rw [hj1] at h
                simp only [] at h
                cases rs1 with
                | nil => exact Option.noConfusion h
                | cons r2 rs2 =>
                    simp only [] at h
                    rcases validRands_cons hvrs1 with ⟨⟨hr20, hr21⟩, hvrs2⟩
                    cases hj2 : jsIndex elite ⌊r2 * (elite.length : ℚ)⌋ with
                    | none => rw [hj2] at h; exact Option.noConfusion h
                    | some e2 =>
                        rw [hj2] at h
                        simp only [] at h
                        cases hco : crossover g e1.1 e2.1 rs2 fuel with
                        | none => rw [hco] at h; exact Option.noConfusion h
                        | some p =>
                            obtain ⟨child, rs3⟩ := p
                            rw [hco] at h
                            simp only [] at h
                            rcases crossover_good hb hvrs2
                              (helite e1 (jsIndex_mem hj1)).2.2
                              (helite e2 (jsIndex_mem hj2)).2.2 hco with
                              ⟨⟨hcnd, hclen, hcr⟩, hvrs3⟩
                            cases hmu : mutate g child (1 / 10) rs3 fuel with
                            | none => rw [hmu] at h; exact Option.noConfusion h
                            | some q =>
                                obtain ⟨mutated, rs4⟩ := q
                                rw [hmu] at h
                                simp only [] at h
                                rcases mutate_good hb hvrs3 hcnd hcr hmu with
                                  ⟨hmn, hml, hmr, hvrs4⟩
                                refine ih _ _ _ _ hvrs4 ?_ h
                                intro ind hind
                                rcases List.mem_append.mp hind with h4 | h4
                                · exact hnp ind h4
                                · rcases List.mem_singleton.mp h4 with rfl
                                  exact ⟨hmn, by rw [hml, hclen], hmr⟩

theorem geneticStep_good {g : GameConfig} {data : List Draw} {popSize : ℕ}
    {pop : List (List ℕ)} {rands rands' : List ℚ} {fuel : ℕ}
    {out : List (List ℕ)} (hb : 1 ≤ g.balls) (hv : validRands rands)
    (hpop : ∀ ind ∈ pop, goodInd g ind)
    (h : geneticStep g data popSize pop rands fuel = some (out, rands')) :
    (∀ ind ∈ out, goodInd g ind) ∧ validRands rands' := by
  simp only [geneticStep] at h
  have helite : ∀ e ∈ (sortDesc Prod.snd
      (pop.map (fun ind => (ind, evaluateFitness g data ind)))).take (popSize / 5),
      goodInd g e.1 := by
    intro e he
    have he2 := mem_sortDesc.mp (List.mem_of_mem_take he)
    rcases List.mem_map.mp he2 with ⟨ind, hind, hrfl⟩
    rw [← hrfl]
    exact hpop ind hind
  refine geneticOffspring_good hb helite fuel _ rands out rands' hv ?_ h
  intro ind hind
  rcases List.mem_map.mp hind with ⟨e, he, hrfl⟩
  rw [← hrfl]
  exact helite e he

theorem geneticGenerations_good {g : GameConfig} {data : List Draw} {popSize : ℕ}
    (hb : 1 ≤ g.balls) :
    ∀ (gens : ℕ) (pop : List (List ℕ)) (rands : List ℚ) (fuel : ℕ)
      (out : List (List ℕ)) (rands' : List ℚ),
      validRands rands → (∀ ind ∈ pop, goodInd g ind) →
      geneticGenerations g data popSize gens pop rands fuel = some (out, rands') →
      (∀ ind ∈ out, goodInd g ind) ∧ validRands rands' := by
  intro gens
  induction gens with
  | zero =>
      intro pop rands fuel out rands' hv hpop h
      simp only [geneticGenerations] at h
      injection h with h1
      injection h1 with h2 h3
      subst h2; subst h3
      exact ⟨hpop, hv⟩
  | succ gens ih =>
      intro pop rands fuel out rands' hv hpop h
      simp only [geneticGenerations] at h
      cases hs : geneticStep g data popSize pop rands fuel with
      | none => rw [hs] at h; exact Option.noConfusion h
      | some p =>
          obtain ⟨pop', rs⟩ := p
          rw [hs] at h
          rcases geneticStep_good hb hv hpop hs with ⟨hpop', hvrs⟩
          exact ih _ _ _ _ _ hvrs hpop' h

theorem geneticInit_good {g : GameConfig} (hb : 1 ≤ g.balls) :
    ∀ (i : ℕ) (pop : List (List ℕ)) (rands : List ℚ) (fuel : ℕ)
      (out : List (List ℕ)) (rands' : List ℚ),
      validRands rands → (∀ ind ∈ pop, goodInd g ind) →
      geneticInit g i pop rands fuel = some (out, rands') →
      (∀ ind ∈ out, goodInd g ind) ∧ validRands rands' := by
  intro i
  induction i with
  | zero =>
      intro pop rands fuel out rands' hv hpop h
      simp only [geneticInit] at h
      injection h with h1
      injection h1 with h2 h3
      subst h2; subst h3
      exact ⟨hpop, hv⟩
  | succ i ih =>
      intro pop rands fuel out rands' hv hpop h
      simp only [geneticInit] at h
      cases hgen : generateRandomNumbers g rands fuel with
      | none => rw [hgen] at h; exact Option.noConfusion h
      | some p =>
          obtain ⟨ind, rs⟩ := p
          rw [hgen] at h
          rcases generateRandomNumbers_good hb hv hgen with ⟨h1, h2, h3, h4⟩
          refine ih _ _ _ _ _ h4 ?_ h
          intro ind2 hind2
          rcases List.mem_append.mp hind2 with h5 | h5
          · exact hpop ind2 h5
          · rcases List.mem_singleton.mp h5 with rfl
            exact ⟨h1, h2, h3⟩

theorem geneticAlgorithmPrediction_good {g : GameConfig} {data : List Draw}
    {generations popSize : ℕ} {rands rands' : List ℚ} {fuel : ℕ} {c : List ℕ}
    (hb : 1 ≤ g.balls) (hv : validRands rands)
    (h : geneticAlgorithmPrediction g data generations popSize rands fuel =
      some (c, rands')) :
    goodCandidate g.balls g.pick c := by
  simp only [geneticAlgorithmPrediction] at h
  cases hinit : geneticInit g popSize [] rands fuel with
  | none => rw [hinit] at h; exact Option.noConfusion h
  | some p =>
      obtain ⟨pop0, rs0⟩ := p
      rw [hinit] at h
      simp only [] at h
      rcases geneticInit_good hb popSize [] rands fuel pop0 rs0 hv (by simp) hinit with
        ⟨hpop0, hvrs0⟩
      cases hgens : geneticGenerations g data popSize generations pop0 rs0 fuel with
      | none => rw [hgens] at h; exact Option.noConfusion h
      | some q =>
          obtain ⟨finalPop, rs⟩ := q
          rw [hgens] at h
          simp only [] at h
          rcases geneticGenerations_good hb generations pop0 rs0 fuel finalPop rs
            hvrs0 hpop0 hgens with ⟨hfinal, hvrs⟩
          cases hh : (sortDesc Prod.snd
              (finalPop.map (fun ind => (ind, evaluateFitness g data ind)))).head? with
          | none => rw [hh] at h; exact Option.noConfusion h
          | some best =>
              rw [hh] at h
              simp only [Option.map_some'] at h
              injection h with h1
              injection h1 with h2 h3
              subst h2
              have hbm := mem_sortDesc.mp (head?_mem hh)
              rcases List.mem_map.mp hbm with ⟨ind, hind, hrfl⟩
              have hgood : goodInd g best.1 := by
                rw [← hrfl]
                exact hfinal ind hind
              rcases hgood with ⟨hnd, hlen, hrange⟩
              refine ⟨sortAsc_sortedLt hnd, ?_, ?_⟩
              · rw [sortAsc_length, hlen]
              · intro x hx
                exact hrange x (sortAsc_mem.mp hx)

theorem getVal_some_mem {sc : List (ℕ × JSNum)} {k : ℕ} {cur : JSNum}
    (h : getVal sc k = some cur) : (k, cur) ∈ sc := by
  unfold getVal at h
  cases hf : sc.find? (fun e => e.1 == k) with
  | none => rw [hf] at h; exact Option.noConfusion h
  | some e =>
      rw [hf] at h
      simp only [Option.map_some'] at h
      injection h with h1
      have hm := List.mem_of_find?_eq_some hf
      have hp := List.find?_some hf
      have he : e.1 = k := by simpa using hp
      obtain ⟨ek, ev⟩ := e
      subst h1
      simp only at he
      subst he
      exact hm

theorem upsertAdd_inv {balls : ℕ} {sc : List (ℕ × JSNum)} {k : ℕ} {v : ℚ}
    (hsc : ∀ kv ∈ sc, (1 ≤ kv.1 ∧ kv.1 ≤ balls) ∨ kv.2 = JSNum.nan) :
    ∀ kv ∈ upsertAdd sc k v, (1 ≤ kv.1 ∧ kv.1 ≤ balls) ∨ kv.2 = JSNum.nan := by
  intro kv hkv
  unfold upsertAdd at hkv
  cases hg : getVal sc k with
  | none =>
      rw [hg] at hkv
      rcases setKey_mem hkv with h1 | h1
      · exact hsc kv h1
      · exact Or.inr (by rw [h1])
  | some cur =>
      rw [hg] at hkv
      rcases setKey_mem hkv with h1 | h1
      · exact hsc kv h1
      · rcases hsc (k, cur) (getVal_some_mem hg) with h2 | h2
        · exact Or.inl (by rw [h1]; exact h2)
        · refine Or.inr ?_
          rw [h1]
          simp only at h2
          rw [h2]
          rfl

theorem upsertAdd_sorted {sc : List (ℕ × JSNum)} {k : ℕ} {v : ℚ}
    (h : List.Pairwise (· < ·) (keysOf sc)) :
    List.Pairwise (· < ·) (keysOf (upsertAdd sc k v)) := by
  unfold upsertAdd
  cases getVal sc k with
  | none => exact setKey_sorted h
  | some cur => exact setKey_sorted h

theorem addHybridScore_inv {balls : ℕ} {w : ℚ} {pick : ℕ} :
    ∀ (prediction : List ℕ) (sc : List (ℕ × JSNum)),
      (∀ kv ∈ sc, (1 ≤ kv.1 ∧ kv.1 ≤ balls) ∨ kv.2 = JSNum.nan) →
      ∀ kv ∈ addHybridScore sc w prediction pick,
        (1 ≤ kv.1 ∧ kv.1 ≤ balls) ∨ kv.2 = JSNum.nan := by
  intro prediction
  unfold addHybridScore
  suffices hgen : ∀ (L : List (ℕ × ℕ)) (acc : List (ℕ × JSNum)),
      (∀ kv ∈ acc, (1 ≤ kv.1 ∧ kv.1 ≤ balls) ∨ kv.2 = JSNum.nan) →
      ∀ kv ∈ L.foldl (fun acc p =>
          upsertAdd acc p.2 (w * (((pick : ℚ) - (p.1 : ℚ)) / (pick : ℚ)))) acc,
        (1 ≤ kv.1 ∧ kv.1 ≤ balls) ∨ kv.2 = JSNum.nan by
    intro sc hsc
    exact hgen prediction.enum sc hsc
  intro L
  induction L with
  | nil => intro acc hacc; exact hacc
  | cons p L' ih =>
      intro acc hacc
      simp only [List.foldl_cons]
      exact ih _ (upsertAdd_inv hacc)

theorem addHybridScore_sorted {w : ℚ} {pick : ℕ} :
    ∀ (prediction : List ℕ) (sc : List (ℕ × JSNum)),
      List.Pairwise (· < ·) (keysOf sc) →
      List.Pairwise (· < ·) (keysOf (addHybridScore sc w prediction pick)) := by
  intro prediction
  unfold addHybridScore
  suffices hgen : ∀ (L : List (ℕ × ℕ)) (acc : List (ℕ × JSNum)),
      List.Pairwise (· < ·) (keysOf acc) →
      List.Pairwise (· < ·) (keysOf (L.foldl (fun acc p =>
        upsertAdd acc p.2 (w * (((pick : ℚ) - (p.1 : ℚ)) / (pick : ℚ)))) acc)) by
    intro sc hsc
    exact hgen prediction.enum sc hsc
  intro L
  induction L with
  | nil => intro acc hacc; exact hacc
  | cons p L' ih =>
      intro acc hacc
      simp only [List.foldl_cons]
      exact ih _ (upsertAdd_sorted hacc)

theorem hybridPrediction_good {g : GameConfig} {data : List Draw} {w : Weights}
    {rands rands' : List ℚ} {fuel : ℕ} {c : List ℕ}
    (h : hybridPrediction g data w rands fuel = some (c, rands')) :
    goodCandidate g.balls g.pick c := by
  simp only [hybridPrediction] at h
  cases h1 : frequencyBasedPrediction g data rands fuel with
  | none => rw [h1] at h; exact Option.noConfusion h
  | some p1 =>
    obtain ⟨c1, rs1⟩ := p1
    rw [h1] at h
    simp only [] at h
    cases h2 : overdueBasedPrediction g data rs1 fuel with
    | none => rw [h2] at h; exact Option.noConfusion h
    | some p2 =>
      obtain ⟨c2, rs2⟩ := p2
      rw [h2] at h
      simp only [] at h
      cases h3 : patternBasedPrediction g data rs2 fuel with
      | none => rw [h3] at h; exact Option.noConfusion h
      | some p3 =>
        obtain ⟨c3, rs3⟩ := p3
        rw [h3] at h
        simp only [] at h
        cases h4 : statisticalEquilibriumPrediction g data rs3 fuel with
        | none => rw [h4] at h; exact Option.noConfusion h
        | some p4 =>
          obtain ⟨c4, rs4⟩ := p4
          rw [h4] at h
          simp only [] at h
          cases h5 : deltaSystemPrediction g data rs4 fuel with
          | none => rw [h5] at h; exact Option.noConfusion h
          | some p5 =>
            obtain ⟨c5, rs5⟩ := p5
            rw [h5] at h
            simp only [] at h
            cases h6 : markovChainPrediction g data rs5 fuel with
            | none => rw [h6] at h; exact Option.noConfusion h
            | some p6 =>
              obtain ⟨c6, rs6⟩ := p6
              rw [h6] at h
              simp only [] at h
              cases h7 : geneticAlgorithmPrediction g data 30 50 rs6 fuel with
              | none => rw [h7] at h; exact Option.noConfusion h
              | some p7 =>
                obtain ⟨c7, rs7⟩ := p7
                rw [h7] at h
                simp only [] at h
                cases h8 : fourierAnalysisPrediction g data rs7 fuel with
                | none => rw [h8] at h; exact Option.noConfusion h
                | some p8 =>
                  obtain ⟨c8, rs8⟩ := p8
                  rw [h8] at h
                  simp only [] at h
                  refine weightedSelection_good ?_ ?_ h
                  · apply addHybridScore_inv
                    apply addHybridScore_inv
                    apply addHybridScore_inv
                    apply addHybridScore_inv
                    apply addHybridScore_inv
                    apply addHybridScore_inv
                    apply addHybridScore_inv
                    apply addHybridScore_inv
                    exact rangeMapWeights_inv _
                  · apply addHybridScore_sorted
                    apply addHybridScore_sorted
                    apply addHybridScore_sorted
                    apply addHybridScore_sorted
                    apply addHybridScore_sorted
                    apply addHybridScore_sorted
                    apply addHybridScore_sorted
                    apply addHybridScore_sorted
                    exact rangeMapWeights_sorted _
set_option maxHeartbeats 2000000
set_option maxRecDepth 8000

/-! The claim theorems: each claim of the specification is settled
below, preceded by the helper lemmas its proof needs. -/

/-- Claim C1, counterexample: the delta strategy seeds with a random
number in 1..15 that is never checked against the ball count, so for the
valid configuration N = 10, K = 1 with the valid one-draw dataset
[[5]] and the Math.random() value 9/10 (seed floor(13.5) + 1 = 14) the
engine returns the candidate [14], whose element exceeds N = 10. -/
theorem C1_delta_out_of_range_counterexample :
    validConfig ⟨10, 1⟩ ∧ validData ⟨10, 1⟩ [⟨[5]⟩] ∧ validRands [9 / 10] ∧
    runStrategy Alg.delta ⟨10, 1⟩ [⟨[5]⟩] defaultWeights [9 / 10] 10 =
      some ([14], []) ∧
    ¬ goodCandidate 10 1 [14] :=
  ⟨by decide, by decide, by with_unfolding_all decide,
   by with_unfolding_all rfl, by decide⟩

/-- Claim C1, amended: for every strategy of the switch and every valid
configuration, dataset and random stream, a returned candidate is a
strictly ascending sequence of exactly K distinct numbers; every number
lies in 1..N for every strategy except delta, whose random seed ranges
over 1..15 unchecked, so its numbers lie in 1..max(N, 15) (hence in
1..N exactly when N is at least 15). -/
theorem C1_all_strategies_valid_candidate {alg : Alg} {g : GameConfig}
    {data : List Draw} {w : Weights} {rands rands' : List ℚ} {fuel : ℕ}
    {c : List ℕ} (hcfg : validConfig g) (hdata : validData g data)
    (hv : validRands rands)
    (h : runStrategy alg g data w rands fuel = some (c, rands')) :
    goodCandidate (if alg = Alg.delta then max g.balls 15 else g.balls) g.pick c := by
  cases alg with
  | frequency =>
      rw [if_neg (by decide)]
      exact frequencyBasedPrediction_good h
  | overdue =>
      rw [if_neg (by decide)]
      exact overdueBasedPrediction_good h
  | pattern =>
      rw [if_neg (by decide)]
      exact patternBasedPrediction_good hcfg.1 h
  | statistical =>
      rw [if_neg (by decide)]
      exact statisticalEquilibriumPrediction_good hcfg hv h
  | wheeling =>
      rw [if_neg (by decide)]
      exact wheelingSystemPrediction_good h
  | delta =>
      rw [if_pos rfl]
      exact deltaSystemPrediction_good hcfg hv h
  | markov =>
      rw [if_neg (by decide)]
      exact markovChainPrediction_good h
  | genetic =>
      rw [if_neg (by decide)]
      exact geneticAlgorithmPrediction_good (by rcases hcfg with ⟨h1, h2⟩; omega) hv h
  | montecarlo =>
      rw [if_neg (by decide)]
      exact monteCarloSimulation_good hv h
  | fourier =>
      rw [if_neg (by decide)]
      exact fourierAnalysisPrediction_good h
  | hybrid =>
      rw [if_neg (by decide)]
      exact hybridPrediction_good h

/-- Claim C1, witness: the amended theorem applied to the pattern
strategy on a concrete valid configuration and dataset. -/
theorem C1_witness :
    validConfig ⟨10, 4⟩ ∧ validData ⟨10, 4⟩ [⟨[1, 3, 5, 7]⟩] ∧ validRands [] ∧
    runStrategy Alg.pattern ⟨10, 4⟩ [⟨[1, 3, 5, 7]⟩] defaultWeights [] 10 =
      some ([1, 3, 5, 7], []) ∧
    goodCandidate (if Alg.pattern = Alg.delta then max (10 : ℕ) 15 else 10) 4
      [1, 3, 5, 7] :=
  ⟨by decide, by decide, by decide, by with_unfolding_all rfl,
    @C1_all_strategies_valid_candidate Alg.pattern ⟨10, 4⟩ [⟨[1, 3, 5, 7]⟩]
      defaultWeights [] [] 10 [1, 3, 5, 7] (by decide) (by decide) (by decide)
      (by with_unfolding_all rfl)⟩

/-- Claim C2, code bug: a constraint violation never causes a retry. In
the source every constraint branch runs continue, which inside a do-while
jumps to the loop condition, and the condition only re-enters the body
for a duplicate combination.  With the balanceOddEven constraint enabled,
a frequency prediction over ten balls whose history holds only the odd
numbers 1, 3, 5, 7 produces the all-odd candidate [1, 3, 5, 7] (odd
count 4, outside [2, K - 2] = [2, 2]); the run returns it immediately:
of the eight supplied random values only the four of the single
generation attempt are consumed, the other four come back unused, so no
replacement was ever generated although 99 attempts of budget remained. -/
theorem C2_constraint_violation_is_not_retried :
    validConfig ⟨10, 4⟩ ∧ validData ⟨10, 4⟩ (List.replicate 5 ⟨[1, 3, 5, 7]⟩) ∧
    validRands [1/8, 1/8, 1/8, 1/8, 1/2, 1/2, 1/2, 1/2] ∧
    generateMultipleSets ⟨10, 4⟩ (List.replicate 5 ⟨[1, 3, 5, 7]⟩) defaultWeights 1
      Alg.frequency ⟨true, false, false⟩ [1/8, 1/8, 1/8, 1/8, 1/2, 1/2, 1/2, 1/2] 20 =
      some ([([1, 3, 5, 7], JSNum.num 77)], [1/2, 1/2, 1/2, 1/2]) ∧
    oddEvenViolation ⟨10, 4⟩ [1, 3, 5, 7] = true :=
  ⟨by decide, by decide, by with_unfolding_all decide,
   by with_unfolding_all rfl, by decide⟩

theorem jadd_nan_left (x : JSNum) : jadd JSNum.nan x = JSNum.nan := by
  cases x <;> rfl

theorem jsub_nan_left (x : JSNum) : jsub JSNum.nan x = JSNum.nan := by
  cases x <;> rfl

theorem wsScan_nan : ∀ l : List (ℕ × JSNum), wsScan JSNum.nan l = none := by
  intro l
  induction l with
  | nil => rfl
  | cons kv rest ih =>
      obtain ⟨k, w⟩ := kv
      simp only [wsScan, jsub_nan_left, jleB_nan_left]
      rw [if_neg (by simp), ih]

theorem foldl_jadd_nan : ∀ l : List (ℕ × JSNum),
    List.foldl (fun acc kv => jadd acc kv.2) JSNum.nan l = JSNum.nan := by
  intro l
  induction l with
  | nil => rfl
  | cons kv rest ih => simp only [List.foldl_cons, jadd_nan_left, ih]

theorem sumVals_nan {l : List (ℕ × JSNum)} (hne : l ≠ [])
    (hall : ∀ kv ∈ l, kv.2 = JSNum.nan) : sumVals l = JSNum.nan := by
  cases l with
  | nil => exact absurd rfl hne
  | cons kv rest =>
      have h2 : kv.2 = JSNum.nan := hall kv (List.mem_cons_self kv rest)
      simp only [sumVals, List.foldl_cons, h2]
      have : jadd (JSNum.num 0) JSNum.nan = JSNum.nan := rfl
      rw [this, foldl_jadd_nan]

theorem wsLoop_allnan {balls count : ℕ} (hc : 1 ≤ count) {avail : List (ℕ × JSNum)}
    (hne : avail ≠ []) (hall : ∀ kv ∈ avail, kv.2 = JSNum.nan) :
    ∀ fuel rands, wsLoop balls count fuel avail [] rands = none := by
  intro fuel
  induction fuel with
  | zero => intro rands; rfl
  | succ n ih =>
      intro rands
      have hsum : sumVals avail = JSNum.nan := sumVals_nan hne hall
      cases rands with
      | nil =>
          simp only [wsLoop, hsum]
          rw [if_neg (by simp; omega), if_neg (by simp)]
      | cons r rs =>
          simp only [wsLoop, hsum]
          rw [if_neg (by simp; omega), if_neg (by simp)]
          have hmul : jmul (JSNum.num r) JSNum.nan = JSNum.nan := rfl
          rw [hmul, wsScan_nan, ih rs]

theorem frequencyWeights_empty_nan (g : GameConfig) :
    ∀ kv ∈ frequencyWeights g [], kv.2 = JSNum.nan := by
  intro kv hkv
  simp only [frequencyWeights, numFreq, List.map_nil, List.sum_nil, List.mem_map] at hkv
  obtain ⟨n, _, rfl⟩ := hkv
  have hz : (List.map (fun _ : ℕ => (0 : ℕ)) (List.range' 1 g.balls)).sum = 0 := by simp
  rw [hz]
  norm_num [jdiv]

/-- Claim C3, code bug: on the empty dataset expectedFrequency is 0 and
every per-number frequency is 0, but the zero-weight fallback of weighted
selection is never reached: each weight is the JavaScript 0/0 = NaN, the
total is NaN rather than 0, NaN-poisoned comparisons always fail, and
the selection loop spins forever without selecting, so the
frequency-based prediction diverges (no fuel bound suffices) instead of
returning K numbers. -/
theorem C3_empty_dataset_frequency_diverges (g : GameConfig) (hcfg : validConfig g) :
    getExpectedFrequency g [] = 0 ∧
    (∀ n, numFreq [] n = 0) ∧
    getNumberFrequency g [] = (List.range' 1 g.balls).map (fun n => (n, 0)) ∧
    ∀ rands fuel, frequencyBasedPrediction g [] rands fuel = none := by
  refine ⟨by simp [getExpectedFrequency], fun n => rfl, by simp [getNumberFrequency, numFreq], ?_⟩
  intro rands fuel
  have hballs : 1 ≤ g.balls := le_trans hcfg.1 (le_of_lt hcfg.2)
  have hne : frequencyWeights g [] ≠ [] := by
    simp only [frequencyWeights, numFreq]
    intro hcontra
    have := congrArg List.length hcontra
    simp [List.length_range'] at this
    omega
  unfold frequencyBasedPrediction weightedSelection
  rw [wsLoop_allnan hcfg.1 hne (frequencyWeights_empty_nan g) fuel rands]
  rfl

/-- Claim C3, witness. -/
theorem C3_witness :
    validConfig ⟨10, 3⟩ ∧ frequencyBasedPrediction ⟨10, 3⟩ [] [1/2] 5 = none :=
  ⟨by decide, (C3_empty_dataset_frequency_diverges ⟨10, 3⟩ (by decide)).2.2.2 [1/2] 5⟩

theorem deltaAltPush_stuck {r2 : ℚ} (h0 : 0 ≤ r2) :
    deltaAltPush ⟨16, 3⟩ [15, 16] r2 = [15, 16] := by
  unfold deltaAltPush
  rw [if_neg]
  rintro ⟨h1, -⟩
  have hfl : (0 : ℤ) ≤ ⌊r2 * 10⌋ := Int.floor_nonneg.mpr (by positivity)
  have hgl : ([15, 16] : List ℕ).getLast?.getD 0 = 16 := rfl
  have hb : ({ balls := 16, pick := 3 } : GameConfig).balls = 16 := rfl
  rw [hgl, hb] at h1
  omega

theorem deltaLoop_stuck :
    ∀ fuel rands, validRands rands →
      deltaLoop ⟨16, 3⟩ [1, 14] fuel [15, 16] rands = none := by
  intro fuel
  induction fuel with
  | zero => intro rands _; rfl
  | succ n ih =>
      intro rands hv
      cases rands with
      | nil =>
          simp only [deltaLoop]
          rw [if_neg (by simp)]
      | cons r rs =>
          simp only [deltaLoop]
          rw [if_neg (by simp)]
          have hv1 : 0 ≤ r ∧ r < 1 := hv r (List.mem_cons_self r rs)
          have hvrs : validRands rs := fun x hx => hv x (List.mem_cons_of_mem r hx)
          rcases hidx : jsIndex [1, 14] ⌊r * ((List.length [1, 14] : ℕ) : ℚ)⌋ with _ | d
          · simp only [hidx]
            cases rs with
            | nil => rfl
            | cons r2 rs2 =>
                have hv2 : 0 ≤ r2 := (hvrs r2 (List.mem_cons_self r2 rs2)).1
                have hvrs2 : validRands rs2 :=
                  fun x hx => hvrs x (List.mem_cons_of_mem r2 hx)
                simp only []
                rw [deltaAltPush_stuck hv2]
                exact ih rs2 hvrs2
          · simp only [hidx]
            have hd : d = 1 ∨ d = 14 := by
              have := jsIndex_mem hidx
              simpa using this
            rw [if_neg]
            · cases rs with
              | nil => rfl
              | cons r2 rs2 =>
                  have hv2 : 0 ≤ r2 := (hvrs r2 (List.mem_cons_self r2 rs2)).1
                  have hvrs2 : validRands rs2 :=
                    fun x hx => hvrs x (List.mem_cons_of_mem r2 hx)
                  simp only []
                  rw [deltaAltPush_stuck hv2]
                  exact ih rs2 hvrs2
            · rintro ⟨hle, -⟩
              have hgl : ([15, 16] : List ℕ).getLast?.getD 0 = 16 := rfl
              rw [hgl] at hle
              rcases hd with rfl | rfl <;> omega

/-- Claim C4, code bug: the delta walk need not terminate.  With the
valid configuration N = 16, K = 3 and the valid dataset [[1, 2, 16]]
(observed deltas 1 and 14), the seed random 14/15 gives the start 15
and the next random 0 advances by delta 1 to reach [15, 16]; from
there the last number is 16 = N, every delta advance lands above N and
every fallback advance adds at least 1, so no further number is ever
accepted: for every random continuation and every fuel bound the walk
consumes the whole stream without reaching K = 3 numbers, i.e. the
strategy diverges instead of always terminating with exactly K
numbers. -/
theorem C4_delta_system_diverges :
    validConfig ⟨16, 3⟩ ∧ validData ⟨16, 3⟩ [⟨[1, 2, 16]⟩] ∧
    ∀ rs fuel, validRands rs →
      deltaSystemPrediction ⟨16, 3⟩ [⟨[1, 2, 16]⟩] ((14 : ℚ)/15 :: 0 :: rs) fuel = none := by
  refine ⟨by decide, by decide, ?_⟩
  intro rs fuel hv
  have hsd : deltaSortedDeltas [⟨[1, 2, 16]⟩] = [1, 14] := by with_unfolding_all rfl
  have hstart : ((⌊(14 : ℚ)/15 * 15⌋ + 1).toNat) = 15 := by
    have hfl : ⌊(14 : ℚ)/15 * 15⌋ = (14 : ℤ) := by norm_num
    rw [hfl]
    rfl
  have hloop : deltaLoop ⟨16, 3⟩ [1, 14] fuel [15] ((0 : ℚ) :: rs) = none := by
    cases fuel with
    | zero => rfl
    | succ n =>
        simp only [deltaLoop]
        rw [if_neg (by simp)]
        have hidx : jsIndex [1, 14] ⌊(0 : ℚ) * ((List.length [1, 14] : ℕ) : ℚ)⌋ =
            some 1 := by norm_num [jsIndex]
        simp only [hidx]
        have hgl1 : ([15] : List ℕ).getLast?.getD 0 = 15 := rfl
        rw [if_pos (by rw [hgl1]; exact ⟨by norm_num, by decide⟩)]
        have h1516 : ([15] ++ [([15] : List ℕ).getLast?.getD 0 + 1]) = [15, 16] := by
          rw [hgl1]
          rfl
        rw [h1516]
        exact deltaLoop_stuck n rs hv
  simp only [deltaSystemPrediction, hsd, hstart, hloop]

/-- Claim C4, witness. -/
theorem C4_witness :
    validRands [] ∧
    deltaSystemPrediction ⟨16, 3⟩ [⟨[1, 2, 16]⟩] [(14 : ℚ)/15, 0] 5 = none :=
  ⟨by decide, C4_delta_system_diverges.2.2 [] 5 (by decide)⟩

theorem jdiv_num {a b : ℚ} (h : b ≠ 0) :
    jdiv (JSNum.num a) (JSNum.num b) = JSNum.num (a / b) := by
  unfold jdiv
  simp only []
  rw [if_neg h]

theorem jmin_num (a b : ℚ) : jmin (JSNum.num a) (JSNum.num b) = JSNum.num (min a b) := by
  unfold jmin jleB
  simp only []
  rcases le_or_lt a b with h | h
  · rw [if_pos (by simpa using h), min_eq_left h]
  · rw [if_neg (by simpa using not_le.mpr h), min_eq_right (le_of_lt h)]

theorem jadd_num (a b : ℚ) : jadd (JSNum.num a) (JSNum.num b) = JSNum.num (a + b) := rfl

theorem jsub_num (a b : ℚ) : jsub (JSNum.num a) (JSNum.num b) = JSNum.num (a - b) := rfl

theorem jmul_num (a b : ℚ) : jmul (JSNum.num a) (JSNum.num b) = JSNum.num (a * b) := rfl

theorem jabs_num (a : ℚ) : jabs (JSNum.num a) = JSNum.num |a| := rfl

theorem jround_num (a : ℚ) : jround (JSNum.num a) = JSNum.num ((⌊a + 1/2⌋ : ℤ) : ℚ) := rfl

theorem conf_final {x : ℚ} (hx : 0 ≤ x) :
    ∃ z : ℤ, jmin (jround (JSNum.num x)) (JSNum.num 100) = JSNum.num (z : ℚ) ∧
      0 ≤ z ∧ z ≤ 100 := by
  refine ⟨min ⌊x + 1/2⌋ 100, ?_, ?_, min_le_right _ _⟩
  · rw [jround_num, jmin_num]
    congr 1
    push_cast
    rfl
  · exact le_min (Int.floor_nonneg.mpr (by linarith)) (by norm_num)

/-- Claim C5, amended: for every valid configuration, every valid
nonempty dataset and every valid candidate, the confidence score is an
integer in [0, 100]: every component is a nonnegative number (the
frequency component needs a nonzero expected frequency, hence the
nonempty dataset), so the rounded sum is a nonnegative integer, and the
final Math.min caps it at 100.  On an empty (still valid) dataset the
score is NaN instead, see the counterexample. -/
theorem C5_confidence_integer_in_range (g : GameConfig) (data : List Draw)
    (numbers : List ℕ) (hcfg : validConfig g) (hvd : validData g data)
    (hne : data ≠ []) (hgood : goodCandidate g.balls g.pick numbers) :
    ∃ z : ℤ, calculateConfidence g data numbers = JSNum.num (z : ℚ) ∧
      0 ≤ z ∧ z ≤ 100 := by
  have hpick : 1 ≤ g.pick := hcfg.1
  have hballs : 1 ≤ g.balls := le_trans hcfg.1 (le_of_lt hcfg.2)
  have hexp' : (0 : ℚ) < getExpectedFrequency g data := by
    unfold getExpectedFrequency
    apply div_pos
    · have hlen : 1 ≤ data.length := List.length_pos.mpr hne
      have : 1 ≤ data.length * g.pick := Nat.one_le_iff_ne_zero.mpr
        (Nat.mul_ne_zero (by omega) (by omega))
      exact_mod_cast Nat.lt_of_lt_of_le Nat.zero_lt_one (by exact_mod_cast this)
    · exact_mod_cast Nat.lt_of_lt_of_le Nat.zero_lt_one hballs
  have hexp : getExpectedFrequency g data ≠ 0 := ne_of_gt hexp'
  have hhp0 : (0 : ℚ) < (g.pick : ℚ) / 2 := by
    have : (0 : ℚ) < (g.pick : ℚ) := by exact_mod_cast Nat.lt_of_lt_of_le Nat.zero_lt_one hpick
    linarith
  have hhp : ((g.pick : ℚ) / 2) ≠ 0 := ne_of_gt hhp0
  have hsp0 : (0 : ℚ) < (g.balls : ℚ) * (4 / 5) := by
    have : (0 : ℚ) < (g.balls : ℚ) := by exact_mod_cast Nat.lt_of_lt_of_le Nat.zero_lt_one hballs
    linarith
  have hsp : ((g.balls : ℚ) * (4 / 5)) ≠ 0 := ne_of_gt hsp0
  have hdecn : 1 ≤ (g.balls + 9) / 10 := by omega
  have hdec : ((((g.balls + 9) / 10 : ℕ)) : ℚ) ≠ 0 := by
    exact_mod_cast Nat.one_le_iff_ne_zero.mp hdecn
  unfold calculateConfidence
  simp only []
  simp only [jsub_num, jabs_num]
  rw [jdiv_num (b := getExpectedFrequency g data) hexp,
    jdiv_num (b := (g.pick : ℚ) / 2) hhp,
    jdiv_num (b := (g.balls : ℚ) * (4 / 5)) hsp,
    jdiv_num (b := (((g.balls + 9) / 10 : ℕ) : ℚ)) hdec]
  simp only [jmin_num, jsub_num, jmul_num, jadd_num]
  apply conf_final
  have hodds : (oddCount numbers : ℚ) ≤ (g.pick : ℚ) := by
    have h1 : oddCount numbers ≤ numbers.length := List.length_filter_le _ _
    have h2 : numbers.length = g.pick := hgood.2.1
    exact_mod_cast h2 ▸ h1
  have hbal : |(oddCount numbers : ℚ) - (g.pick : ℚ) / 2| / ((g.pick : ℚ) / 2) ≤ 1 := by
    rw [div_le_one hhp0, abs_le]
    constructor <;> [linarith [Nat.cast_nonneg (α := ℚ) (oddCount numbers)]; linarith]
  have havg : (0 : ℚ) ≤ ((numbers.map (fun n => (numFreq data n : ℚ))).sum) / (numbers.length : ℚ) := by
    apply div_nonneg
    · apply List.sum_nonneg
      intro x hx
      simp only [List.mem_map] at hx
      obtain ⟨n, _, rfl⟩ := hx
      positivity
    · positivity
  have hp1 : (0 : ℚ) ≤ min (((numbers.map (fun n => (numFreq data n : ℚ))).sum /
      (numbers.length : ℚ)) / getExpectedFrequency g data) (3 / 2) * 20 := by
    apply mul_nonneg _ (by norm_num)
    exact le_min (div_nonneg havg (le_of_lt hexp')) (by norm_num)
  have hp2 : (0 : ℚ) ≤ (1 - |(oddCount numbers : ℚ) - (g.pick : ℚ) / 2| /
      ((g.pick : ℚ) / 2)) * 20 := by
    apply mul_nonneg _ (by norm_num)
    linarith
  have hp3 : (0 : ℚ) ≤ min ((spreadOf numbers : ℚ) / ((g.balls : ℚ) * (4 / 5))) 1 * 20 := by
    apply mul_nonneg _ (by norm_num)
    exact le_min (div_nonneg (by positivity) (le_of_lt hsp0)) (by norm_num)
  positivity

/-- Claim C5, counterexample: the empty dataset is a valid dataset and
[1, 2, 3] a valid candidate for N = 10, K = 3, yet the confidence is
NaN, not an integer in [0, 100]: expectedFrequency is 0, the frequency
component divides by it giving NaN, and NaN survives Math.round and the
final Math.min(., 100), which caps only above. -/
theorem C5_confidence_nan_on_empty_data :
    validConfig ⟨10, 3⟩ ∧ validData ⟨10, 3⟩ [] ∧ goodCandidate 10 3 [1, 2, 3] ∧
    calculateConfidence ⟨10, 3⟩ [] [1, 2, 3] = JSNum.nan :=
  ⟨by decide, by decide, by decide, by with_unfolding_all rfl⟩

/-- Claim C5, witness: the amended theorem at a concrete nonempty
dataset. -/
theorem C5_witness :
    validConfig ⟨10, 3⟩ ∧ validData ⟨10, 3⟩ [⟨[1, 2, 3]⟩] ∧
    ([⟨[1, 2, 3]⟩] : List Draw) ≠ [] ∧ goodCandidate 10 3 [1, 2, 3] ∧
    ∃ z : ℤ, calculateConfidence ⟨10, 3⟩ [⟨[1, 2, 3]⟩] [1, 2, 3] = JSNum.num (z : ℚ) ∧
      0 ≤ z ∧ z ≤ 100 :=
  ⟨by decide, by decide, by decide, by decide,
   C5_confidence_integer_in_range ⟨10, 3⟩ [⟨[1, 2, 3]⟩] [1, 2, 3]
     (by decide) (by decide) (by decide) (by decide)⟩

theorem list_sum_map_div (l : List ℚ) (c : ℚ) :
    (l.map (fun x => x / c)).sum = l.sum / c := by
  induction l with
  | nil => simp
  | cons x xs ih => simp [ih, add_div]

/-- Claim C6: in the normalized Markov transition matrix over a valid
dataset, the row of a source number with at least one observed
transition sums to exactly 1, and a row with no observed transitions
sums to 0 (its entries are the raw zero counts, since normalization
divides only when the row total is positive). -/
theorem C6_markov_row_sums (g : GameConfig) (data : List Draw)
    (hvd : validData g data) (fromN : ℕ) :
    (0 < markovRowTotal g data fromN →
      ((List.range' 1 g.balls).map (fun toN => markovProb g data fromN toN)).sum = 1) ∧
    (markovRowTotal g data fromN = 0 →
      ((List.range' 1 g.balls).map (fun toN => markovProb g data fromN toN)).sum = 0) := by
  constructor
  · intro hpos
    have hc : ((markovRowTotal g data fromN : ℕ) : ℚ) ≠ 0 := by
      exact_mod_cast Nat.pos_iff_ne_zero.mp hpos
    have h1 : (List.range' 1 g.balls).map (fun toN => markovProb g data fromN toN) =
        (List.range' 1 g.balls).map (fun toN =>
          (transCount data fromN toN : ℚ) / (markovRowTotal g data fromN : ℚ)) := by
      apply List.map_congr_left
      intro toN _
      unfold markovProb
      rw [if_pos hpos]
    have h2 : (List.range' 1 g.balls).map (fun toN =>
        (transCount data fromN toN : ℚ) / (markovRowTotal g data fromN : ℚ)) =
        ((List.range' 1 g.balls).map (fun toN => (transCount data fromN toN : ℚ))).map
          (fun x => x / (markovRowTotal g data fromN : ℚ)) := by
      rw [List.map_map]
      rfl
    have h3 : ((List.range' 1 g.balls).map (fun toN => (transCount data fromN toN : ℚ))).sum =
        ((markovRowTotal g data fromN : ℕ) : ℚ) := by
      unfold markovRowTotal
      rw [Nat.cast_list_sum, List.map_map]
      rfl
    rw [h1, h2, list_sum_map_div, h3, div_self hc]
  · intro h0
    apply List.sum_eq_zero
    intro x hx
    rcases List.mem_map.mp hx with ⟨toN, htoN, rfl⟩
    unfold markovProb
    rw [if_neg (by omega)]
    have hz : transCount data fromN toN = 0 := by
      have hmem : transCount data fromN toN ∈
          (List.range' 1 g.balls).map (fun t => transCount data fromN t) :=
        List.mem_map.mpr ⟨toN, htoN, rfl⟩
      have := (List.sum_eq_zero_iff).mp h0 _ hmem
      exact this
    rw [hz]
    norm_num

/-- Claim C6, witness. -/
theorem C6_witness :
    validData ⟨3, 2⟩ [⟨[1, 2]⟩, ⟨[2, 3]⟩] ∧
    0 < markovRowTotal ⟨3, 2⟩ [⟨[1, 2]⟩, ⟨[2, 3]⟩] 2 ∧
    ((List.range' 1 3).map
      (fun toN => markovProb ⟨3, 2⟩ [⟨[1, 2]⟩, ⟨[2, 3]⟩] 2 toN)).sum = 1 :=
  ⟨by decide, by decide,
   (C6_markov_row_sums ⟨3, 2⟩ [⟨[1, 2]⟩, ⟨[2, 3]⟩] (by decide) 2).1 (by decide)⟩

theorem head?_take_of_pos {α : Type} {l : List α} {k : ℕ} (hk : 1 ≤ k) :
    (l.take k).head? = l.head? := by
  cases l with
  | nil => simp
  | cons a as =>
      cases k with
      | zero => omega
      | succ n => rfl

theorem geneticOffspring_keeps {g : GameConfig} {elite : List (List ℕ × ℚ)}
    {popSize : ℕ} {x : List ℕ} :
    ∀ (fuel : ℕ) (newPop : List (List ℕ)) (rands : List ℚ)
      (out : List (List ℕ)) (rands' : List ℚ),
      x ∈ newPop →
      geneticOffspring g elite popSize fuel newPop rands = some (out, rands') →
      x ∈ out := by
  intro fuel
  induction fuel with
  | zero => intro newPop rands out rands' _ h; simp [geneticOffspring] at h
  | succ fuel ih =>
      intro newPop rands out rands' hx h
      have hexit : some (newPop, rands) = some (out, rands') → x ∈ out := by
        intro h0
        injection h0 with h1
        injection h1 with h2 h3
        subst h2
        exact hx
      cases rands with
      | nil =>
          simp only [geneticOffspring] at h
          by_cases hc : popSize ≤ newPop.length
          · rw [if_pos hc] at h
            exact hexit h
          · rw [if_neg hc] at h
            exact Option.noConfusion h
      | cons r1 rs1 =>
          simp only [geneticOffspring] at h
          by_cases hc : popSize ≤ newPop.length
          · rw [if_pos hc] at h
            exact hexit h
          · rw [if_neg hc] at h
            cases hj1 : jsIndex elite ⌊r1 * (elite.length : ℚ)⌋ with
            | none => rw [hj1] at h; exact Option.noConfusion h
            | some e1 =>
                rw [hj1] at h
                simp only [] at h
                cases rs1 with
                | nil => exact Option.noConfusion h
                | cons r2 rs2 =>
                    simp only [] at h
                    cases hj2 : jsIndex elite ⌊r2 * (elite.length : ℚ)⌋ with
                    | none => rw [hj2] at h; exact Option.noConfusion h
                    | some e2 =>
                        rw [hj2] at h
                        simp only [] at h
                        cases hco : crossover g e1.1 e2.1 rs2 fuel with
                        | none => rw [hco] at h; exact Option.noConfusion h
                        | some p =>
                            obtain ⟨child, rs3⟩ := p
                            rw [hco] at h
                            simp only [] at h
                            cases hmu : mutate g child (1 / 10) rs3 fuel with
                            | none => rw [hmu] at h; exact Option.noConfusion h
                            | some q =>
                                obtain ⟨mutated, rs4⟩ := q
                                rw [hmu] at h
                                simp only [] at h
                                exact ih _ _ _ _ (List.mem_append_left _ hx) h

/-- Claim C7: elitism.  When one genetic generation with a nonempty
population and an elite share of at least one individual (population
size at least 5) succeeds, the new population contains an individual
whose fitness is at least the fitness of every member of the old
population, so the best fitness never decreases across generations
(fitness of a fixed individual is deterministic). -/
theorem C7_genetic_elitism {g : GameConfig} {data : List Draw} {popSize : ℕ}
    {pop newPop : List (List ℕ)} {rands rs : List ℚ} {fuel : ℕ}
    (hpop : pop ≠ []) (hps : 5 ≤ popSize)
    (h : geneticStep g data popSize pop rands fuel = some (newPop, rs)) :
    ∃ y ∈ newPop, ∀ x ∈ pop,
      evaluateFitness g data x ≤ evaluateFitness g data y := by
  simp only [geneticStep] at h
  have hk : 1 ≤ popSize / 5 := by omega
  have hsne : sortDesc Prod.snd (pop.map (fun ind => (ind, evaluateFitness g data ind))) ≠ [] := by
    intro hcontra
    have := (sortDesc_perm Prod.snd (pop.map (fun ind => (ind, evaluateFitness g data ind)))).symm.length_eq
    rw [hcontra] at this
    simp at this
    exact hpop this
  obtain ⟨a, ha⟩ : ∃ a, (sortDesc Prod.snd
      (pop.map (fun ind => (ind, evaluateFitness g data ind)))).head? = some a := by
    cases hl : sortDesc Prod.snd (pop.map (fun ind => (ind, evaluateFitness g data ind))) with
    | nil => exact absurd hl hsne
    | cons b bs => exact ⟨b, rfl⟩
  have hmax := sortDesc_head_max ha
  have hamem : a ∈ sortDesc Prod.snd (pop.map (fun ind => (ind, evaluateFitness g data ind))) :=
    List.mem_of_mem_head? ha
  have hamem2 : a ∈ pop.map (fun ind => (ind, evaluateFitness g data ind)) :=
    mem_sortDesc.mp hamem
  obtain ⟨ind, hind, rfl⟩ := List.mem_map.mp hamem2
  have haelite : (ind, evaluateFitness g data ind) ∈ (sortDesc Prod.snd
      (pop.map (fun i => (i, evaluateFitness g data i)))).take (popSize / 5) := by
    have hh : ((sortDesc Prod.snd
        (pop.map (fun i => (i, evaluateFitness g data i)))).take (popSize / 5)).head? =
        some (ind, evaluateFitness g data ind) := by
      rw [head?_take_of_pos hk]
      exact ha
    exact List.mem_of_mem_head? hh
  have hinit : ind ∈ ((sortDesc Prod.snd
      (pop.map (fun i => (i, evaluateFitness g data i)))).take (popSize / 5)).map Prod.fst :=
    List.mem_map.mpr ⟨(ind, evaluateFitness g data ind), haelite, rfl⟩
  refine ⟨ind, geneticOffspring_keeps _ _ _ _ _ hinit h, ?_⟩
  intro x hx
  have := hmax (x, evaluateFitness g data x)
    (List.mem_map.mpr ⟨x, hx, rfl⟩)
  exact this

/-- Claim C7, witness: one concrete generation. -/
theorem C7_witness :
    ([[1], [2], [1], [2], [1]] : List (List ℕ)) ≠ [] ∧ (5 : ℕ) ≤ 5 ∧
    geneticStep ⟨2, 1⟩ [⟨[1]⟩] 5 [[1], [2], [1], [2], [1]]
      (List.replicate 12 (1/2)) 20 = some ([[1], [1], [1], [1], [1]], []) ∧
    ∃ y ∈ ([[1], [1], [1], [1], [1]] : List (List ℕ)),
      ∀ x ∈ ([[1], [2], [1], [2], [1]] : List (List ℕ)),
        evaluateFitness ⟨2, 1⟩ [⟨[1]⟩] x ≤ evaluateFitness ⟨2, 1⟩ [⟨[1]⟩] y :=
  ⟨by decide, by decide, by with_unfolding_all rfl,
   @C7_genetic_elitism ⟨2, 1⟩ [⟨[1]⟩] 5 [[1], [2], [1], [2], [1]]
     [[1], [1], [1], [1], [1]] (List.replicate 12 (1/2)) [] 20
     (by decide) (by decide) (by with_unfolding_all rfl)⟩

theorem foldl_jadd_const : ∀ (P : List ℕ) (c a : ℚ),
    List.foldl (fun acc kv => jadd acc kv.2) (JSNum.num a)
      (P.map (fun n => (n, JSNum.num c))) = JSNum.num (a + c * P.length) := by
  intro P
  induction P with
  | nil => intro c a; simp
  | cons p P ih =>
      intro c a
      simp only [List.map_cons, List.foldl_cons]
      have h1 : jadd (JSNum.num a) (JSNum.num c) = JSNum.num (a + c) := rfl
      rw [h1, ih]
      congr 1
      rw [List.length_cons]
      push_cast
      ring

theorem sumVals_prefix_zeros (P Q : List ℕ) (c : ℚ) :
    sumVals (P.map (fun n => (n, JSNum.num c)) ++ Q.map (fun n => (n, JSNum.num 0))) =
      JSNum.num (c * P.length) := by
  unfold sumVals
  rw [List.foldl_append, foldl_jadd_const, foldl_jadd_const]
  congr 1
  ring

theorem jleB_num (a b : ℚ) : jleB (JSNum.num a) (JSNum.num b) = decide (a ≤ b) := rfl

theorem wsScan_front_positive : ∀ (P : List ℕ) (Z : List (ℕ × JSNum)) (v c : ℚ),
    0 ≤ v → 0 < c → v < c * P.length →
    ∃ k P₂, k ∈ P ∧ List.Perm P (k :: P₂) ∧
      wsScan (JSNum.num v) (P.map (fun n => (n, JSNum.num c)) ++ Z) =
        some (k, P₂.map (fun n => (n, JSNum.num c)) ++ Z) := by
  intro P
  induction P with
  | nil =>
      intro Z v c hv hc hlt
      simp only [List.length_nil, Nat.cast_zero, mul_zero] at hlt
      exact absurd hv (not_le.mpr hlt)
  | cons p P ih =>
      intro Z v c hv hc hlt
      by_cases hle : v - c ≤ 0
      · refine ⟨p, P, List.mem_cons_self p P, List.Perm.refl _, ?_⟩
        simp only [List.map_cons, List.cons_append, wsScan]
        have h1 : jsub (JSNum.num v) (JSNum.num c) = JSNum.num (v - c) := rfl
        rw [h1, if_pos (by rw [jleB_num]; exact decide_eq_true hle)]
        rfl
      · have hv' : 0 ≤ v - c := le_of_lt (by linarith [not_le.mp hle])
        have hlt' : v - c < c * P.length := by
          have : (((p :: P).length : ℕ) : ℚ) = (P.length : ℚ) + 1 := by
            push_cast [List.length_cons]
            try ring
          rw [this] at hlt
          linarith
        obtain ⟨k, P₂, hk, hperm, hscan⟩ := ih Z (v - c) c hv' hc hlt'
        refine ⟨k, p :: P₂, List.mem_cons_of_mem p hk, ?_, ?_⟩
        · exact List.Perm.trans (List.Perm.cons p hperm) (List.Perm.swap k p P₂)
        · simp only [List.map_cons, List.cons_append, wsScan]
          have h1 : jsub (JSNum.num v) (JSNum.num c) = JSNum.num (v - c) := rfl
          rw [h1, if_neg (by rw [jleB_num]; simpa using hle)]
          simp only [List.append_eq]
          rw [hscan]

theorem c8_freq_loop : ∀ (fuel : ℕ) (P sel : List ℕ) (rands : List ℚ)
    (out : List ℕ) (rs : List ℚ),
    validRands rands →
    sel.length + P.length = 3 →
    wsLoop 10 3 fuel (P.map (fun n => (n, JSNum.num (1/3))) ++
      (List.range' 4 7).map (fun n => (n, JSNum.num 0))) sel rands = some (out, rs) →
    List.Perm out (sel ++ P) := by
  intro fuel
  induction fuel with
  | zero => intro P sel rands out rs _ _ h; exact Option.noConfusion h
  | succ fuel ih =>
      intro P sel rands out rs hv hlen h
      by_cases hc : 3 ≤ sel.length
      · have hP : P = [] := by
          have : P.length = 0 := by omega
          exact List.length_eq_zero.mp this
        subst hP
        simp only [wsLoop] at h
        rw [if_pos hc] at h
        injection h with h1
        injection h1 with h2 h3
        subst h2
        simp
      · have hPlen : 1 ≤ P.length := by omega
        have hsum : sumVals (P.map (fun n => (n, JSNum.num (1/3))) ++
            (List.range' 4 7).map (fun n => (n, JSNum.num 0))) =
            JSNum.num ((1/3) * P.length) := sumVals_prefix_zeros _ _ _
        have hsumne : ¬ (JSNum.num ((1/3 : ℚ) * P.length) = JSNum.num 0) := by
          intro hcontra
          injection hcontra with h0
          have : (0 : ℚ) < (1/3 : ℚ) * P.length := by
            have : (1 : ℚ) ≤ (P.length : ℚ) := by exact_mod_cast hPlen
            nlinarith
          rw [h0] at this
          exact lt_irrefl 0 this
        cases rands with
        | nil =>
            simp only [wsLoop] at h
            rw [if_neg hc, hsum, if_neg hsumne] at h
            exact Option.noConfusion h
        | cons r rs' =>
            have hr := hv r (List.mem_cons_self r rs')
            have hvrs : validRands rs' := fun x hx => hv x (List.mem_cons_of_mem r hx)
            simp only [wsLoop] at h
            rw [if_neg hc, hsum, if_neg hsumne] at h
            have hmul : jmul (JSNum.num r) (JSNum.num ((1/3 : ℚ) * P.length)) =
                JSNum.num (r * ((1/3) * P.length)) := rfl
            rw [hmul] at h
            have htot : (0 : ℚ) < (1/3) * P.length := by
              have : (1 : ℚ) ≤ (P.length : ℚ) := by exact_mod_cast hPlen
              nlinarith
            obtain ⟨k, P₂, hk, hperm, hscan⟩ := wsScan_front_positive P
              ((List.range' 4 7).map (fun n => (n, JSNum.num 0)))
              (r * ((1/3) * P.length)) (1/3)
              (mul_nonneg hr.1 (le_of_lt htot)) (by norm_num)
              (by nlinarith [hr.2, htot])
            rw [hscan] at h
            simp only [] at h
            have hlen' : (sel ++ [k]).length + P₂.length = 3 := by
              have := hperm.length_eq
              simp only [List.length_cons] at this
              simp only [List.length_append, List.length_singleton]
              omega
            have hout := ih P₂ (sel ++ [k]) rs' out rs hvrs hlen' h
            have : List.Perm ((sel ++ [k]) ++ P₂) (sel ++ P) := by
              rw [List.append_assoc]
              exact List.Perm.append_left sel (List.Perm.symm (by simpa using hperm))
            exact hout.trans this

/-- Claim C8, counterexample: Math.random() may return exactly 0, and
then random = 0 * total = 0 is already ≤ 0 at the first key of the
scan, so the first remaining key is selected regardless of its weight:
over the weights {1: 0, 2: 1, 3: 0} a draw of one number with the
random value 0 returns the zero-weight number 1 while the
positive-weight number 2 is unselected. -/
theorem C8_zero_weight_chosen_counterexample :
    validRands [0] ∧
    weightedSelection 3 [(1, JSNum.num 0), (2, JSNum.num 1), (3, JSNum.num 0)] 1 [0] 5 =
      some ([1], []) ∧
    (2 : ℕ) ∉ ([1] : List ℕ) :=
  ⟨by decide, by with_unfolding_all rfl, by decide⟩

/-- Claim C8, amended: (1) whenever the consumed random scan value is
strictly positive and all weights are nonnegative numbers, the selected
key has strictly positive weight (the original claim fails only at the
boundary random 0); (2) over the weights putting w > 0 on number 1 and
0 on every other number, a successful selection of at least one number
always includes number 1, for every valid random stream (the positive
weight sits on the first scanned key, so even a zero random selects
it); (3) on the dataset of five identical draws {1, 2, 3} with N = 10,
K = 3, the frequency-based prediction always returns exactly [1, 2, 3]
for every valid random stream, because the positive-weight keys 1, 2, 3
precede every zero-weight key in the scan. -/
theorem C8_weighted_selection_positive_weights :
    (∀ (l l' : List (ℕ × JSNum)) (v : ℚ) (k : ℕ), 0 < v →
      (∀ kv ∈ l, ∃ q : ℚ, kv.2 = JSNum.num q ∧ 0 ≤ q) →
      wsScan (JSNum.num v) l = some (k, l') →
      ∃ q : ℚ, (k, JSNum.num q) ∈ l ∧ 0 < q) ∧
    (∀ (balls count : ℕ) (w : ℚ) (rands : List ℚ) (fuel : ℕ)
      (l : List ℕ) (rs : List ℚ), 0 < w → 1 ≤ count → validRands rands →
      weightedSelection balls
        ((1, JSNum.num w) :: (List.range' 2 (balls - 1)).map (fun n => (n, JSNum.num 0)))
        count rands fuel = some (l, rs) → 1 ∈ l) ∧
    (∀ (rands : List ℚ) (fuel : ℕ) (l : List ℕ) (rs : List ℚ), validRands rands →
      frequencyBasedPrediction ⟨10, 3⟩ (List.replicate 5 ⟨[1, 2, 3]⟩) rands fuel =
        some (l, rs) → l = [1, 2, 3]) := by
  refine ⟨?_, ?_, ?_⟩
  · intro l
    induction l with
    | nil => intro l' v k _ _ h; exact Option.noConfusion h
    | cons kv rest ih =>
        intro l' v k hv hw h
        obtain ⟨k0, w0⟩ := kv
        obtain ⟨q0, hq0, hq0n⟩ := hw (k0, w0) (List.mem_cons_self _ _)
        simp only [] at hq0
        subst hq0
        simp only [wsScan] at h
        have h1 : jsub (JSNum.num v) (JSNum.num q0) = JSNum.num (v - q0) := rfl
        rw [h1] at h
        by_cases hle : v - q0 ≤ 0
        · rw [if_pos (by rw [jleB_num]; exact decide_eq_true hle)] at h
          injection h with h2
          injection h2 with h3 h4
          subst h3
          exact ⟨q0, List.mem_cons_self _ _, by linarith⟩
        · rw [if_neg (by rw [jleB_num]; simpa using hle)] at h
          cases hscan : wsScan (JSNum.num (v - q0)) rest with
          | none => rw [hscan] at h; exact Option.noConfusion h
          | some p =>
              obtain ⟨k', rest'⟩ := p
              rw [hscan] at h
              simp only [] at h
              injection h with h2
              injection h2 with h3 h4
              subst h3
              obtain ⟨q, hqmem, hqpos⟩ := ih rest' (v - q0) k'
                (by linarith [not_le.mp hle])
                (fun x hx => hw x (List.mem_cons_of_mem _ hx)) hscan
              exact ⟨q, List.mem_cons_of_mem _ hqmem, hqpos⟩
  · intro balls count w rands fuel l rs hw hcount hv h
    unfold weightedSelection at h
    rcases Option.map_eq_some'.mp h with ⟨⟨out, rs2⟩, hloop, heq⟩
    simp only [] at heq
    injection heq with he1 he2
    subst he1
    cases fuel with
    | zero => exact Option.noConfusion hloop
    | succ fuel =>
        cases rands with
        | nil =>
            simp only [wsLoop] at hloop
            rw [if_neg (by simp only [List.length_nil, Nat.le_zero]; omega)] at hloop
            have hsum : sumVals ((1, JSNum.num w) ::
                (List.range' 2 (balls - 1)).map (fun n => (n, JSNum.num 0))) =
                JSNum.num w := by
              have := sumVals_prefix_zeros [1] (List.range' 2 (balls - 1)) w
              simpa using this
            rw [hsum, if_neg (by intro hc; injection hc with hc0; linarith)] at hloop
            exact Option.noConfusion hloop
        | cons r rs' =>
            have hr := hv r (List.mem_cons_self r rs')
            simp only [wsLoop] at hloop
            rw [if_neg (by simp only [List.length_nil, Nat.le_zero]; omega)] at hloop
            have hsum : sumVals ((1, JSNum.num w) ::
                (List.range' 2 (balls - 1)).map (fun n => (n, JSNum.num 0))) =
                JSNum.num w := by
              have := sumVals_prefix_zeros [1] (List.range' 2 (balls - 1)) w
              simpa using this
            rw [hsum, if_neg (by intro hc; injection hc with hc0; linarith)] at hloop
            have hmul : jmul (JSNum.num r) (JSNum.num w) = JSNum.num (r * w) := rfl
            rw [hmul] at hloop
            have hscan : wsScan (JSNum.num (r * w)) ((1, JSNum.num w) ::
                (List.range' 2 (balls - 1)).map (fun n => (n, JSNum.num 0))) =
                some (1, (List.range' 2 (balls - 1)).map (fun n => (n, JSNum.num 0))) := by
              simp only [wsScan]
              have h1 : jsub (JSNum.num (r * w)) (JSNum.num w) = JSNum.num (r * w - w) := rfl
              rw [h1]
              rw [if_pos (by rw [jleB_num]; simp only [decide_eq_true_eq]; nlinarith [hr.1, hr.2])]
            rw [hscan] at hloop
            simp only [] at hloop
            have h1mem : (1 : ℕ) ∈ out :=
              wsLoop_mem fuel _ ([] ++ [1]) rs' out rs2 (by simp) hloop
            exact sortAsc_mem.mpr h1mem
  · intro rands fuel l rs hv h
    unfold frequencyBasedPrediction at h
    have hw : frequencyWeights ⟨10, 3⟩ (List.replicate 5 ⟨[1, 2, 3]⟩) =
        ([1, 2, 3] : List ℕ).map (fun n => (n, JSNum.num (1/3))) ++
        (List.range' 4 7).map (fun n => (n, JSNum.num 0)) := by
      with_unfolding_all rfl
    rw [hw] at h
    unfold weightedSelection at h
    rcases Option.map_eq_some'.mp h with ⟨⟨out, rs2⟩, hloop, heq⟩
    simp only [] at heq
    injection heq with he1 he2
    subst he1
    have hperm := c8_freq_loop fuel [1, 2, 3] [] rands out rs2 hv (by decide) hloop
    simp only [List.nil_append] at hperm
    have hsorted : List.Sorted (· ≤ ·) (sortAsc out) := sortAsc_sorted out
    have hp2 : List.Perm (sortAsc out) [1, 2, 3] := (sortAsc_perm out).trans hperm
    exact List.eq_of_perm_of_sorted hp2 hsorted (by decide)

/-- Claim C8, witness: the three amended parts at concrete inputs. -/
theorem C8_witness :
    (0 : ℚ) < 1 ∧
    wsScan (JSNum.num 1) [(4, JSNum.num 2)] = some (4, []) ∧
    (∃ q : ℚ, ((4 : ℕ), JSNum.num q) ∈ [((4 : ℕ), JSNum.num 2)] ∧ 0 < q) ∧
    weightedSelection 3 ((1, JSNum.num (1/2)) ::
      (List.range' 2 2).map (fun n => (n, JSNum.num 0))) 1 [0] 5 = some ([1], []) ∧
    (1 : ℕ) ∈ ([1] : List ℕ) ∧
    ([1, 2, 3] : List ℕ) = [1, 2, 3] :=
  ⟨by norm_num, by with_unfolding_all rfl,
   C8_weighted_selection_positive_weights.1 [(4, JSNum.num 2)] [] 1 4 (by norm_num)
     (by intro kv hkv; rcases List.mem_singleton.mp hkv with rfl; exact ⟨2, rfl, by norm_num⟩)
     (by with_unfolding_all rfl),
   by with_unfolding_all rfl,
   C8_weighted_selection_positive_weights.2.1 3 1 (1/2) [0] 5 [1] [] (by norm_num)
     (by norm_num) (by decide) (by with_unfolding_all rfl),
   C8_weighted_selection_positive_weights.2.2 [0, 0, 0] 8 [1, 2, 3] [] (by decide)
     (by with_unfolding_all rfl)⟩

theorem insDesc_snd_zero (x : ℕ × ℕ) (hx : x.2 = 0) :
    ∀ acc : List (ℕ × ℕ), (∀ p ∈ acc, p.2 = 0) →
      insDesc Prod.snd x acc = acc ++ [x] := by
  intro acc
  induction acc with
  | nil => intro _; rfl
  | cons y ys ih =>
      intro h
      have hy : y.2 = 0 := h y (List.mem_cons_self y ys)
      simp only [insDesc]
      rw [if_neg (by rw [hx, hy]; exact lt_irrefl 0)]
      rw [ih (fun p hp => h p (List.mem_cons_of_mem y hp))]
      rfl

theorem sortDesc_snd_zero_aux : ∀ (L acc : List (ℕ × ℕ)),
    (∀ p ∈ L, p.2 = 0) → (∀ p ∈ acc, p.2 = 0) →
    L.foldl (fun a x => insDesc Prod.snd x a) acc = acc ++ L := by
  intro L
  induction L with
  | nil => intro acc _ _; simp
  | cons x L ih =>
      intro acc hL hacc
      have hx : x.2 = 0 := hL x (List.mem_cons_self x L)
      simp only [List.foldl_cons]
      rw [insDesc_snd_zero x hx acc hacc]
      rw [ih (acc ++ [x]) (fun p hp => hL p (List.mem_cons_of_mem x hp))]
      · simp
      · intro p hp
        rcases List.mem_append.mp hp with h1 | h1
        · exact hacc p h1
        · rcases List.mem_singleton.mp h1 with rfl
          exact hx

theorem sortDesc_snd_zero (l : List (ℕ × ℕ)) (h : ∀ p ∈ l, p.2 = 0) :
    sortDesc Prod.snd l = l := by
  unfold sortDesc
  rw [sortDesc_snd_zero_aux l [] h (by simp)]
  rfl

theorem insAscBy_snd_zero (x : ℕ × ℕ) (hx : x.2 = 0) :
    ∀ acc : List (ℕ × ℕ), (∀ p ∈ acc, p.2 = 0) →
      insAscBy Prod.snd x acc = acc ++ [x] := by
  intro acc
  induction acc with
  | nil => intro _; rfl
  | cons y ys ih =>
      intro h
      have hy : y.2 = 0 := h y (List.mem_cons_self y ys)
      simp only [insAscBy]
      rw [if_neg (by rw [hx, hy]; exact lt_irrefl 0)]
      rw [ih (fun p hp => h p (List.mem_cons_of_mem y hp))]
      rfl

theorem sortAscBy_snd_zero_aux : ∀ (L acc : List (ℕ × ℕ)),
    (∀ p ∈ L, p.2 = 0) → (∀ p ∈ acc, p.2 = 0) →
    L.foldl (fun a x => insAscBy Prod.snd x a) acc = acc ++ L := by
  intro L
  induction L with
  | nil => intro acc _ _; simp
  | cons x L ih =>
      intro acc hL hacc
      have hx : x.2 = 0 := hL x (List.mem_cons_self x L)
      simp only [List.foldl_cons]
      rw [insAscBy_snd_zero x hx acc hacc]
      rw [ih (acc ++ [x]) (fun p hp => hL p (List.mem_cons_of_mem x hp))]
      · simp
      · intro p hp
        rcases List.mem_append.mp hp with h1 | h1
        · exact hacc p h1
        · rcases List.mem_singleton.mp h1 with rfl
          exact hx

theorem sortAscBy_snd_zero (l : List (ℕ × ℕ)) (h : ∀ p ∈ l, p.2 = 0) :
    sortAscBy Prod.snd l = l := by
  unfold sortAscBy
  rw [sortAscBy_snd_zero_aux l [] h (by simp)]
  rfl

theorem numFreq_nil_map (g : GameConfig) :
    getNumberFrequency g [] = (List.range' 1 g.balls).map (fun n => (n, 0)) := by
  simp [getNumberFrequency, numFreq]

theorem map_zero_snd (g : GameConfig) :
    ∀ p ∈ (List.range' 1 g.balls).map (fun n => (n, 0)), (p : ℕ × ℕ).2 = 0 := by
  intro p hp
  rcases List.mem_map.mp hp with ⟨n, _, rfl⟩
  rfl

/-- Claim C9, counterexample: on the empty dataset getSumDistribution
does not return all-zero/neutral statistics: Math.min of an empty spread
is Infinity, Math.max is -Infinity, and the mean is the NaN 0/0. -/
theorem C9_sum_distribution_empty_counterexample :
    (getSumDistribution []).min = JSNum.inf ∧
    (getSumDistribution []).max = JSNum.ninf ∧
    (getSumDistribution []).avg = JSNum.nan ∧ (getSumDistribution []).ranges = [] :=
  ⟨by with_unfolding_all rfl, by with_unfolding_all rfl,
   by with_unfolding_all rfl, by with_unfolding_all rfl⟩

/-- Claim C9, amended: every analyzer operation is total on the empty
dataset and returns the all-zero/empty statistics, except
getSumDistribution, whose min, max and mean come back as Infinity,
-Infinity and NaN rather than zeros. -/
theorem C9_empty_dataset_tolerated (g : GameConfig) (count : ℕ) :
    getNumberFrequency g [] = (List.range' 1 g.balls).map (fun n => (n, 0)) ∧
    getExpectedFrequency g [] = 0 ∧
    getHotNumbers g [] count = ((List.range' 1 g.balls).map (fun n => (n, 0))).take count ∧
    getColdNumbers g [] count = ((List.range' 1 g.balls).map (fun n => (n, 0))).take count ∧
    getOverdueNumbers g [] count = ((List.range' 1 g.balls).map (fun n => (n, 0))).take count ∧
    getCommonPairs [] count = [] ∧
    getOddEvenDistribution [] = [] ∧
    getSumDistribution [] = ⟨JSNum.inf, JSNum.ninf, JSNum.nan, []⟩ ∧
    getDecadeDistribution g [] = (List.range ((g.balls + 9) / 10)).map
      (fun i => ((10 * i + 1, min (10 * (i + 1)) g.balls), 0)) ∧
    getDeltaAnalysis [] = [] ∧
    getPatternAnalysis g [] = ⟨0, 0, 0, 0, 0, 0, 0⟩ := by
  refine ⟨numFreq_nil_map g, by simp [getExpectedFrequency], ?_, ?_, ?_,
    by have h : sortDesc Prod.snd (pairCounts []) = [] := rfl
       unfold getCommonPairs
       rw [h]
       simp,
    rfl,
    by with_unfolding_all rfl, by simp [getDecadeDistribution], rfl, rfl⟩
  · unfold getHotNumbers
    rw [numFreq_nil_map g, sortDesc_snd_zero _ (map_zero_snd g)]
  · unfold getColdNumbers
    rw [numFreq_nil_map g, sortAscBy_snd_zero _ (map_zero_snd g)]
  · unfold getOverdueNumbers
    have h1 : (List.range' 1 g.balls).map (fun n => (n, lastSeen [] n)) =
        (List.range' 1 g.balls).map (fun n => (n, 0)) := by
      apply List.map_congr_left
      intro n _
      rfl
    rw [h1, sortDesc_snd_zero _ (map_zero_snd g)]

/-- Claim C10, counterexample: setting a strategy weight to 0 stores 0,
but hybridPrediction reads the weight through algoWeights[algo] || 0.1,
and 0 is falsy, so the stored 0 is replaced by 0.1: the updated stored
weight is not the one used by subsequent hybrid predictions. -/
theorem C10_zero_weight_ignored_counterexample :
    (setWeights defaultWeights ⟨some 0, none, none, none⟩).frequency = 0 ∧
    hybridAlgoWeight (setWeights defaultWeights ⟨some 0, none, none, none⟩)
      HAlg.frequency = 1 / 10 ∧
    (1 / 10 : ℚ) ≠ 0 :=
  ⟨rfl, by norm_num [hybridAlgoWeight, setWeights, jsOrDefault], by norm_num⟩

/-- Claim C10, amended: setWeights updates exactly the supplied keys and
keeps every other stored weight (initially 0.25 each), and a subsequent
hybrid prediction uses the stored weight of each configurable strategy
whenever that weight is nonzero (a zero weight is replaced by the 0.1
fallback of the || default). -/
theorem C10_setWeights_frame_and_hybrid_use (w : Weights) (u : WeightsUpdate) :
    (∀ q, u.frequency = some q → (setWeights w u).frequency = q) ∧
    (u.frequency = none → (setWeights w u).frequency = w.frequency) ∧
    (∀ q, u.overdue = some q → (setWeights w u).overdue = q) ∧
    (u.overdue = none → (setWeights w u).overdue = w.overdue) ∧
    (∀ q, u.pattern = some q → (setWeights w u).pattern = q) ∧
    (u.pattern = none → (setWeights w u).pattern = w.pattern) ∧
    (∀ q, u.statistical = some q → (setWeights w u).statistical = q) ∧
    (u.statistical = none → (setWeights w u).statistical = w.statistical) ∧
    defaultWeights = ⟨1/4, 1/4, 1/4, 1/4⟩ ∧
    ((setWeights w u).frequency ≠ 0 →
      hybridAlgoWeight (setWeights w u) HAlg.frequency = (setWeights w u).frequency) ∧
    ((setWeights w u).overdue ≠ 0 →
      hybridAlgoWeight (setWeights w u) HAlg.overdue = (setWeights w u).overdue) ∧
    ((setWeights w u).pattern ≠ 0 →
      hybridAlgoWeight (setWeights w u) HAlg.pattern = (setWeights w u).pattern) ∧
    ((setWeights w u).statistical ≠ 0 →
      hybridAlgoWeight (setWeights w u) HAlg.statistical = (setWeights w u).statistical) := by
  refine ⟨fun q hq => by simp [setWeights, hq], fun hn => by simp [setWeights, hn],
    fun q hq => by simp [setWeights, hq], fun hn => by simp [setWeights, hn],
    fun q hq => by simp [setWeights, hq], fun hn => by simp [setWeights, hn],
    fun q hq => by simp [setWeights, hq], fun hn => by simp [setWeights, hn],
    rfl,
    fun h => by simp [hybridAlgoWeight, jsOrDefault, h],
    fun h => by simp [hybridAlgoWeight, jsOrDefault, h],
    fun h => by simp [hybridAlgoWeight, jsOrDefault, h],
    fun h => by simp [hybridAlgoWeight, jsOrDefault, h]⟩

/-- Claim C10, witness. -/
theorem C10_witness :
    (setWeights defaultWeights ⟨some (1/2), none, none, none⟩).frequency = 1/2 ∧
    (setWeights defaultWeights ⟨some (1/2), none, none, none⟩).overdue =
      defaultWeights.overdue ∧
    hybridAlgoWeight (setWeights defaultWeights ⟨some (1/2), none, none, none⟩)
      HAlg.frequency =
      (setWeights defaultWeights ⟨some (1/2), none, none, none⟩).frequency :=
  ⟨(C10_setWeights_frame_and_hybrid_use defaultWeights
      ⟨some (1/2), none, none, none⟩).1 (1/2) rfl,
   (C10_setWeights_frame_and_hybrid_use defaultWeights
      ⟨some (1/2), none, none, none⟩).2.2.2.1 rfl,
   (C10_setWeights_frame_and_hybrid_use defaultWeights
      ⟨some (1/2), none, none, none⟩).2.2.2.2.2.2.2.2.2.1 (by norm_num [setWeights])⟩
